import Mathlib

/-!
# kanmu/xlog: output channel and logger core

A shallow embedding of `output.go` (the `OutputChannel` hand-off between the
logger and a terminal output) and of `xlog.go` (the level gate, the record
construction of `send`, and `extractFields`).

Modelling conventions.

* An `xlog.Output` is a value with one method `Write(fields) error`.  Its
  behaviour is a function on an explicit state `σ`; a returned error is its
  message (`none` is Go's `nil`).
* The `input` channel of an `OutputChannel` is its buffer (oldest record
  first) together with its capacity.  One iteration of the consumer goroutine
  (receive a record, call `o.Write` on it) is a single step.
* A Go map is an association list; `data[k] = v` replaces the entry for `k`
  or adds one.
* A Go string is a sequence of bytes.  A `String` stands for it with one `Char` per
  byte, so that `String.length` is `len(s)`, `String.take` the slice `s[:n]`, and
  the order of `sort.Strings` the lexicographic order of the character lists.
* Functions of imported packages (`fmt.Sprint`, `strings.ToUpper`, `time.Format`,
  `json.Marshal`) and helpers of this package that are not in the files at hand
  (`writeValue`, `colorPrint`) are parameters, gathered in `Lib`.
-/

namespace Xlog

/-! ## Outputs -/

/-- The `xlog.Output` interface: `Write` takes the state of the output and a record,
and gives the new state and the returned error (`none` for `nil`). -/
structure Output (σ R : Type) where
  Write : σ → R → σ × Option String

/-- The output `o` with every call of `Write` recorded: the second component of the
state lists, oldest first, the records `Write` has been called on. -/
def Output.traced {σ R : Type} (o : Output σ R) : Output (σ × List R) R :=
  ⟨fun s r => (((o.Write s.1 r).1, s.2 ++ [r]), (o.Write s.1 r).2)⟩

/-- The error `ErrBufferFull = errors.New("buffer full")`. -/
def ErrBufferFull : String := "buffer full"

/-- What `critialLogger.Print(a, b)` prints for two string operands. -/
def critialLine (a b : String) : String := a ++ b

/-! ## OutputChannel -/

/-- Where the consumer goroutine started by `NewOutputChannelBuffer` stands. -/
inductive Consumer where
  /-- alive, but not at its `select` (just started, or inside an iteration) -/
  | running
  /-- alive and at its `select`, ready to receive from `input` or `stop` -/
  | ready
  /-- returned, after it received the stop signal and closed `stop` -/
  | exited
  deriving DecidableEq, Repr

/-- The `OutputChannel` struct with what its fields refer to:
`input` is the content of the channel `oc.input` (capacity `bufSize`),
`sink` the state of `oc.output`, `stopNil` whether `oc.stop == nil`,
`critical` the lines printed on `critialLogger` so far. -/
structure OutputChannel (σ R : Type) where
  bufSize : Nat
  input : List R
  sink : σ
  stopNil : Bool
  consumer : Consumer
  critical : List String

/-- The constructor `NewOutputChannelBuffer(o, bufSize)`: an empty channel of the given capacity,
a non-nil `stop`, and the consumer goroutine started. -/
def NewOutputChannelBuffer {σ R : Type} (s : σ) (bufSize : Nat) : OutputChannel σ R :=
  { bufSize := bufSize, input := [], sink := s, stopNil := false,
    consumer := Consumer.running, critical := [] }

/-- The constructor `NewOutputChannel(o)`: the default buffer of 100 messages. -/
def NewOutputChannel {σ R : Type} (s : σ) : OutputChannel σ R :=
  NewOutputChannelBuffer s 100

/-- The body shared by the consumer goroutine and `Flush` for one received record:
`if err := o.Write(msg); err != nil { critialLogger.Print(...) }`. -/
def deliver {σ R : Type} (o : Output σ R) (oc : OutputChannel σ R) (msg : R) :
    OutputChannel σ R :=
  match o.Write oc.sink msg with
  | (s, none) => { oc with sink := s }
  | (s, some err) =>
    { oc with sink := s,
              critical := oc.critical ++ [critialLine "cannot write log message: " err] }

/-- The method `OutputChannel.Write`: the non-blocking send `select { case oc.input <- fields: default: }`.
A send on a buffered channel proceeds when there is room in the buffer; a send on an
unbuffered channel (`bufSize = 0`) proceeds when a receiver is ready, and the only
receiver that ever waits on `input` is the consumer at its `select`, which then
runs its iteration on the record.  Otherwise the `default` case returns
`ErrBufferFull`.  The hand-off and the consumer's call of `oc.output.Write` are one step
here; `Interleaved.Write` has the hand-off alone, after which the consumer holds the
record and has yet to write it. -/
def OutputChannel.Write {σ R : Type} (o : Output σ R) (oc : OutputChannel σ R) (fields : R) :
    OutputChannel σ R × Option String :=
  if oc.input.length < oc.bufSize then
    ({ oc with input := oc.input ++ [fields] }, none)
  else if oc.bufSize = 0 ∧ oc.consumer = Consumer.ready then
    (deliver o { oc with consumer := Consumer.running } fields, none)
  else
    (oc, some ErrBufferFull)

/-- The loop of `Flush` over the buffered records: each `case msg := <-oc.input`
takes the oldest record; `default` (nothing buffered) returns. -/
def flushLoop {σ R : Type} (o : Output σ R) : List R → OutputChannel σ R → OutputChannel σ R
  | [], oc => { oc with input := [] }
  | msg :: rest, oc => flushLoop o rest (deliver o { oc with input := rest } msg)

/-- The method `OutputChannel.Flush`. -/
def OutputChannel.Flush {σ R : Type} (o : Output σ R) (oc : OutputChannel σ R) :
    OutputChannel σ R :=
  flushLoop o oc.input oc

/-- The method `OutputChannel.Close`.  `none` stands for a call that never returns: the send
`oc.stop <- struct{}{}` has no receiver once the consumer has exited.  Otherwise the
consumer takes the stop signal, closes `stop` and returns; `Close` then sets
`oc.stop = nil` and flushes. -/
def OutputChannel.Close {σ R : Type} (o : Output σ R) (oc : OutputChannel σ R) :
    Option (OutputChannel σ R) :=
  if oc.stopNil then some oc
  else if oc.consumer = Consumer.exited then none
  else some (OutputChannel.Flush o { oc with consumer := Consumer.exited, stopNil := true })

/-- One iteration of the consumer goroutine taking the `case msg := <-oc.input`
branch: enabled when the consumer is alive and a record is buffered.  The iteration is
taken as a whole: the receive and the call of `oc.output.Write` are one step here.  The
section on the goroutines statement by statement has the two apart (`Move.receive` and
`Move.handle`), with the moves of other goroutines between them. -/
def consumerStep {σ R : Type} (o : Output σ R) (oc : OutputChannel σ R) : OutputChannel σ R :=
  match oc.consumer, oc.input with
  | Consumer.exited, _ => oc
  | _, [] => oc
  | _, msg :: rest => deliver o { oc with input := rest, consumer := Consumer.running } msg

/-- The consumer goroutine reaches its `select` and waits there. -/
def consumerArrive {σ R : Type} (oc : OutputChannel σ R) : OutputChannel σ R :=
  match oc.consumer with
  | Consumer.running => { oc with consumer := Consumer.ready }
  | _ => oc

/-! ## Records -/

/-- The dynamic values an `interface{}` holds in this development.  A Go map may be
`nil`, which is `none`; `xF` is the named type `xlog.F`, whose underlying type is
`map[string]interface{}`. -/
inductive Value where
  /-- the nil interface value -/
  | nil : Value
  /-- a `string` -/
  | str (s : String) : Value
  /-- an `int` -/
  | int (n : Int) : Value
  /-- a `bool` -/
  | bool (b : Bool) : Value
  /-- a `time.Time`, as an instant -/
  | time (t : Int) : Value
  /-- a `map[string]interface{}` -/
  | mapSI (m : Option (List (String × Value))) : Value
  /-- an `xlog.F` -/
  | xF (m : Option (List (String × Value))) : Value
  /-- a `map[string]string` -/
  | mapSS (m : Option (List (String × String))) : Value

/-- A non-nil `map[string]interface{}`: its entries, each key once. -/
abbrev Fields := List (String × Value)

/-- The map index expression `m[k]`, with `none` for an absent key. -/
def Fields.get : Fields → String → Option Value
  | [], _ => none
  | (k', v) :: rest, k => if k' = k then some v else Fields.get rest k

/-- The map assignment `m[k] = v`. -/
def Fields.set : Fields → String → Value → Fields
  | [], k, v => [(k, v)]
  | (k', v') :: rest, k, v =>
    if k' = k then (k, v) :: rest else (k', v') :: Fields.set rest k v

/-- The keys of a map. -/
def Fields.keys (m : Fields) : List String := m.map Prod.fst

/-- The loop `for k, v := range src { data[k] = v }`; ranging over a nil map runs
the body zero times. -/
def Fields.assignAll (data : Fields) : Option Fields → Fields
  | none => data
  | some src => src.foldl (fun d kv => Fields.set d kv.1 kv.2) data

/-- Common field names for log messages. -/
def KeyTime : String := "time"

/-- The key of the message text. -/
def KeyMessage : String := "message"

/-- The key of the level name. -/
def KeyLevel : String := "level"

/-- The key of the call site. -/
def KeyFile : String := "file"

/-! ## Levels -/

/-- Modelled from the spec: the type `xlog.Level` of the imported package
`github.com/rs/xlog`, which is not part of this repository.  The spec gives the
levels as "one of debug/info/warn/error/fatal, lowest-to-highest severity". -/
inductive Level where
  | debug
  | info
  | warn
  | error
  | fatal
  deriving DecidableEq, Repr

/-- Modelled from the spec: the integer behind a level of the imported package, in the
spec's order "lowest-to-highest severity"; `LevelDebug` is 0, the value `close` resets
to and `TestSend` sends at. -/
def Level.toNat : Level → Nat
  | Level.debug => 0
  | Level.info => 1
  | Level.warn => 2
  | Level.error => 3
  | Level.fatal => 4

/-- Modelled from the spec: `Level.String`, the lower-case level name stored under
`level` in a record. -/
def Level.String : Level → String
  | Level.debug => "debug"
  | Level.info => "info"
  | Level.warn => "warn"
  | Level.error => "error"
  | Level.fatal => "fatal"

/-! ## Logger -/

/-- The `logger` struct.  `output`, `fields` and `now` may be nil (`none`).
`now` is a `func() time.Time`. -/
structure logger (σ : Type) where
  level : Level
  output : Option (Output σ Fields)
  fields : Option Fields
  disablePooling : Bool
  now : Option (Unit → Int)

/-- What a log call acts on: the state of the logger's output and the lines
printed on `critialLogger`. -/
structure Env (σ : Type) where
  sink : σ
  critical : List String

/-- The method `logger.Now`: calls `l.now`; calling a nil function panics (`none`). -/
def logger.Now {σ : Type} (l : logger σ) : Option Int :=
  match l.now with
  | none => none
  | some f => some (f ())

/-- The entries `send` generates itself, before it copies any field: `time`, `level`,
`message`, and `file` when the call site is known.  `caller` is what
`runtime.Caller(calldepth)` reports when `ok`: `path.Base(file)` and `line`. -/
def sendBase (t : Int) (level : Level) (caller : Option (String × Int)) (msg : String) :
    Fields :=
  let data : Fields := []
  let data := Fields.set data KeyTime (Value.time t)
  let data := Fields.set data KeyLevel (Value.str level.String)
  let data := Fields.set data KeyMessage (Value.str msg)
  match caller with
  | some (file, line) => Fields.set data KeyFile (Value.str (file ++ ":" ++ toString line))
  | none => data

/-- The record `send` builds (the statements between the gate and the call of
`l.output.Write`), given the time read from `l.Now()`: the generated entries, then the
fields of the call, then the fields of the logger when they are not nil. -/
def sendData {σ : Type} (l : logger σ) (t : Int) (level : Level) (caller : Option (String × Int))
    (msg : String) (fields : Option Fields) : Fields :=
  let data := sendBase t level caller msg
  let data := Fields.assignAll data fields
  match l.fields with
  | some lf => Fields.assignAll data (some lf)
  | none => data

/-- The method `logger.send`.  `none` is a panic. -/
def logger.send {σ : Type} (l : logger σ) (env : Env σ) (level : Level)
    (caller : Option (String × Int)) (msg : String) (fields : Option Fields) :
    Option (Env σ) :=
  if level.toNat < l.level.toNat then some env
  else match l.output with
    | none => some env
    | some o =>
      match l.Now with
      | none => none
      | some t =>
        match o.Write env.sink (sendData l t level caller msg fields) with
        | (s, none) => some { env with sink := s }
        | (s, some err) =>
          some { sink := s, critical := env.critical ++ [critialLine "send error: " err] }

/-- The function `extractFields(v *[]interface{})`: the returned map (`none` is a nil map) and
the slice `*v` after the call. -/
def extractFields (v : List Value) : Option Fields × List Value :=
  if 0 < v.length then
    match v[v.length - 1]? with
    | some (Value.mapSI f) => (f, v.take (v.length - 1))
    | some (Value.xF f) => (f, v.take (v.length - 1))
    | _ => (none, v)
  else (none, v)

/-- The method `logger.Copy`: `now` is not among the fields the struct literal sets. -/
def logger.Copy {σ : Type} (l : logger σ) : logger σ :=
  { level := l.level,
    output := l.output,
    fields := some (Fields.assignAll [] l.fields),
    disablePooling := l.disablePooling,
    now := none }

/-- The output `RecorderOutput`: stores the raw messages in its `Messages` field. -/
def RecorderOutput : Output (List Fields) Fields :=
  ⟨fun msgs fields => (msgs ++ [fields], none)⟩


/-! ## Runs of channel operations -/

/-- The operations on an `OutputChannel`: the three methods, and the two moves of
the consumer goroutine. -/
inductive Op (R : Type) where
  | write (r : R)
  | consumerStep
  | consumerArrive
  | flush
  | close

/-- One operation, with the records it had accepted (those whose `Write` returned
`nil`); `none` when the operation never returns. -/
def runOp {σ R : Type} (o : Output σ R) (oc : OutputChannel σ R) :
    Op R → Option (OutputChannel σ R × List R)
  | Op.write r =>
    match OutputChannel.Write o oc r with
    | (oc1, none) => some (oc1, [r])
    | (oc1, some _) => some (oc1, [])
  | Op.consumerStep => some (consumerStep o oc, [])
  | Op.consumerArrive => some (consumerArrive oc, [])
  | Op.flush => some (OutputChannel.Flush o oc, [])
  | Op.close =>
    match OutputChannel.Close o oc with
    | some oc1 => some (oc1, [])
    | none => none

/-- A sequence of operations, one after the other, with the records accepted on the
way, in `Write` order. -/
def exec {σ R : Type} (o : Output σ R) : OutputChannel σ R → List (Op R) →
    Option (OutputChannel σ R × List R)
  | oc, [] => some (oc, [])
  | oc, op :: ops =>
    match runOp o oc op with
    | none => none
    | some (oc1, acc1) =>
      match exec o oc1 ops with
      | none => none
      | some (oc2, acc2) => some (oc2, acc1 ++ acc2)

/-- Consecutive calls of `Write`, one per record, with the error each returned. -/
def writeAll {σ R : Type} (o : Output σ R) : OutputChannel σ R → List R →
    OutputChannel σ R × List (Option String)
  | oc, [] => (oc, [])
  | oc, r :: rs =>
    ((writeAll o (OutputChannel.Write o oc r).1 rs).1,
      (OutputChannel.Write o oc r).2 :: (writeAll o (OutputChannel.Write o oc r).1 rs).2)

/-- A record with one string field, as the tests build them. -/
def rec1 (k v : String) : Fields := [(k, Value.str v)]

/-- A fresh channel of capacity `n` in front of a `RecorderOutput`. -/
def recChan (n : Nat) : OutputChannel (List Fields) Fields :=
  NewOutputChannelBuffer [] n

/-- The logger `New` builds from `Config{Level: LevelWarn, Output: &RecorderOutput{},
NowGetter: func() time.Time { return fakeNow }}`, its output recorded. -/
def warnLogger : logger (List Fields × List Fields) :=
  { level := Level.warn, output := some RecorderOutput.traced, fields := none,
    disablePooling := false, now := some (fun _ => 0) }

/-- The logger `New` builds from `Config{Output: &RecorderOutput{}, Fields: xlog.F{"k":
"default"}, NowGetter: func() time.Time { return fakeNow }}`, its output recorded. -/
def defaultsLogger : logger (List Fields × List Fields) :=
  { level := Level.debug, output := some RecorderOutput.traced,
    fields := some (rec1 "k" "default"), disablePooling := false, now := some (fun _ => 0) }

/-- The logger of the scenario in the tests: `Config{Output: o, Fields: xlog.F{"foo":
"bar"}, NowGetter: func() time.Time { return fakeNow }}`, level debug. -/
def fooLogger : logger (List Fields × List Fields) :=
  { level := Level.debug, output := some RecorderOutput.traced,
    fields := some (rec1 "foo" "bar"), disablePooling := false, now := some (fun _ => 0) }

/-- An environment in which nothing has been written or printed yet. -/
def env0 : Env (List Fields × List Fields) := { sink := ([], []), critical := [] }

/-- The states a channel can be in: the buffer holds no more than its capacity, and the
consumer is alive as long as `stop` is not nil. -/
def ChanInv {σ R : Type} (oc : OutputChannel σ R) : Prop :=
  oc.input.length ≤ oc.bufSize ∧ (oc.stopNil = false → oc.consumer ≠ Consumer.exited)

/-! ## Composition outputs -/

/-- The struct `FilterOutput`; `Cond` and `Output` may be nil. -/
structure FilterOutput (σ R : Type) where
  Cond : Option (R → Bool)
  Output : Option (Output σ R)

/-- The method `FilterOutput.Write`; `none` is the panic of calling a nil `Cond`. -/
def FilterOutput.Write {σ R : Type} (f : FilterOutput σ R) (s : σ) (fields : R) :
    Option (σ × Option String) :=
  match f.Output with
  | none => some (s, none)
  | some o =>
    match f.Cond with
    | none => none
    | some cond => if cond fields then some (o.Write s fields) else some (s, none)

/-- The struct `LevelOutput`: one output per level, each possibly nil.  The outputs act
on one common state. -/
structure LevelOutput (σ : Type) where
  Debug : Option (Output σ Fields)
  Info : Option (Output σ Fields)
  Warn : Option (Output σ Fields)
  Error : Option (Output σ Fields)
  Fatal : Option (Output σ Fields)

/-- The `switch fields[KeyLevel]` of `LevelOutput.Write`: the output chosen for the
value found under `level` (`none` when the key is absent); an interface value equals a
string constant when it holds a string with that content. -/
def LevelOutput.choose {σ : Type} (l : LevelOutput σ) : Option Value → Option (Output σ Fields)
  | some (Value.str s) =>
    if s = "debug" then l.Debug
    else if s = "info" then l.Info
    else if s = "warn" then l.Warn
    else if s = "error" then l.Error
    else if s = "fatal" then l.Fatal
    else none
  | _ => none

/-- The method `LevelOutput.Write`. -/
def LevelOutput.Write {σ : Type} (l : LevelOutput σ) (s : σ) (fields : Fields) :
    σ × Option String :=
  match l.choose (Fields.get fields KeyLevel) with
  | some o => o.Write s fields
  | none => (s, none)

/-- The output registered in a `LevelOutput` for a level. -/
def LevelOutput.registered {σ : Type} (l : LevelOutput σ) : Level → Option (Output σ Fields)
  | Level.debug => l.Debug
  | Level.info => l.Info
  | Level.warn => l.Warn
  | Level.error => l.Error
  | Level.fatal => l.Fatal

/-- The test and assignment `if s, ok := v.(string); ok && len(s) > maxLen { ... = s[:maxLen] }`
of the two trim outputs: the new value to store, if any. -/
def trimmed (maxLen : Nat) : Option Value → Option Value
  | some (Value.str s) => if maxLen < s.length then some (Value.str (s.take maxLen)) else none
  | _ => none

/-- The loop of `NewTrimOutput` over the entries of `fields`, which it changes in place. -/
def trimLoop (maxLen : Nat) (fields : Fields) : Fields :=
  fields.foldl (fun d kv =>
    match trimmed maxLen (some kv.2) with
    | some v => Fields.set d kv.1 v
    | none => d) fields

/-- The output `NewTrimOutput(maxLen, o)`, for `maxLen >= 0`. -/
def NewTrimOutput {σ : Type} (maxLen : Nat) (o : Output σ Fields) : Output σ Fields :=
  ⟨fun s fields => o.Write s (trimLoop maxLen fields)⟩

/-- The loop of `NewTrimFieldsOutput` over the listed names. -/
def trimFieldsLoop (trimFields : List String) (maxLen : Nat) (fields : Fields) : Fields :=
  trimFields.foldl (fun d f =>
    match trimmed maxLen (Fields.get d f) with
    | some v => Fields.set d f v
    | none => d) fields

/-- The output `NewTrimFieldsOutput(trimFields, maxLen, o)`, for `maxLen >= 0`. -/
def NewTrimFieldsOutput {σ : Type} (trimFields : List String) (maxLen : Nat)
    (o : Output σ Fields) : Output σ Fields :=
  ⟨fun s fields => o.Write s (trimFieldsLoop trimFields maxLen fields)⟩

/-- What the trim outputs make of a value: a string longer than `maxLen` becomes its
first `maxLen` bytes, anything else stays. -/
def trimValue (maxLen : Nat) : Value → Value
  | Value.str s => if maxLen < s.length then Value.str (s.take maxLen) else Value.str s
  | v => v

/-- Whether a byte continues a character of a UTF-8 text: the bytes `10xxxxxx`. -/
def isContinuation (b : Char) : Bool := 128 ≤ b.toNat && b.toNat < 192

/-- The spec's "length" of a string value read in characters: the number of characters
of a UTF-8 text, which is the number of its bytes that start a character. -/
def charLength (str : String) : Nat :=
  (str.data.filter (fun b => !isContinuation b)).length

/-- The spec's "first `n` characters" of a UTF-8 text, as bytes: `n` times a byte that
starts a character and the bytes that continue it. -/
def takeChars : Nat → List Char → List Char
  | 0, _ => []
  | _, [] => []
  | n + 1, b :: rest =>
    b :: (rest.takeWhile isContinuation ++ takeChars n (rest.dropWhile isContinuation))

/-- The `LevelOutput` of `ExampleLevelOutput`, with recorders for the console and the
syslog outputs: debug and error are registered, the other levels are not. -/
def exampleLevelOutput : LevelOutput (List Fields × List Fields) :=
  { Debug := some RecorderOutput.traced, Info := none, Warn := none,
    Error := some RecorderOutput.traced, Fatal := none }

/-! ## Encoders -/

/-- The colours the console output prints with; the constants are declared in a file
of the package that is not at hand, `output.go` uses these five names. -/
inductive Color where
  | red
  | green
  | yellow
  | blue
  | gray
  deriving DecidableEq, Repr

/-- The functions the encoders and the logger call without defining them:
`writeValue(buf, v)` and `colorPrint(buf, s, c)` of this package (the bytes they append
 to the buffer, or the error `writeValue` returns), and the imported
`ts.Format("2006/01/02 15:04:05 ")`, `t.Format(time.RFC3339)`, `strings.ToUpper`,
`json.Marshal`, `fmt.Sprint` and `fmt.Sprintf`. -/
structure Lib where
  writeValue : Value → Except String String
  colorPrint : String → Color → String
  formatConsoleTime : Int → String
  formatRFC3339 : Int → String
  ToUpper : String → String
  Marshal : Fields → Except String String
  Sprint : List Value → String
  Sprintf : String → List Value → String

/-- An `io.Writer`: `Write` takes the state of the writer and the bytes, and gives the
new state and the returned error. -/
structure Writer (σ : Type) where
  Write : σ → String → σ × Option String

/-- The index expression `fields[k]` as an interface value: nil for an absent key. -/
def Fields.index (fields : Fields) (k : String) : Value :=
  (Fields.get fields k).getD Value.nil

/-- The loop that gathers the field keys, skipping `level`, `message` and `time`. -/
def gatherKeys (fields : Fields) : List String :=
  (Fields.keys fields).filter (fun k => !(k == KeyLevel || k == KeyMessage || k == KeyTime))

/-- The call `sort.Strings(keys)`: increasing order of the strings, compared byte by
byte. -/
def sortStrings (keys : List String) : List String :=
  keys.insertionSort (fun a b => a.data ≤ b.data)

/-- The struct `logfmtOutput`. -/
structure logfmtOutput (σ : Type) where
  w : Writer σ
  delimiter : Char
  separator : Char

/-- The loop of `logfmtOutput.Write` over the remaining keys, `buf` being the buffer so
far: key, delimiter, value, then the separator when another key follows (`i+1 < l`) and
a newline after the last one.  An error of `writeValue` ends the call. -/
def logfmtOutput.loop {σ : Type} (lib : Lib) (o : logfmtOutput σ) (fields : Fields) :
    List String → String → Except String String
  | [], buf => Except.ok buf
  | k :: rest, buf =>
    match lib.writeValue (Fields.index fields k) with
    | Except.error e => Except.error e
    | Except.ok v =>
      logfmtOutput.loop lib o fields rest
        (match rest with
          | [] => (((buf ++ k).push o.delimiter) ++ v).push '\n'
          | _ :: _ => (((buf ++ k).push o.delimiter) ++ v).push o.separator)

/-- The method `logfmtOutput.Write`. -/
def logfmtOutput.Write {σ : Type} (lib : Lib) (o : logfmtOutput σ) (s : σ) (fields : Fields) :
    σ × Option String :=
  match logfmtOutput.loop lib o fields
      ([KeyLevel, KeyMessage, KeyTime] ++ sortStrings (gatherKeys fields)) "" with
  | Except.error e => (s, some e)
  | Except.ok buf => o.w.Write s buf

/-- The body of the loop of `NewLogstashOutput` for one entry `k, v` of the record:
`time` is renamed, a string `level` is upper-cased, and a timestamp value is stored as
its RFC3339 string. -/
def logstashStep (lib : Lib) (lsf : Fields) (kv : String × Value) : Fields :=
  let k := if kv.1 = KeyTime then "@timestamp" else kv.1
  let v := if kv.1 = KeyTime then kv.2
    else if kv.1 = KeyLevel then
      (match kv.2 with
        | Value.str str => Value.str (lib.ToUpper str)
        | v => v)
    else kv.2
  match v with
  | Value.time t => Fields.set lsf k (Value.str (lib.formatRFC3339 t))
  | _ => Fields.set lsf k v

/-- The loop of `NewLogstashOutput` over the entries of the record, from the map that
holds `@version`. -/
def logstashFields (lib : Lib) (fields : Fields) : Fields :=
  fields.foldl (logstashStep lib) [("@version", Value.int 1)]

/-- The output `NewLogstashOutput(w)`. -/
def NewLogstashOutput {σ : Type} (lib : Lib) (w : Writer σ) : Output σ Fields :=
  ⟨fun s fields =>
    match lib.Marshal (logstashFields lib fields) with
    | Except.error e => (s, some e)
    | Except.ok b => w.Write s b⟩

/-- What the logstash encoder stores for a value it does not rename or upper-case: the
RFC3339 string of a timestamp, the value itself otherwise. -/
def logstashValue (lib : Lib) : Value → Value
  | Value.time t => Value.str (lib.formatRFC3339 t)
  | v => v

/-- The key under which the logstash encoder stores the entry of key `k`. -/
def logstashKey (k : String) : String :=
  if k = KeyTime then "@timestamp" else k

/-- The value the logstash encoder stores for the entry `k, v`. -/
def logstashStored (lib : Lib) (k : String) (v : Value) : Value :=
  logstashValue lib
    (if k = KeyLevel then
      (match v with
        | Value.str str => Value.str (lib.ToUpper str)
        | v => v)
    else v)

/-- The struct `consoleOutput`. -/
structure consoleOutput (σ : Type) where
  w : Writer σ
  delimiter : Char
  separator : Char

/-- The bytes `consoleOutput.Write` prints for the value under `time`. -/
def consoleTime (lib : Lib) : Option Value → String
  | some (Value.time ts) => lib.formatConsoleTime ts
  | _ => ""

/-- The bytes `consoleOutput.Write` prints for the value under `level`; `none` is the
panic of the slice `lvl[0:4]` on a string shorter than 4 bytes. -/
def consoleLevel (lib : Lib) : Option Value → Option String
  | some (Value.str lvl) =>
    let levelColor :=
      if lvl = "debug" then Color.gray
      else if lvl = "warn" then Color.yellow
      else if lvl = "error" then Color.red
      else Color.blue
    if lvl.length < 4 then none
    else some ((lib.colorPrint (lib.ToUpper (lvl.take 4)) levelColor).push ' ')
  | _ => some ""

/-- The call `strings.Replace(msg, "\n", "\\n", -1)`: every newline byte becomes a
backslash and an `n`. -/
def escapeNewlines (msg : String) : String :=
  String.mk (msg.data.flatMap (fun c => if c = '\n' then ['\\', 'n'] else [c]))

/-- The bytes `consoleOutput.Write` prints for the value under `message`. -/
def consoleMessage : Option Value → String
  | some (Value.str msg) => escapeNewlines msg
  | _ => ""

/-- The loop of `consoleOutput.Write` over the sorted keys: separator, the key in green,
delimiter, value. -/
def consoleOutput.loop {σ : Type} (lib : Lib) (o : consoleOutput σ) (fields : Fields) :
    List String → String → Except String String
  | [], buf => Except.ok buf
  | k :: rest, buf =>
    match lib.writeValue (Fields.index fields k) with
    | Except.error e => Except.error e
    | Except.ok v =>
      consoleOutput.loop lib o fields rest
        ((((buf.push o.separator) ++ lib.colorPrint k Color.green).push o.delimiter) ++ v)

/-- The method `consoleOutput.Write`; `none` is a panic. -/
def consoleOutput.Write {σ : Type} (lib : Lib) (o : consoleOutput σ) (s : σ)
    (fields : Fields) : Option (σ × Option String) :=
  match consoleLevel lib (Fields.get fields KeyLevel) with
  | none => none
  | some lv =>
    match consoleOutput.loop lib o fields (sortStrings (gatherKeys fields))
        (("" ++ consoleTime lib (Fields.get fields KeyTime)) ++ lv
          ++ consoleMessage (Fields.get fields KeyMessage)) with
    | Except.error e => some (s, some e)
    | Except.ok buf => some (o.w.Write s (buf.push '\n'))

/-! ## Fatal -/

/-- What the type assertion `l.output.(*OutputChannel)` gives when it succeeds: the
methods `Close` and `Flush` of the channel, acting on the state of the logger's output. -/
structure ChannelOps (σ : Type) where
  Close : σ → Option σ
  Flush : σ → σ

/-- An `*OutputChannel` in front of the output `o`, as the value of `l.output`. -/
def OutputChannel.asOutput {τ R : Type} (o : Output τ R) : Output (OutputChannel τ R) R :=
  ⟨fun oc fields => OutputChannel.Write o oc fields⟩

/-- The methods the type assertion finds on an `*OutputChannel` in front of `o`. -/
def OutputChannel.ops {τ R : Type} (o : Output τ R) : ChannelOps (OutputChannel τ R) :=
  { Close := OutputChannel.Close o, Flush := OutputChannel.Flush o }

/-- What `Fatal` and `Fatalf` act on: the environment of a log call, and `exits`, the
state of the logger's output at each call of `exit1` so far. -/
structure Proc (σ : Type) where
  env : Env σ
  exits : List σ

/-- The statements `Fatal` and `Fatalf` end with: `l.send(xlog.LevelFatal, ...)`, then
`o.Close()` when `l.output` is an `*OutputChannel` (`chan` is the result of the type
assertion), then `exit1()`.  `none` is a call that does not return: a panic in `send`, or
a `Close` that blocks. -/
def logger.fatalEnd {σ : Type} (l : logger σ) (chan : Option (ChannelOps σ)) (p : Proc σ)
    (caller : Option (String × Int)) (msg : String) (f : Option Fields) : Option (Proc σ) :=
  match l.send p.env Level.fatal caller msg f with
  | none => none
  | some env1 =>
    match chan with
    | some c =>
      match c.Close env1.sink with
      | none => none
      | some s2 => some { env := { env1 with sink := s2 }, exits := p.exits ++ [s2] }
    | none => some { env := env1, exits := p.exits ++ [env1.sink] }

/-- The method `logger.Fatal`. -/
def logger.Fatal {σ : Type} (lib : Lib) (l : logger σ) (chan : Option (ChannelOps σ))
    (p : Proc σ) (caller : Option (String × Int)) (v : List Value) : Option (Proc σ) :=
  l.fatalEnd chan p caller (lib.Sprint (extractFields v).2) (extractFields v).1

/-- The statement of `Errorf` and `Fatalf` that lets the user add a `%v` at the end of
the format: `if l > 2 && format[l-2] == '%' && format[l-1] == 'v' { format = format[0 : l-2] }`. -/
def trimVerb (format : String) : String :=
  if 2 < format.length ∧ format.data[format.length - 2]? = some '%' ∧
      format.data[format.length - 1]? = some 'v' then
    format.take (format.length - 2)
  else format

/-- The method `logger.Fatalf`. -/
def logger.Fatalf {σ : Type} (lib : Lib) (l : logger σ) (chan : Option (ChannelOps σ))
    (p : Proc σ) (caller : Option (String × Int)) (format : String) (v : List Value) :
    Option (Proc σ) :=
  l.fatalEnd chan p caller
    (lib.Sprintf (if (extractFields v).1.isSome then trimVerb format else format)
      (extractFields v).2)
    (extractFields v).1

/-- Whether `Write` takes a record in the state `oc`: there is room in the buffer, or the
channel is unbuffered and the consumer waits at its select. -/
def OutputChannel.accepts {σ R : Type} (oc : OutputChannel σ R) : Prop :=
  oc.input.length < oc.bufSize ∨ (oc.bufSize = 0 ∧ oc.consumer = Consumer.ready)

/-- A logger on an `OutputChannel` in front of a recorder, as `TestFatal` builds it. -/
def chanLogger : logger (OutputChannel (List Fields × List Fields) Fields) :=
  { level := Level.debug, output := some (OutputChannel.asOutput RecorderOutput.traced),
    fields := none, disablePooling := false, now := some (fun _ => 0) }

/-- A channel of capacity 1 whose queue holds one record, the consumer having made no
move. -/
def fullChan : OutputChannel (List Fields × List Fields) Fields :=
  { bufSize := 1, input := [rec1 "foo" "bar"], sink := ([], []), stopNil := false,
    consumer := Consumer.running, critical := [] }

/-! ## Loggers and the maps they refer to

`New` and `Copy` are about which map a logger refers to.  Here a map value is a
reference: the index of the map in the list of the maps allocated so far. -/

namespace Ref

/-- The maps allocated so far; a `map[string]interface{}` value is an index into it. -/
abbrev Heap := List Fields

/-- The map a reference points to (a nil map reads as an empty one). -/
def Heap.read (h : Heap) : Option Nat → Fields
  | none => []
  | some a => (h[a]?).getD []

/-- The expression `map[string]interface{}{}`: a new, empty map and its reference. -/
def Heap.alloc (h : Heap) : Heap × Nat := (h ++ [[]], h.length)

/-- The assignment `m[name] = value` through the reference `a`. -/
def Heap.assign (h : Heap) (a : Nat) (name : String) (value : Value) : Heap :=
  h.set a (Fields.set (Heap.read h (some a)) name value)

/-- The struct `Config`; `Fields` is a reference to the caller's map, or nil. -/
structure Config (σ : Type) where
  Level : Xlog.Level
  Fields : Option Nat
  Output : Option (Xlog.Output σ Xlog.Fields)
  DisablePooling : Bool
  NowGetter : Option (Unit → Int)

/-- The struct `logger`, its `fields` being a reference to a map, or nil. -/
structure logger (σ : Type) where
  level : Level
  output : Option (Output σ Fields)
  fields : Option Nat
  disablePooling : Bool
  now : Option (Unit → Int)

/-- The logger seen with the content of its map in the heap `h`. -/
def logger.deref {σ : Type} (l : logger σ) (h : Heap) : Xlog.logger σ :=
  { level := l.level, output := l.output,
    fields := l.fields.map (fun a => Heap.read h (some a)),
    disablePooling := l.disablePooling, now := l.now }

/-- The method `logger.SetField`. -/
def logger.SetField {σ : Type} (l : logger σ) (h : Heap) (name : String) (value : Value) :
    logger σ × Heap :=
  match l.fields with
  | none => ({ l with fields := some (Heap.alloc h).2 },
      Heap.assign (Heap.alloc h).1 (Heap.alloc h).2 name value)
  | some a => (l, Heap.assign h a name value)

/-- The method `logger.GetFields`. -/
def logger.GetFields {σ : Type} (l : logger σ) : Option Nat := l.fields

/-- What `loggerPool.Get()` returns: a fresh `&logger{}`, or a logger that `close` has
cleared before putting it back, whose `now` is still the one it had (`stale`). -/
def loggerPoolGet {σ : Type} (stale : Option (Unit → Int)) : logger σ :=
  { level := Level.debug, output := none, fields := none, disablePooling := false,
    now := stale }

/-- The function `New`, for a `Config`.  `defaultOutput` is the value of
`NewOutputChannel(NewConsoleOutput())` and `timeNow` is `time.Now`. -/
def New {σ : Type} (defaultOutput : Output σ Fields) (timeNow : Unit → Int)
    (stale : Option (Unit → Int)) (c : Config σ) (h : Heap) : logger σ × Heap :=
  let l : logger σ :=
    if c.DisablePooling then
      { level := Level.debug, output := none, fields := none, disablePooling := false,
        now := none }
    else loggerPoolGet stale
  let l := { l with level := c.Level }
  let l := { l with output := c.Output }
  let l := if l.output.isNone then { l with output := some defaultOutput } else l
  let lh := (Heap.read h c.Fields).foldl
    (fun (lh : logger σ × Heap) kv => lh.1.SetField lh.2 kv.1 kv.2) (l, h)
  let l := { lh.1 with disablePooling := c.DisablePooling }
  match c.NowGetter with
  | some g => ({ l with now := some g }, lh.2)
  | none => ({ l with now := some timeNow }, lh.2)

/-- The method `logger.Copy`. -/
def logger.Copy {σ : Type} (l : logger σ) (h : Heap) : logger σ × Heap :=
  let l2 : logger σ :=
    { level := l.level, output := l.output, fields := some (Heap.alloc h).2,
      disablePooling := l.disablePooling, now := none }
  (Heap.read h l.fields).foldl
    (fun (lh : logger σ × Heap) kv =>
      (lh.1, Heap.assign lh.2 (Heap.alloc h).2 kv.1 kv.2))
    (l2, (Heap.alloc h).1)

end Ref

/-- The logger `New` passes to its loop over `c.Fields`: taken from the pool or
fresh, with the level and the output of the configuration, the default output when the
configuration has none. -/
def Ref.newBase {σ : Type} (defaultOutput : Output σ Fields) (stale : Option (Unit → Int))
    (c : Ref.Config σ) : Ref.logger σ :=
  let l : Ref.logger σ :=
    if c.DisablePooling then
      { level := Level.debug, output := none, fields := none, disablePooling := false,
        now := none }
    else Ref.loggerPoolGet stale
  let l := { l with level := c.Level }
  let l := { l with output := c.Output }
  if l.output.isNone then { l with output := some defaultOutput } else l

/-- The heap of `TestNew` and `TestCopy`: the one map `xlog.F{"foo": "bar"}`. -/
def testHeap : Ref.Heap := [rec1 "foo" "bar"]

/-- The configuration of `TestNew`: level error, a recorder as output, and the map of
`testHeap` as fields. -/
def testConfig : Ref.Config (List Fields × List Fields) :=
  { Level := Level.error, Fields := some 0, Output := some RecorderOutput.traced,
    DisablePooling := false, NowGetter := some (fun _ => 0) }

/-- The logger of `TestCopy`, whose fields are the map of `testHeap`. -/
def testRefLogger : Ref.logger (List Fields × List Fields) :=
  { level := Level.error, output := some RecorderOutput.traced, fields := some 0,
    disablePooling := false, now := some (fun _ => 0) }

/-! ## Leveled calls and the writer adapter -/

/-- The method `logger.Debug`. -/
def logger.Debug {σ : Type} (lib : Lib) (l : logger σ) (env : Env σ)
    (caller : Option (String × Int)) (v : List Value) : Option (Env σ) :=
  l.send env Level.debug caller (lib.Sprint (extractFields v).2) (extractFields v).1

/-- The method `logger.Debugf`. -/
def logger.Debugf {σ : Type} (lib : Lib) (l : logger σ) (env : Env σ)
    (caller : Option (String × Int)) (format : String) (v : List Value) : Option (Env σ) :=
  l.send env Level.debug caller (lib.Sprintf format (extractFields v).2) (extractFields v).1

/-- The method `logger.Info`. -/
def logger.Info {σ : Type} (lib : Lib) (l : logger σ) (env : Env σ)
    (caller : Option (String × Int)) (v : List Value) : Option (Env σ) :=
  l.send env Level.info caller (lib.Sprint (extractFields v).2) (extractFields v).1

/-- The method `logger.Infof`. -/
def logger.Infof {σ : Type} (lib : Lib) (l : logger σ) (env : Env σ)
    (caller : Option (String × Int)) (format : String) (v : List Value) : Option (Env σ) :=
  l.send env Level.info caller (lib.Sprintf format (extractFields v).2) (extractFields v).1

/-- The method `logger.Warn`. -/
def logger.Warn {σ : Type} (lib : Lib) (l : logger σ) (env : Env σ)
    (caller : Option (String × Int)) (v : List Value) : Option (Env σ) :=
  l.send env Level.warn caller (lib.Sprint (extractFields v).2) (extractFields v).1

/-- The method `logger.Warnf`. -/
def logger.Warnf {σ : Type} (lib : Lib) (l : logger σ) (env : Env σ)
    (caller : Option (String × Int)) (format : String) (v : List Value) : Option (Env σ) :=
  l.send env Level.warn caller (lib.Sprintf format (extractFields v).2) (extractFields v).1

/-- The method `logger.Error`. -/
def logger.Error {σ : Type} (lib : Lib) (l : logger σ) (env : Env σ)
    (caller : Option (String × Int)) (v : List Value) : Option (Env σ) :=
  l.send env Level.error caller (lib.Sprint (extractFields v).2) (extractFields v).1

/-- The method `logger.Errorf`: when fields were extracted (`f != nil`), a `%v` at the
end of the format is cut off before formatting. -/
def logger.Errorf {σ : Type} (lib : Lib) (l : logger σ) (env : Env σ)
    (caller : Option (String × Int)) (format : String) (v : List Value) : Option (Env σ) :=
  l.send env Level.error caller
    (lib.Sprintf (if (extractFields v).1.isSome then trimVerb format else format)
      (extractFields v).2)
    (extractFields v).1

/-- The call `strings.TrimRight(s, "\n")`: the string without the newline bytes it
ends with, however many. -/
def trimRightNewlines (str : String) : String :=
  String.mk (str.data.rdropWhile (fun c => c = '\n'))

/-- The statement `if o, ok := l.output.(*OutputChannel); ok { o.Flush() }` of
`logger.Write`, on the state of the logger's output; `chan` is the result of the type
assertion. -/
def flushIfChannel {σ : Type} (chan : Option (ChannelOps σ)) (s : σ) : σ :=
  match chan with
  | some c => c.Flush s
  | none => s

/-- The method `logger.Write` of the `io.Writer` interface: the environment after the
call, and the returned pair `(len(p), nil)`.  `none` as result is a panic in `send`. -/
def logger.Write {σ : Type} (l : logger σ) (chan : Option (ChannelOps σ)) (env : Env σ)
    (caller : Option (String × Int)) (p : String) : Option (Env σ × Nat × Option String) :=
  match l.send env Level.info caller (trimRightNewlines p) none with
  | none => none
  | some env1 => some ({ env1 with sink := flushIfChannel chan env1.sink }, p.length, none)

/-- The method `logger.close`, with the content of `loggerPool`: the logger after the
call, and the pool after the call. -/
def Ref.logger.close {σ : Type} (l : Ref.logger σ) (pool : List (Ref.logger σ)) :
    Ref.logger σ × List (Ref.logger σ) :=
  if !l.disablePooling then
    ({ l with level := Level.debug, output := none, fields := none },
      pool ++ [{ l with level := Level.debug, output := none, fields := none }])
  else (l, pool)

/-! ## The goroutines of an OutputChannel, statement by statement

The operations of the sections above take an iteration of the consumer goroutine, and a
call of `Flush`, as a whole.  Here an iteration is its two statements, the receive
`msg := <-oc.input` and the call `oc.output.Write(msg)`, and other goroutines can move
between them. -/

/-- An `OutputChannel` between the statements of the goroutines that receive from
`oc.input`: `held` is the record the consumer goroutine has received and not yet passed
to `oc.output.Write`, and `flushing` is the same for a caller inside `Flush`. -/
structure Interleaved (σ R : Type) where
  chan : OutputChannel σ R
  held : Option R
  flushing : Option R

/-- The state after `NewOutputChannelBuffer(o, bufSize)`: nothing received yet. -/
def Interleaved.fresh {σ R : Type} (s : σ) (bufSize : Nat) : Interleaved σ R :=
  { chan := NewOutputChannelBuffer s bufSize, held := none, flushing := none }

/-- The records that have been received from the queue and not yet written. -/
def Interleaved.pending {σ R : Type} (st : Interleaved σ R) : List R :=
  st.held.toList ++ st.flushing.toList

/-- The method `OutputChannel.Write`, statement by statement: a send with room in the
buffer queues the record; a send on an unbuffered channel proceeds when the consumer
waits at its `select`, and the consumer then holds the record, which it has yet to
write; otherwise the `default` case returns `ErrBufferFull`. -/
def Interleaved.Write {σ R : Type} (st : Interleaved σ R) (fields : R) :
    Interleaved σ R × Option String :=
  if st.chan.input.length < st.chan.bufSize then
    ({ st with chan := { st.chan with input := st.chan.input ++ [fields] } }, none)
  else if st.chan.bufSize = 0 ∧ st.chan.consumer = Consumer.ready then
    ({ st with chan := { st.chan with consumer := Consumer.running }, held := some fields },
      none)
  else
    (st, some ErrBufferFull)

/-- The moves of the goroutines: a call of `Write`; the consumer reaching its `select`,
receiving a record, and calling `oc.output.Write` on the record it holds; a caller of
`Flush` receiving a record, and calling `oc.output.Write` on it; a call of `Close`. -/
inductive Move (R : Type) where
  | write (r : R)
  | arrive
  | receive
  | handle
  | flushTake
  | flushPut
  | close

/-- One move, with the records it had accepted; a move that is not enabled leaves the
state as it is, and `none` is a call of `Close` that never returns.  `Close` waits for
the consumer, which writes the record it holds before it takes the stop signal, and then
flushes. -/
def step {σ R : Type} (o : Output σ R) (st : Interleaved σ R) :
    Move R → Option (Interleaved σ R × List R)
  | Move.write r =>
    match Interleaved.Write st r with
    | (st1, none) => some (st1, [r])
    | (st1, some _) => some (st1, [])
  | Move.arrive =>
    match st.chan.consumer, st.held with
    | Consumer.running, none =>
      some ({ st with chan := { st.chan with consumer := Consumer.ready } }, [])
    | _, _ => some (st, [])
  | Move.receive =>
    match st.chan.consumer, st.held, st.chan.input with
    | Consumer.exited, _, _ => some (st, [])
    | _, some _, _ => some (st, [])
    | _, none, [] => some (st, [])
    | _, none, msg :: rest =>
      some ({ st with chan := { st.chan with input := rest, consumer := Consumer.running },
                      held := some msg }, [])
  | Move.handle =>
    match st.held with
    | none => some (st, [])
    | some msg => some ({ st with chan := deliver o st.chan msg, held := none }, [])
  | Move.flushTake =>
    match st.flushing, st.chan.input with
    | none, msg :: rest =>
      some ({ st with chan := { st.chan with input := rest }, flushing := some msg }, [])
    | _, _ => some (st, [])
  | Move.flushPut =>
    match st.flushing with
    | none => some (st, [])
    | some msg => some ({ st with chan := deliver o st.chan msg, flushing := none }, [])
  | Move.close =>
    if st.chan.stopNil then some (st, [])
    else if st.chan.consumer = Consumer.exited then none
    else
      some ({ st with
          chan := OutputChannel.Flush o
            { (match st.held with
                | some msg => deliver o st.chan msg
                | none => st.chan) with consumer := Consumer.exited, stopNil := true },
          held := none }, [])

/-- A sequence of moves, one after the other, with the records accepted on the way, in
`Write` order. -/
def steps {σ R : Type} (o : Output σ R) : Interleaved σ R → List (Move R) →
    Option (Interleaved σ R × List R)
  | st, [] => some (st, [])
  | st, m :: ms =>
    match step o st m with
    | none => none
    | some (st1, acc1) =>
      match steps o st1 ms with
      | none => none
      | some (st2, acc2) => some (st2, acc1 ++ acc2)

/-- Whether a move keeps the goroutines apart: no goroutine receives a record from the
queue while another holds a record it has received and not yet written (the consumer
does not receive during a `Flush`, a `Flush` does not receive while the consumer holds a
record, and `Close`, which flushes, is not called during a `Flush`). -/
def exclusive {σ R : Type} (st : Interleaved σ R) : Move R → Bool
  | Move.receive => st.flushing.isNone
  | Move.flushTake => st.held.isNone
  | Move.close => st.flushing.isNone
  | _ => true

/-- Whether every move of a sequence keeps the goroutines apart. -/
def exclusiveRun {σ R : Type} (o : Output σ R) : Interleaved σ R → List (Move R) → Bool
  | _, [] => true
  | st, m :: ms =>
    exclusive st m &&
      (match step o st m with
        | none => true
        | some (st1, _) => exclusiveRun o st1 ms)

/-- The states the goroutines can be in: the buffer holds no more than its capacity, the
consumer is alive as long as `stop` is not nil, the consumer holds a record only inside
an iteration, and nothing is ever received from the queue of an unbuffered channel. -/
def Interleaved.Inv {σ R : Type} (st : Interleaved σ R) : Prop :=
  st.chan.input.length ≤ st.chan.bufSize ∧
  (st.chan.stopNil = false → st.chan.consumer ≠ Consumer.exited) ∧
  (st.chan.consumer ≠ Consumer.running → st.held = none) ∧
  (st.chan.bufSize = 0 → st.flushing = none)

/-- An `*OutputChannel` as the value of `l.output`, statement by statement. -/
def Interleaved.asOutput {τ R : Type} : Output (Interleaved τ R) R :=
  ⟨fun st fields => Interleaved.Write st fields⟩

/-- Whether `Write` takes a record in the state `st`. -/
def Interleaved.accepts {σ R : Type} (st : Interleaved σ R) : Prop :=
  st.chan.input.length < st.chan.bufSize ∨
    (st.chan.bufSize = 0 ∧ st.chan.consumer = Consumer.ready)

/-- The moves that can fall inside a call of `logger.Write` when no other goroutine
calls the channel: those of the consumer goroutine and those of the call's `Flush`. -/
def Move.insideWrite {R : Type} : Move R → Bool
  | Move.write _ => false
  | Move.close => false
  | _ => true

/-- The method `logger.Write` on a logger whose output is an `OutputChannel` in front of
`o`, statement by statement: `send`, then the iterations of `Flush`, with the moves `ms`
of the consumer and of `Flush` in their order.  `Flush` returns from its `default` case,
when the queue is empty and the record it received is written; `none` is a call that has
not returned after `ms`, or a panic in `send`. -/
def logger.WriteInterleaved {τ : Type} (o : Output τ Fields)
    (l : logger (Interleaved τ Fields)) (env : Env (Interleaved τ Fields))
    (caller : Option (String × Int)) (p : String) (ms : List (Move Fields)) :
    Option (Env (Interleaved τ Fields) × Nat × Option String) :=
  match l.send env Level.info caller (trimRightNewlines p) none with
  | none => none
  | some env1 =>
    match steps o env1.sink ms with
    | none => none
    | some (st, _) =>
      if st.chan.input.isEmpty && st.flushing.isNone then
        some ({ env1 with sink := st }, p.length, none)
      else none

/-! ## Reading a logfmt line back -/

/-- Modelled from the spec: the bytes that make `writeValue`, a helper of this package
that is not in the files at hand, put a value between double quotes.  The spec says:
"Values are quoted if they contain the separator, delimiter, or whitespace".  The
separator and delimiter are those of `NewLogfmtOutput` (a space and `=`), whitespace is
every byte up to the space; the double quote is taken with them, so that a value written
without quotes never begins like a quoted one. -/
def needsQuote (c : Char) : Bool := c.toNat ≤ 32 || c = '=' || c = '"'

/-- Modelled from the spec: what stands for a byte inside a quoted value.  The spec says
"quoted" and no more; here a backslash goes before a double quote and a backslash, and a
newline, a tab and a carriage return are written as a backslash and a letter. -/
def escapeChar (c : Char) : List Char :=
  if c = '"' then ['\\', '"']
  else if c = '\\' then ['\\', '\\']
  else if c = '\n' then ['\\', 'n']
  else if c = '\t' then ['\\', 't']
  else if c = '\r' then ['\\', 'r']
  else [c]

/-- The byte a reader takes for the byte that follows a backslash in a quoted value. -/
def unescapeChar (c : Char) : Char :=
  if c = 'n' then '\n' else if c = 't' then '\t' else if c = 'r' then '\r' else c

/-- Modelled from the spec: the bytes `writeValue` writes for a text, between double
quotes when the text holds a byte of `needsQuote`, as it is otherwise. -/
def writeText (t : String) : String :=
  if t.data.any needsQuote then String.mk ('"' :: (t.data.flatMap escapeChar ++ ['"']))
  else t

/-- The text of a value: a string is its own text, and the text of any other value is
its natural textual representation, `natural`. -/
def valueText (natural : Value → String) : Value → String
  | Value.str str => str
  | v => natural v

/-- Modelled from the spec: the helper `writeValue` of this package, which is not in
the files at hand.  The spec says of the logfmt encoder: "Values are quoted if they
contain the separator, delimiter, or whitespace; non-string values use their natural
textual representation."  So the text of the value is written, quoted when it needs
it; `natural` is the natural textual representation. -/
def specWriteValue (natural : Value → String) (v : Value) : Except String String :=
  Except.ok (writeText (valueText natural v))

/-- A reader for a quoted value, from the byte after the opening double quote: the
value, and the bytes after the closing double quote; `none` when the quote is not
closed. -/
def readQuoted : List Char → Option (List Char × List Char)
  | [] => none
  | [c] => if c = '"' then some ([], []) else none
  | c :: e :: rest =>
    if c = '"' then some ([], e :: rest)
    else if c = '\\' then (readQuoted rest).map (fun p => (unescapeChar e :: p.1, p.2))
    else (readQuoted (e :: rest)).map (fun p => (c :: p.1, p.2))

/-- A reader for a value: a quoted value when the first byte is a double quote, and the
bytes up to the next separator otherwise.  It gives the value and the bytes after it. -/
def readValue (separator : Char) (input : List Char) : Option (List Char × List Char) :=
  match input with
  | [] => some ([], [])
  | c :: rest =>
    if c = '"' then readQuoted rest
    else some (input.takeWhile (fun x => x != separator),
      input.dropWhile (fun x => x != separator))

/-- A logfmt parser, entry by entry: a key runs up to the delimiter (or up to a
separator, and then has no value), a value is read by `readValue`, and a separator
starts the next entry.  The first argument bounds the number of entries. -/
def parseEntries (delimiter separator : Char) :
    Nat → List Char → Option (List (String × String))
  | 0, _ => none
  | fuel + 1, input =>
    match input.dropWhile (fun c => c != delimiter && c != separator) with
    | [] =>
      some [(String.mk (input.takeWhile (fun c => c != delimiter && c != separator)), "")]
    | c :: afterKey =>
      if c = delimiter then
        match readValue separator afterKey with
        | none => none
        | some (v, []) =>
          some [(String.mk (input.takeWhile (fun c => c != delimiter && c != separator)),
            String.mk v)]
        | some (v, c2 :: more) =>
          if c2 = separator then
            (parseEntries delimiter separator fuel more).map (fun es =>
              (String.mk (input.takeWhile (fun c => c != delimiter && c != separator)),
                String.mk v) :: es)
          else none
      else
        (parseEntries delimiter separator fuel afterKey).map (fun es =>
          (String.mk (input.takeWhile (fun c => c != delimiter && c != separator)), "")
            :: es)

/-- The parser on a line of the logfmt encoder: the entries of the line without its
final newline; `none` when the line cannot be read. -/
def parseLogfmt (delimiter separator : Char) (line : String) :
    Option (List (String × String)) :=
  parseEntries delimiter separator line.length line.data.dropLast

/-- The keys the logfmt encoder writes for a record, in the order it writes them. -/
def logfmtKeys (r : Fields) : List String :=
  [KeyLevel, KeyMessage, KeyTime] ++ sortStrings (gatherKeys r)

/-- The line the logfmt encoder writes for a record whose values are rendered by
`render`: the entries joined by the separator, and a newline. -/
def logfmtLine (delimiter separator : Char) (render : String → String) (r : Fields) :
    String :=
  String.join (((logfmtKeys r).map (fun k => (k.push delimiter) ++ render k)).intersperse
    (String.singleton separator)) ++ "\n"

/-- Stand-ins for the functions of `Lib`, for the examples: values are rendered plainly
(maps are refused), colours are left out, and the two time formats give the layout. -/
def testLib : Lib :=
  { writeValue := fun v =>
      match v with
      | Value.nil => Except.ok "null"
      | Value.str str => Except.ok str
      | Value.int n => Except.ok (toString n)
      | Value.bool b => Except.ok (toString b)
      | Value.time _ => Except.ok "2006-01-02T15:04:05Z"
      | _ => Except.error "unsupported value"
    colorPrint := fun str _ => str
    formatConsoleTime := fun _ => "2006/01/02 15:04:05 "
    formatRFC3339 := fun _ => "2006-01-02T15:04:05Z"
    ToUpper := fun str => String.mk (str.data.map Char.toUpper)
    Marshal := fun _ => Except.ok ""
    Sprint := fun v =>
      match v with
      | [Value.str str] => str
      | _ => ""
    Sprintf := fun format _ => format }

/-- A writer that records the byte strings written to it. -/
def recWriter : Writer (List String) :=
  ⟨fun written b => (written ++ [b], none)⟩

/-- The output `NewLogfmtOutput(w)` on the recording writer: delimiter `=`, separator
a space. -/
def exampleLogfmt : logfmtOutput (List String) :=
  { w := recWriter, delimiter := '=', separator := ' ' }

/-- The console output `NewConsoleOutputW` returns on a terminal, on the recording
writer. -/
def exampleConsole : consoleOutput (List String) :=
  { w := recWriter, delimiter := '=', separator := ' ' }

/-- A record as `send` builds it, with the fields `foo` and `a`. -/
def exampleRecord : Fields :=
  [("time", Value.time 0), ("level", Value.str "info"), ("message", Value.str "hello"),
    ("foo", Value.str "bar"), ("a", Value.int 1)]

/-- How `testLib` renders the value `exampleRecord` holds under a key. -/
def exampleRender (k : String) : String :=
  match testLib.writeValue (Fields.index exampleRecord k) with
  | Except.ok v => v
  | Except.error _ => ""

/-- A stand-in for the natural textual representation of a value, for the examples. -/
def testNatural : Value → String
  | Value.nil => "null"
  | Value.str str => str
  | Value.int n => toString n
  | Value.bool b => toString b
  | Value.time _ => "2006-01-02T15:04:05Z"
  | _ => "map[]"

/-- The functions of `testLib`, with `writeValue` as the spec describes it. -/
def specLib : Lib := { testLib with writeValue := specWriteValue testNatural }

/-- A record with the one field `a=1 b`, whose key holds the delimiter and the
separator. -/
def oddKeyRecord : Fields := [("a=1 b", Value.str "2")]

/-- A record with the number 1 under `a`. -/
def intRecord : Fields := [("a", Value.int 1)]

/-- A record with the string `1` under `a`. -/
def strRecord : Fields := [("a", Value.str "1")]

/-- A record with the two fields `a` and `b`. -/
def twoKeyRecord : Fields := [("a", Value.str "1"), ("b", Value.str "2")]

/-- A record with a value that is written between quotes, `x "y" z`, and a number. -/
def quotedRecord : Fields := [("a", Value.str "x \"y\" z"), ("b", Value.int 2)]

/-- A logger taken for a request, with pooling enabled, its fields in the map of
`testHeap`. -/
def pooledLogger : Ref.logger (List Fields × List Fields) :=
  { level := Level.error, output := some RecorderOutput.traced, fields := some 0,
    disablePooling := false, now := some (fun _ => 0) }

/-- The logger of `TestNewPoolDisabled`: the same, with pooling disabled. -/
def unpooledLogger : Ref.logger (List Fields × List Fields) :=
  { level := Level.error, output := some RecorderOutput.traced, fields := some 0,
    disablePooling := true, now := some (fun _ => 0) }

/-- A logger whose own fields use the keys `message` and `level`: `Config{Output: o,
Fields: xlog.F{"message": "x", "level": "debug"}, NowGetter: ...}`. -/
def overrideLogger : logger (List Fields × List Fields) :=
  { level := Level.debug, output := some RecorderOutput.traced,
    fields := some [("message", Value.str "x"), ("level", Value.str "debug")],
    disablePooling := false, now := some (fun _ => 0) }

/-- A channel after `Close` has returned: `stop` is nil and the consumer has exited. -/
def closedChan : OutputChannel (List Fields × List Fields) Fields :=
  { bufSize := 1, input := [], sink := ([], []), stopNil := true,
    consumer := Consumer.exited, critical := [] }

/-- A record with a timestamp under `time` and a string under `@timestamp`. -/
def bothKeysRecord : Fields :=
  [("time", Value.time 0), ("@timestamp", Value.str "custom")]

/-- A record with a timestamp under `time` and, under `@timestamp`, the RFC3339 string
of that timestamp. -/
def sameStoredRecord : Fields :=
  [("time", Value.time 0), ("@timestamp", Value.str "2006-01-02T15:04:05Z")]

/-- A logger on an `OutputChannel` in front of a recorder, statement by statement. -/
def fineLogger : logger (Interleaved (List Fields × List Fields) Fields) :=
  { level := Level.debug, output := some Interleaved.asOutput,
    fields := none, disablePooling := false, now := some (fun _ => 0) }

/-- A channel of capacity 1 whose queue holds one record, nothing received from it. -/
def fullFine : Interleaved (List Fields × List Fields) Fields :=
  { chan := fullChan, held := none, flushing := none }

/-! ## Theorems: OutputChannel -/


theorem deliver_input {σ R : Type} (o : Output σ R) (oc : OutputChannel σ R) (msg : R) :
    (deliver o oc msg).input = oc.input := by
  unfold deliver; split <;> rfl

theorem deliver_bufSize {σ R : Type} (o : Output σ R) (oc : OutputChannel σ R) (msg : R) :
    (deliver o oc msg).bufSize = oc.bufSize := by
  unfold deliver; split <;> rfl

theorem deliver_stopNil {σ R : Type} (o : Output σ R) (oc : OutputChannel σ R) (msg : R) :
    (deliver o oc msg).stopNil = oc.stopNil := by
  unfold deliver; split <;> rfl

theorem deliver_consumer {σ R : Type} (o : Output σ R) (oc : OutputChannel σ R) (msg : R) :
    (deliver o oc msg).consumer = oc.consumer := by
  unfold deliver; split <;> rfl

theorem deliver_sink {σ R : Type} (o : Output σ R) (oc : OutputChannel σ R) (msg : R) :
    (deliver o oc msg).sink = (o.Write oc.sink msg).1 := by
  unfold deliver; split <;> simp_all

theorem deliver_traced {σ R : Type} (o : Output σ R) (oc : OutputChannel (σ × List R) R)
    (msg : R) : (deliver o.traced oc msg).sink.2 = oc.sink.2 ++ [msg] := by
  rw [deliver_sink]; rfl

theorem flushLoop_frame {σ R : Type} (o : Output σ R) (rs : List R) :
    ∀ oc : OutputChannel σ R,
      (flushLoop o rs oc).input = [] ∧ (flushLoop o rs oc).bufSize = oc.bufSize ∧
      (flushLoop o rs oc).stopNil = oc.stopNil ∧ (flushLoop o rs oc).consumer = oc.consumer ∧
      (flushLoop o rs oc).sink = rs.foldl (fun s r => (o.Write s r).1) oc.sink := by
  induction rs with
  | nil => intro oc; simp [flushLoop]
  | cons msg rest ih =>
    intro oc
    obtain ⟨h1, h2, h3, h4, h5⟩ := ih (deliver o { oc with input := rest } msg)
    simp only [flushLoop, List.foldl_cons]
    refine ⟨h1, ?_, ?_, ?_, ?_⟩
    · rw [h2, deliver_bufSize]
    · rw [h3, deliver_stopNil]
    · rw [h4, deliver_consumer]
    · rw [h5, deliver_sink]

/-- C1 (as amended): `Write` returns nil and appends the record at the tail of the queue
when the queue holds fewer records than the capacity; when the queue holds as many
records as the capacity it returns `ErrBufferFull` and leaves the channel unchanged,
provided the capacity is at least 1 or the consumer is not waiting at its select; with
capacity 0 and the consumer waiting at its select it returns nil and the record goes to
the consumer, which passes it to the output, the queue staying as it is.  `Write` is a
total function: it returns at once in every case. -/
theorem Write_cases {σ R : Type} (o : Output σ R) (oc : OutputChannel σ R) (r : R) :
    (oc.input.length < oc.bufSize →
      OutputChannel.Write o oc r = ({ oc with input := oc.input ++ [r] }, none)) ∧
    (oc.input.length = oc.bufSize → 0 < oc.bufSize ∨ oc.consumer ≠ Consumer.ready →
      OutputChannel.Write o oc r = (oc, some ErrBufferFull)) ∧
    (oc.bufSize = 0 → oc.consumer = Consumer.ready →
      (OutputChannel.Write o oc r).2 = none ∧
      (OutputChannel.Write o oc r).1.sink = (o.Write oc.sink r).1 ∧
      (OutputChannel.Write o oc r).1.input = oc.input) := by
  refine ⟨fun hlt => ?_, fun heq h => ?_, fun hz hr => ?_⟩
  · simp [OutputChannel.Write, hlt]
  · have h1 : ¬ oc.input.length < oc.bufSize := by omega
    have h2 : ¬ (oc.bufSize = 0 ∧ oc.consumer = Consumer.ready) := by
      rintro ⟨hz, hr⟩
      rcases h with h | h
      · omega
      · exact h hr
    simp [OutputChannel.Write, h1, h2]
  · have h1 : ¬ oc.input.length < oc.bufSize := by omega
    have hw : OutputChannel.Write o oc r
        = (deliver o { oc with consumer := Consumer.running } r, none) := by
      simp [OutputChannel.Write, h1, hz, hr]
    rw [hw]
    exact ⟨rfl, deliver_sink _ _ _, deliver_input _ _ _⟩

/-- C1, witness: a channel of capacity 1 takes the first record and refuses the second,
and a channel of capacity 0 whose consumer waits at its select hands the record over. -/
theorem Write_cases_witness :
    OutputChannel.Write RecorderOutput (recChan 1) (rec1 "foo" "bar")
      = ({ recChan 1 with input := [rec1 "foo" "bar"] }, none) ∧
    OutputChannel.Write RecorderOutput
        { recChan 1 with input := [rec1 "foo" "bar"] } (rec1 "a" "b")
      = ({ recChan 1 with input := [rec1 "foo" "bar"] }, some ErrBufferFull) ∧
    ((OutputChannel.Write RecorderOutput (consumerArrive (recChan 0)) (rec1 "a" "b")).2 = none ∧
      (OutputChannel.Write RecorderOutput (consumerArrive (recChan 0)) (rec1 "a" "b")).1.sink
        = (RecorderOutput.Write (consumerArrive (recChan 0)).sink (rec1 "a" "b")).1 ∧
      (OutputChannel.Write RecorderOutput (consumerArrive (recChan 0)) (rec1 "a" "b")).1.input
        = (consumerArrive (recChan 0)).input) :=
  ⟨(Write_cases RecorderOutput (recChan 1) (rec1 "foo" "bar")).1 (by decide),
   (Write_cases RecorderOutput
      { recChan 1 with input := [rec1 "foo" "bar"] } (rec1 "a" "b")).2.1 (by decide)
      (Or.inl (by decide)),
   (Write_cases RecorderOutput (consumerArrive (recChan 0)) (rec1 "a" "b")).2.2
      (by decide) (by decide)⟩

/-- C1, counterexample: a channel of capacity 0 whose consumer waits at its select holds
as many records as its capacity (none), and yet `Write` returns nil and the record
reaches the output instead of being dropped. -/
theorem Write_unbuffered_counterexample :
    (consumerArrive (recChan 0)).input.length = (consumerArrive (recChan 0)).bufSize ∧
    (OutputChannel.Write RecorderOutput (consumerArrive (recChan 0)) (rec1 "foo" "bar")).2
      = none ∧
    (OutputChannel.Write RecorderOutput (consumerArrive (recChan 0)) (rec1 "foo" "bar")).1.sink
      = [rec1 "foo" "bar"] := by
  refine ⟨rfl, rfl, rfl⟩

theorem foldl_traced {σ R : Type} (o : Output σ R) (rs : List R) :
    ∀ s : σ × List R,
      rs.foldl (fun s r => (o.traced.Write s r).1) s
        = (rs.foldl (fun s r => (o.Write s r).1) s.1, s.2 ++ rs) := by
  induction rs with
  | nil => intro s; simp
  | cons r rest ih =>
    intro s
    simp only [List.foldl_cons]
    rw [ih]
    simp [Output.traced]

theorem flushLoop_traced {σ R : Type} (o : Output σ R) (rs : List R)
    (oc : OutputChannel (σ × List R) R) :
    (flushLoop o.traced rs oc).sink.2 = oc.sink.2 ++ rs ∧
    (flushLoop o.traced rs oc).sink.1 = rs.foldl (fun s r => (o.Write s r).1) oc.sink.1 ∧
    (flushLoop o.traced rs oc).input = [] := by
  obtain ⟨h1, _, _, _, h5⟩ := flushLoop_frame o.traced rs oc
  rw [foldl_traced] at h5
  exact ⟨by rw [h5], by rw [h5], h1⟩

/-- C2: `Flush` calls the output's `Write` once on each queued record, oldest first,
whatever errors these calls return, and leaves the queue empty; the rest of the channel
is as before.  With an empty queue the recorded calls are unchanged. -/
theorem Flush_delivers_queue {σ R : Type} (o : Output σ R)
    (oc : OutputChannel (σ × List R) R) :
    (OutputChannel.Flush o.traced oc).sink.2 = oc.sink.2 ++ oc.input ∧
    (OutputChannel.Flush o.traced oc).sink.1
      = oc.input.foldl (fun s r => (o.Write s r).1) oc.sink.1 ∧
    (OutputChannel.Flush o.traced oc).input = [] ∧
    (OutputChannel.Flush o.traced oc).bufSize = oc.bufSize ∧
    (OutputChannel.Flush o.traced oc).stopNil = oc.stopNil ∧
    (OutputChannel.Flush o.traced oc).consumer = oc.consumer := by
  obtain ⟨h1, h2, h3⟩ := flushLoop_traced o oc.input oc
  obtain ⟨_, h4, h5, h6, _⟩ := flushLoop_frame o.traced oc.input oc
  unfold OutputChannel.Flush
  exact ⟨h1, h2, h3, h4, h5, h6⟩

theorem Flush_inv {σ R : Type} (o : Output σ R) (oc : OutputChannel σ R)
    (h : oc.stopNil = false → oc.consumer ≠ Consumer.exited) :
    ChanInv (OutputChannel.Flush o oc) := by
  obtain ⟨h1, _, h3, h4, _⟩ := flushLoop_frame o oc.input oc
  unfold OutputChannel.Flush
  refine ⟨by rw [h1]; simp, ?_⟩
  rw [h3, h4]; exact h

theorem runOp_inv {σ R : Type} (o : Output σ R) (oc : OutputChannel (σ × List R) R)
    (op : Op R) (hinv : ChanInv oc) :
    ∃ oc1 acc, runOp o.traced oc op = some (oc1, acc) ∧ ChanInv oc1 ∧
      oc1.sink.2 ++ oc1.input = oc.sink.2 ++ oc.input ++ acc := by
  obtain ⟨hlen, halive⟩ := hinv
  cases op with
  | write r =>
    by_cases h1 : oc.input.length < oc.bufSize
    · refine ⟨{ oc with input := oc.input ++ [r] }, [r], ?_, ⟨?_, halive⟩, ?_⟩
      · simp [runOp, OutputChannel.Write, h1]
      · simp only [List.length_append, List.length_singleton]; omega
      · simp
    · by_cases h2 : oc.bufSize = 0 ∧ oc.consumer = Consumer.ready
      · have hnil : oc.input = [] := by
          have : oc.input.length = 0 := by omega
          exact List.length_eq_zero.mp this
        refine ⟨deliver o.traced { oc with consumer := Consumer.running } r, [r], ?_, ⟨?_, ?_⟩, ?_⟩
        · simp [runOp, OutputChannel.Write, h1, h2]
        · rw [deliver_input, deliver_bufSize]; exact hlen
        · rw [deliver_stopNil, deliver_consumer]; intro _; simp
        · rw [deliver_traced, deliver_input]; simp [hnil]
      · refine ⟨oc, [], ?_, ⟨hlen, halive⟩, by simp⟩
        simp [runOp, OutputChannel.Write, h1, h2]
  | consumerStep =>
    refine ⟨consumerStep o.traced oc, [], rfl, ?_, ?_⟩
    · unfold consumerStep
      split
      · exact ⟨hlen, halive⟩
      · exact ⟨hlen, halive⟩
      · rename_i msg rest hin _
        refine ⟨?_, ?_⟩
        · rw [deliver_input, deliver_bufSize]
          simp only
          rw [hin] at hlen
          simp only [List.length_cons] at hlen
          omega
        · rw [deliver_stopNil, deliver_consumer]; intro _; simp
    · unfold consumerStep
      split
      · simp
      · simp
      · rename_i msg rest hin _
        rw [deliver_traced, deliver_input]
        simp [hin]
  | consumerArrive =>
    refine ⟨consumerArrive oc, [], rfl, ?_, ?_⟩
    · unfold consumerArrive
      split
      · exact ⟨hlen, fun _ => by simp⟩
      · exact ⟨hlen, halive⟩
    · unfold consumerArrive
      split <;> simp
  | flush =>
    refine ⟨OutputChannel.Flush o.traced oc, [], rfl, Flush_inv _ _ halive, ?_⟩
    obtain ⟨h1, _, h3⟩ := flushLoop_traced o oc.input oc
    unfold OutputChannel.Flush
    rw [h1, h3]
  | close =>
    by_cases hs : oc.stopNil = true
    · refine ⟨oc, [], ?_, ⟨hlen, halive⟩, by simp⟩
      simp [runOp, OutputChannel.Close, hs]
    · have hs2 : oc.stopNil = false := by simpa using hs
      have hc : oc.consumer ≠ Consumer.exited := halive hs2
      refine ⟨OutputChannel.Flush o.traced
          { oc with consumer := Consumer.exited, stopNil := true }, [], ?_, ?_, ?_⟩
      · simp [runOp, OutputChannel.Close, hs2, hc]
      · exact Flush_inv _ _ (by simp)
      · obtain ⟨h1, _, h3⟩ := flushLoop_traced o oc.input
          { oc with consumer := Consumer.exited, stopNil := true }
        unfold OutputChannel.Flush
        rw [h1, h3]

theorem exec_inv {σ R : Type} (o : Output σ R) (ops : List (Op R)) :
    ∀ oc : OutputChannel (σ × List R) R, ChanInv oc →
      ∃ oc1 acc, exec o.traced oc ops = some (oc1, acc) ∧ ChanInv oc1 ∧
        oc1.sink.2 ++ oc1.input = oc.sink.2 ++ oc.input ++ acc := by
  induction ops with
  | nil => intro oc h; exact ⟨oc, [], rfl, h, by simp⟩
  | cons op ops ih =>
    intro oc h
    obtain ⟨oc1, acc1, e1, i1, q1⟩ := runOp_inv o oc op h
    obtain ⟨oc2, acc2, e2, i2, q2⟩ := ih oc1 i1
    refine ⟨oc2, acc1 ++ acc2, ?_, i2, ?_⟩
    · simp [exec, e1, e2]
    · rw [q2, q1]; simp

theorem writeAll_idle {σ R : Type} (o : Output σ R) (rs : List R) :
    ∀ oc : OutputChannel σ R, oc.consumer ≠ Consumer.ready →
      (writeAll o oc rs).1
        = { oc with input := oc.input ++ rs.take (oc.bufSize - oc.input.length) } ∧
      (writeAll o oc rs).2
        = List.replicate (min rs.length (oc.bufSize - oc.input.length)) none ++
          List.replicate (rs.length - (oc.bufSize - oc.input.length)) (some ErrBufferFull) := by
  induction rs with
  | nil => intro oc _; simp [writeAll]
  | cons r rs ih =>
    intro oc hc
    by_cases h1 : oc.input.length < oc.bufSize
    · have hw : OutputChannel.Write o oc r = ({ oc with input := oc.input ++ [r] }, none) := by
        simp [OutputChannel.Write, h1]
      obtain ⟨k, hk⟩ : ∃ k, oc.bufSize - oc.input.length = k + 1 :=
        ⟨oc.bufSize - oc.input.length - 1, by omega⟩
      obtain ⟨i1, i2⟩ := ih { oc with input := oc.input ++ [r] } hc
      have hk2 : oc.bufSize - (oc.input ++ [r]).length = k := by
        simp only [List.length_append, List.length_singleton]; omega
      simp only [hk2] at i1 i2
      simp only [writeAll, hw, hk, i1, i2, List.take_succ_cons, List.length_cons]
      refine ⟨by simp, ?_⟩
      rw [Nat.add_sub_add_right, Nat.add_min_add_right, List.replicate_succ, List.cons_append]
    · have hw : OutputChannel.Write o oc r = (oc, some ErrBufferFull) := by
        have h2 : ¬ (oc.bufSize = 0 ∧ oc.consumer = Consumer.ready) := fun h => hc h.2
        simp [OutputChannel.Write, h1, h2]
      have hk : oc.bufSize - oc.input.length = 0 := by omega
      obtain ⟨i1, i2⟩ := ih oc hc
      simp only [hk] at i1 i2
      simp only [writeAll, hw, hk, i1, i2, List.length_cons]
      refine ⟨by simp, ?_⟩
      simp [List.replicate_succ]

/-- C4: on a fresh channel of capacity `N` whose consumer makes no move, `N + 1`
consecutive calls of `Write` return nil for the first `N` and `ErrBufferFull` for the
last one only, nothing has reached the output yet, and a following `Flush` passes to the
output exactly the first `N` records, in order. -/
theorem overflow_drops_last {σ R : Type} (o : Output σ R) (s : σ) (N : Nat) (rs : List R)
    (hlen : rs.length = N + 1) :
    (writeAll o.traced (NewOutputChannelBuffer (s, []) N) rs).2
      = List.replicate N none ++ [some ErrBufferFull] ∧
    (writeAll o.traced (NewOutputChannelBuffer (s, []) N) rs).1.sink.2 = [] ∧
    (OutputChannel.Flush o.traced
      (writeAll o.traced (NewOutputChannelBuffer (s, []) N) rs).1).sink.2 = rs.take N := by
  obtain ⟨h1, h2⟩ := writeAll_idle o.traced rs (NewOutputChannelBuffer (s, []) N)
    (by simp [NewOutputChannelBuffer])
  simp only [NewOutputChannelBuffer, List.length_nil, Nat.sub_zero, List.nil_append, hlen]
    at h1 h2
  have e1 : min (N + 1) N = N := by omega
  have e2 : N + 1 - N = 1 := by omega
  rw [e1, e2] at h2
  obtain ⟨f1, _, _⟩ := flushLoop_traced o
    (writeAll o.traced (NewOutputChannelBuffer (s, []) N) rs).1.input
    (writeAll o.traced (NewOutputChannelBuffer (s, []) N) rs).1
  refine ⟨by simpa [NewOutputChannelBuffer] using h2, ?_, ?_⟩
  · simp only [NewOutputChannelBuffer]; rw [h1]
  · unfold OutputChannel.Flush
    rw [f1]; simp only [NewOutputChannelBuffer]; rw [h1]; simp

/-- C4, witness: capacity 1 and two records. -/
theorem overflow_drops_last_witness :
    (writeAll RecorderOutput.traced (NewOutputChannelBuffer (([] : List Fields), []) 1)
      [rec1 "foo" "bar", rec1 "a" "b"]).2 = List.replicate 1 none ++ [some ErrBufferFull] ∧
    (writeAll RecorderOutput.traced (NewOutputChannelBuffer (([] : List Fields), []) 1)
      [rec1 "foo" "bar", rec1 "a" "b"]).1.sink.2 = [] ∧
    (OutputChannel.Flush RecorderOutput.traced
      (writeAll RecorderOutput.traced (NewOutputChannelBuffer (([] : List Fields), []) 1)
        [rec1 "foo" "bar", rec1 "a" "b"]).1).sink.2
      = [rec1 "foo" "bar", rec1 "a" "b"].take 1 :=
  overflow_drops_last RecorderOutput ([] : List Fields) 1 [rec1 "foo" "bar", rec1 "a" "b"] rfl

/-- C5: `Close` on an open channel (stop not nil, consumer alive) returns; the consumer
has then exited, the queue is empty, and the records that were queued have each been
passed once to the output, in order, after what it had received before. -/
theorem Close_drains {σ R : Type} (o : Output σ R) (oc : OutputChannel (σ × List R) R)
    (hopen : oc.stopNil = false) (halive : oc.consumer ≠ Consumer.exited) :
    ∃ oc1, OutputChannel.Close o.traced oc = some oc1 ∧
      oc1.consumer = Consumer.exited ∧ oc1.stopNil = true ∧ oc1.input = [] ∧
      oc1.sink.2 = oc.sink.2 ++ oc.input := by
  obtain ⟨h1, _, h3⟩ := flushLoop_traced o oc.input
    { oc with consumer := Consumer.exited, stopNil := true }
  obtain ⟨_, _, h5, h6, _⟩ := flushLoop_frame o.traced oc.input
    { oc with consumer := Consumer.exited, stopNil := true }
  refine ⟨_, ?_, h6, h5, h3, h1⟩
  simp [OutputChannel.Close, OutputChannel.Flush, hopen, halive]

/-- C5, witness: a channel holding one record, closed. -/
theorem Close_drains_witness :
    ∃ oc1, OutputChannel.Close RecorderOutput.traced
        ({ bufSize := 1, input := [rec1 "foo" "bar"], sink := ([], []), stopNil := false,
           consumer := Consumer.running, critical := [] } :
          OutputChannel (List Fields × List Fields) Fields) = some oc1 ∧
      oc1.consumer = Consumer.exited ∧ oc1.stopNil = true ∧ oc1.input = [] ∧
      oc1.sink.2 = [] ++ [rec1 "foo" "bar"] :=
  Close_drains RecorderOutput
    ({ bufSize := 1, input := [rec1 "foo" "bar"], sink := ([], []), stopNil := false,
       consumer := Consumer.running, critical := [] } :
      OutputChannel (List Fields × List Fields) Fields) rfl (by decide)

/-- C6: when `Close` has returned, a second `Close` returns too and leaves the whole
state as it was, the state of the output and the record of its calls included: no record
is passed to the output again.  `Close` twice is `Close` once. -/
theorem Close_idempotent {σ R : Type} (o : Output σ R) (oc : OutputChannel (σ × List R) R) :
    (∀ oc1, OutputChannel.Close o.traced oc = some oc1 →
      OutputChannel.Close o.traced oc1 = some oc1) ∧
    (OutputChannel.Close o.traced oc).bind (OutputChannel.Close o.traced)
      = OutputChannel.Close o.traced oc := by
  have key : ∀ oc1, OutputChannel.Close o.traced oc = some oc1 →
      OutputChannel.Close o.traced oc1 = some oc1 := by
    intro oc1 h
    have hs : oc1.stopNil = true := by
      unfold OutputChannel.Close at h
      split at h
      · rename_i hs; cases h; exact hs
      · split at h
        · cases h
        · cases h
          obtain ⟨_, _, h3, _⟩ := flushLoop_frame o.traced oc.input
            { oc with consumer := Consumer.exited, stopNil := true }
          exact h3
    simp [OutputChannel.Close, hs]
  refine ⟨key, ?_⟩
  cases h : OutputChannel.Close o.traced oc with
  | none => rfl
  | some oc1 => simpa using key oc1 h

/-- C6, witness: closing twice a channel that holds one record. -/
theorem Close_idempotent_witness :
    OutputChannel.Close RecorderOutput.traced
      ({ bufSize := 1, input := [], sink := ([rec1 "foo" "bar"], [rec1 "foo" "bar"]),
         stopNil := true, consumer := Consumer.exited, critical := [] } :
        OutputChannel (List Fields × List Fields) Fields)
      = some { bufSize := 1, input := [], sink := ([rec1 "foo" "bar"], [rec1 "foo" "bar"]),
               stopNil := true, consumer := Consumer.exited, critical := [] } :=
  (Close_idempotent RecorderOutput
    ({ bufSize := 1, input := [rec1 "foo" "bar"], sink := ([], []), stopNil := false,
       consumer := Consumer.running, critical := [] } :
      OutputChannel (List Fields × List Fields) Fields)).1 _ rfl


/-! ## Theorems: records -/

theorem Fields.get_set_eq (m : Fields) (k : String) (v : Value) :
    Fields.get (Fields.set m k v) k = some v := by
  induction m with
  | nil => simp [Fields.set, Fields.get]
  | cons kv rest ih =>
    obtain ⟨k1, v1⟩ := kv
    by_cases h : k1 = k
    · simp [Fields.set, Fields.get, h]
    · simp [Fields.set, Fields.get, h, ih]

theorem Fields.get_set_ne (m : Fields) (k k2 : String) (v : Value) (hne : k2 ≠ k) :
    Fields.get (Fields.set m k v) k2 = Fields.get m k2 := by
  induction m with
  | nil =>
    have : ¬ k = k2 := fun h => hne h.symm
    simp [Fields.set, Fields.get, this]
  | cons kv rest ih =>
    obtain ⟨k1, v1⟩ := kv
    by_cases h : k1 = k
    · have : ¬ k = k2 := fun h => hne h.symm
      subst h
      simp [Fields.set, Fields.get, this]
    · by_cases h2 : k1 = k2
      · subst h2; simp [Fields.set, Fields.get, h]
      · simp [Fields.set, Fields.get, h, h2, ih]

theorem Fields.mem_keys_set (m : Fields) (k k2 : String) (v : Value) :
    k2 ∈ Fields.keys (Fields.set m k v) ↔ k2 = k ∨ k2 ∈ Fields.keys m := by
  induction m with
  | nil => simp [Fields.set, Fields.keys]
  | cons kv rest ih =>
    obtain ⟨k1, v1⟩ := kv
    simp only [Fields.keys] at ih
    by_cases h : k1 = k
    · subst h; simp [Fields.set, Fields.keys]
    · simp only [Fields.set, Fields.keys, h, if_false, List.map_cons, List.mem_cons, ih]
      tauto

theorem Fields.nodup_set (m : Fields) (k : String) (v : Value)
    (h : (Fields.keys m).Nodup) : (Fields.keys (Fields.set m k v)).Nodup := by
  induction m with
  | nil => simp [Fields.set, Fields.keys]
  | cons kv rest ih =>
    obtain ⟨k1, v1⟩ := kv
    simp only [Fields.keys, List.map_cons, List.nodup_cons] at h
    by_cases hk : k1 = k
    · subst hk
      simp only [Fields.set, if_true, Fields.keys, List.map_cons, List.nodup_cons]
      exact h
    · simp only [Fields.set, hk, if_false, Fields.keys, List.map_cons, List.nodup_cons]
      refine ⟨?_, ih h.2⟩
      intro hmem
      have := (Fields.mem_keys_set rest k k1 v).mp hmem
      rcases this with h1 | h1
      · exact hk h1
      · exact h.1 h1

theorem Fields.get_eq_none (m : Fields) (k : String) (h : k ∉ Fields.keys m) :
    Fields.get m k = none := by
  induction m with
  | nil => rfl
  | cons kv rest ih =>
    obtain ⟨k1, v1⟩ := kv
    simp only [Fields.keys, List.map_cons, List.mem_cons, not_or] at h
    have h1 : ¬ k1 = k := fun e => h.1 e.symm
    simp only [Fields.get, h1, if_false]
    exact ih h.2

theorem Fields.mem_keys_of_get (m : Fields) (k : String) (v : Value)
    (h : Fields.get m k = some v) : k ∈ Fields.keys m := by
  by_contra hk
  rw [Fields.get_eq_none m k hk] at h
  cases h

theorem Fields.mem_keys_assignAll (src : Fields) :
    ∀ (data : Fields) (k : String),
      k ∈ Fields.keys (Fields.assignAll data (some src)) ↔
        k ∈ Fields.keys data ∨ k ∈ Fields.keys src := by
  induction src with
  | nil => intro data k; simp [Fields.assignAll, Fields.keys]
  | cons kv rest ih =>
    intro data k
    obtain ⟨k1, v1⟩ := kv
    have := ih (Fields.set data k1 v1) k
    simp only [Fields.assignAll, List.foldl_cons] at this ⊢
    rw [this, Fields.mem_keys_set]
    simp only [Fields.keys, List.map_cons, List.mem_cons]
    tauto

theorem Fields.nodup_assignAll (src : Fields) :
    ∀ data : Fields, (Fields.keys data).Nodup →
      (Fields.keys (Fields.assignAll data (some src))).Nodup := by
  induction src with
  | nil => intro data h; simpa [Fields.assignAll] using h
  | cons kv rest ih =>
    intro data h
    obtain ⟨k1, v1⟩ := kv
    have := ih (Fields.set data k1 v1) (Fields.nodup_set data k1 v1 h)
    simpa [Fields.assignAll] using this

theorem Fields.get_assignAll_of_get (src : Fields) :
    ∀ (data : Fields) (k : String) (v : Value), (Fields.keys src).Nodup →
      Fields.get src k = some v → Fields.get (Fields.assignAll data (some src)) k = some v := by
  induction src with
  | nil => intro data k v _ h; simp [Fields.get] at h
  | cons kv rest ih =>
    intro data k v hn h
    obtain ⟨k1, v1⟩ := kv
    simp only [Fields.keys, List.map_cons, List.nodup_cons] at hn
    simp only [Fields.assignAll, List.foldl_cons]
    by_cases hk : k1 = k
    · subst hk
      simp only [Fields.get, if_true, Option.some.injEq] at h
      subst h
      have hnone : Fields.get rest k1 = none := Fields.get_eq_none rest k1 hn.1
      clear ih
      have key : ∀ (r : Fields) (d : Fields), k1 ∉ Fields.keys r →
          Fields.get (r.foldl (fun d kv => Fields.set d kv.1 kv.2) d) k1 = Fields.get d k1 := by
        intro r
        induction r with
        | nil => intro d _; rfl
        | cons kv2 r2 ih2 =>
          intro d hr
          simp only [Fields.keys, List.map_cons, List.mem_cons, not_or] at hr
          simp only [List.foldl_cons]
          rw [ih2 _ hr.2, Fields.get_set_ne _ _ _ _ hr.1]
      rw [key rest _ hn.1, Fields.get_set_eq]
    · simp only [Fields.get, hk, if_false] at h
      exact ih (Fields.set data k1 v1) k v hn.2 h

theorem Fields.get_assignAll_of_not_mem (src : Fields) :
    ∀ (data : Fields) (k : String), k ∉ Fields.keys src →
      Fields.get (Fields.assignAll data (some src)) k = Fields.get data k := by
  induction src with
  | nil => intro data k _; rfl
  | cons kv rest ih =>
    intro data k hk
    obtain ⟨k1, v1⟩ := kv
    simp only [Fields.keys, List.map_cons, List.mem_cons, not_or] at hk
    have := ih (Fields.set data k1 v1) k hk.2
    simp only [Fields.assignAll, List.foldl_cons] at this ⊢
    rw [this, Fields.get_set_ne _ _ _ _ hk.1]


/-! ## Theorems: logger -/

theorem sendData_eq {σ : Type} (l : logger σ) (t : Int) (L : Level)
    (caller : Option (String × Int)) (msg : String) (fields : Option Fields) :
    sendData l t L caller msg fields
      = Fields.assignAll (Fields.assignAll (sendBase t L caller msg) (some (fields.getD [])))
          (some (l.fields.getD [])) := by
  have e1 : ∀ (d : Fields) (f : Option Fields),
      Fields.assignAll d f = Fields.assignAll d (some (f.getD [])) := by
    intro d f; cases f <;> rfl
  unfold sendData
  cases hf : l.fields with
  | none => simp only [Option.getD_none]; rw [e1 _ fields]; rfl
  | some lf => simp only [Option.getD_some]; rw [e1 _ fields]

theorem sendBase_keys (t : Int) (L : Level) (caller : Option (String × Int)) (msg : String) :
    Fields.keys (sendBase t L caller msg)
      = [KeyTime, KeyLevel, KeyMessage] ++ (if caller.isSome then [KeyFile] else []) := by
  cases caller with
  | none => simp [sendBase, Fields.set, Fields.keys, KeyTime, KeyLevel, KeyMessage]
  | some c =>
    obtain ⟨f, n⟩ := c
    simp [sendBase, Fields.set, Fields.keys, KeyTime, KeyLevel, KeyMessage, KeyFile]

theorem sendBase_get (t : Int) (L : Level) (caller : Option (String × Int)) (msg : String) :
    Fields.get (sendBase t L caller msg) KeyTime = some (Value.time t) ∧
    Fields.get (sendBase t L caller msg) KeyLevel = some (Value.str L.String) ∧
    Fields.get (sendBase t L caller msg) KeyMessage = some (Value.str msg) ∧
    (∀ file line, caller = some (file, line) →
      Fields.get (sendBase t L caller msg) KeyFile
        = some (Value.str (file ++ ":" ++ toString line))) := by
  cases caller with
  | none =>
    simp [sendBase, Fields.set, Fields.get, KeyTime, KeyLevel, KeyMessage]
  | some c =>
    obtain ⟨f, n⟩ := c
    simp [sendBase, Fields.set, Fields.get, KeyTime, KeyLevel, KeyMessage, KeyFile]

theorem send_below {σ : Type} (l : logger σ) (env : Env σ) (L : Level)
    (caller : Option (String × Int)) (msg : String) (fields : Option Fields)
    (h : L.toNat < l.level.toNat) : l.send env L caller msg fields = some env := by
  simp [logger.send, h]

theorem send_emits {σ : Type} (o : Output σ Fields) (l : logger (σ × List Fields))
    (env : Env (σ × List Fields)) (L : Level) (caller : Option (String × Int))
    (msg : String) (fields : Option Fields) (now : Unit → Int)
    (hout : l.output = some o.traced) (hnow : l.now = some now)
    (hlev : l.level.toNat ≤ L.toNat) :
    ∃ env1, l.send env L caller msg fields = some env1 ∧
      env1.sink.2 = env.sink.2 ++ [sendData l (now ()) L caller msg fields] ∧
      env1.sink.1 = (o.Write env.sink.1 (sendData l (now ()) L caller msg fields)).1 := by
  have h1 : ¬ L.toNat < l.level.toNat := by omega
  unfold logger.send
  simp only [h1, if_false, hout, logger.Now, hnow]
  split
  · rename_i s hw
    refine ⟨_, rfl, ?_, ?_⟩
    · have := congrArg (fun p => p.1.2) hw; simpa [Output.traced] using this.symm
    · have := congrArg (fun p => p.1.1) hw; simpa [Output.traced] using this.symm
  · rename_i s err hw
    refine ⟨_, rfl, ?_, ?_⟩
    · have := congrArg (fun p => p.1.2) hw; simpa [Output.traced] using this.symm
    · have := congrArg (fun p => p.1.1) hw; simpa [Output.traced] using this.symm


/-- The level gate for a logger that has a time source: with a set output, a call below
the threshold writes nothing and changes nothing, and a call at or above the threshold
passes exactly one record to the output. -/
theorem send_gate {σ : Type} (o : Output σ Fields) (l : logger (σ × List Fields))
    (env : Env (σ × List Fields)) (L : Level) (caller : Option (String × Int))
    (msg : String) (fields : Option Fields) (now : Unit → Int)
    (hout : l.output = some o.traced) (hnow : l.now = some now) :
    (L.toNat < l.level.toNat → l.send env L caller msg fields = some env) ∧
    (l.level.toNat ≤ L.toNat →
      ∃ env1 r, l.send env L caller msg fields = some env1 ∧
        env1.sink.2 = env.sink.2 ++ [r]) := by
  refine ⟨send_below l env L caller msg fields, fun h => ?_⟩
  obtain ⟨env1, h1, h2, _⟩ := send_emits o l env L caller msg fields now hout hnow h
  exact ⟨env1, _, h1, h2⟩

/-- C7, the failing input: the logger built by `New` with threshold warn writes one
record for a call at warn, and its `Copy`, which has the same threshold and the same
output but no time source, panics on the same call before anything is written. -/
theorem send_after_Copy_panics :
    (warnLogger.send env0 Level.warn none "test" none).map (fun e => e.sink.2.length)
      = some 1 ∧
    warnLogger.Copy.level = Level.warn ∧
    warnLogger.Copy.output.isSome = true ∧
    warnLogger.Copy.send env0 Level.warn none "test" none = none := by
  refine ⟨rfl, rfl, rfl, rfl⟩

/-- C8: a logger with default fields `D`, a clock and an output passes, for a call at or
above its threshold whose fields `F` share no key with `D` and where neither uses one of
`time`, `level`, `message`, `file`, exactly one record to the output; its keys are
`time`, `level`, `message`, `file` when the call site is known, and the keys of `F` and
`D`, each once; `time` is the clock reading, `level` the name of the level, `message`
the text, `file` the call site, and every entry of `F` and of `D` is there unchanged. -/
theorem send_record {σ : Type} (o : Output σ Fields) (l : logger (σ × List Fields))
    (env : Env (σ × List Fields)) (L : Level) (caller : Option (String × Int))
    (msg : String) (fields : Option Fields) (now : Unit → Int)
    (hout : l.output = some o.traced) (hnow : l.now = some now)
    (hlev : l.level.toNat ≤ L.toNat)
    (hFn : (Fields.keys (fields.getD [])).Nodup)
    (hDn : (Fields.keys (l.fields.getD [])).Nodup)
    (hFD : ∀ k, k ∈ Fields.keys (fields.getD []) → k ∉ Fields.keys (l.fields.getD []))
    (hFr : ∀ k, k ∈ Fields.keys (fields.getD []) →
      k ∉ [KeyTime, KeyLevel, KeyMessage, KeyFile])
    (hDr : ∀ k, k ∈ Fields.keys (l.fields.getD []) →
      k ∉ [KeyTime, KeyLevel, KeyMessage, KeyFile]) :
    ∃ env1 r, l.send env L caller msg fields = some env1 ∧
      env1.sink.2 = env.sink.2 ++ [r] ∧
      env1.sink.1 = (o.Write env.sink.1 r).1 ∧
      (Fields.keys r).Nodup ∧
      (∀ k, k ∈ Fields.keys r ↔
        k ∈ [KeyTime, KeyLevel, KeyMessage] ∨ (caller.isSome = true ∧ k = KeyFile) ∨
        k ∈ Fields.keys (fields.getD []) ∨ k ∈ Fields.keys (l.fields.getD [])) ∧
      Fields.get r KeyTime = some (Value.time (now ())) ∧
      Fields.get r KeyLevel = some (Value.str L.String) ∧
      Fields.get r KeyMessage = some (Value.str msg) ∧
      (∀ file line, caller = some (file, line) →
        Fields.get r KeyFile = some (Value.str (file ++ ":" ++ toString line))) ∧
      (∀ k v, Fields.get (fields.getD []) k = some v → Fields.get r k = some v) ∧
      (∀ k v, Fields.get (l.fields.getD []) k = some v → Fields.get r k = some v) := by
  obtain ⟨env1, h1, h2, h3⟩ := send_emits o l env L caller msg fields now hout hnow hlev
  refine ⟨env1, _, h1, h2, h3, ?_⟩
  rw [sendData_eq]
  obtain ⟨g1, g2, g3, g4⟩ := sendBase_get (now ()) L caller msg
  have hbk := sendBase_keys (now ()) L caller msg
  have reserved : ∀ k, k ∈ [KeyTime, KeyLevel, KeyMessage, KeyFile] →
      Fields.get (Fields.assignAll (Fields.assignAll (sendBase (now ()) L caller msg)
          (some (fields.getD []))) (some (l.fields.getD []))) k
        = Fields.get (sendBase (now ()) L caller msg) k := by
    intro k hk
    rw [Fields.get_assignAll_of_not_mem _ _ _ (fun h => hDr k h hk),
      Fields.get_assignAll_of_not_mem _ _ _ (fun h => hFr k h hk)]
  refine ⟨?_, ?_, ?_, ?_, ?_, ?_, ?_, ?_⟩
  · apply Fields.nodup_assignAll
    apply Fields.nodup_assignAll
    rw [hbk]
    cases caller <;> simp [KeyTime, KeyLevel, KeyMessage, KeyFile]
  · intro k
    rw [Fields.mem_keys_assignAll, Fields.mem_keys_assignAll, hbk]
    cases caller <;> simp [or_assoc]
  · rw [reserved _ (by simp), g1]
  · rw [reserved _ (by simp), g2]
  · rw [reserved _ (by simp), g3]
  · intro file line hc
    rw [reserved _ (by simp), g4 file line hc]
  · intro k v hk
    rw [Fields.get_assignAll_of_not_mem _ _ _
      (hFD k (Fields.mem_keys_of_get _ _ _ hk))]
    exact Fields.get_assignAll_of_get _ _ _ _ hFn hk
  · intro k v hk
    exact Fields.get_assignAll_of_get _ _ _ _ hDn hk


/-- C8, witness: the scenario `Info("hello", F{"a": 1})` on a logger with the field
`foo = bar`. -/
theorem send_record_witness :
    ∃ env1 r, fooLogger.send env0 Level.info (some ("xlog_test.go", 217)) "hello"
        (some [("a", Value.int 1)]) = some env1 ∧
      env1.sink.2 = env0.sink.2 ++ [r] ∧
      Fields.get r KeyLevel = some (Value.str "info") ∧
      Fields.get r "a" = some (Value.int 1) ∧
      Fields.get r "foo" = some (Value.str "bar") := by
  obtain ⟨env1, r, h1, h2, _, _, _, _, h3, _, _, hF, hD⟩ :=
    send_record RecorderOutput fooLogger env0 Level.info (some ("xlog_test.go", 217)) "hello"
      (some [("a", Value.int 1)]) (fun _ => 0) rfl rfl (by decide)
      (by simp [Fields.keys]) (by simp [Fields.keys, fooLogger, rec1])
      (by simp [Fields.keys, fooLogger, rec1])
      (by simp [Fields.keys, KeyTime, KeyLevel, KeyMessage, KeyFile])
      (by simp [Fields.keys, fooLogger, rec1, KeyTime, KeyLevel, KeyMessage, KeyFile])
  exact ⟨env1, r, h1, h2, h3, hF "a" _ rfl, hD "foo" _ rfl⟩

/-- C9 (as amended): when the logger has a default field at key `k`, the record a call
emits holds the default value at `k`, whatever fields the call supplies: on a key
collision the logger defaults override the caller-supplied fields. -/
theorem defaults_override {σ : Type} (o : Output σ Fields) (l : logger (σ × List Fields))
    (env : Env (σ × List Fields)) (L : Level) (caller : Option (String × Int))
    (msg : String) (fields : Option Fields) (now : Unit → Int) (D : Fields)
    (k : String) (d : Value)
    (hout : l.output = some o.traced) (hnow : l.now = some now)
    (hlev : l.level.toNat ≤ L.toNat)
    (hD : l.fields = some D) (hDn : (Fields.keys D).Nodup)
    (hk : Fields.get D k = some d) :
    ∃ env1 r, l.send env L caller msg fields = some env1 ∧
      env1.sink.2 = env.sink.2 ++ [r] ∧ Fields.get r k = some d := by
  obtain ⟨env1, h1, h2, _⟩ := send_emits o l env L caller msg fields now hout hnow hlev
  refine ⟨env1, _, h1, h2, ?_⟩
  rw [sendData_eq, hD]
  exact Fields.get_assignAll_of_get _ _ _ _ hDn hk

/-- C9, witness: the default `k = default` against the call field `k = caller`. -/
theorem defaults_override_witness :
    ∃ env1 r, defaultsLogger.send env0 Level.info none "test" (some (rec1 "k" "caller"))
        = some env1 ∧
      env1.sink.2 = env0.sink.2 ++ [r] ∧ Fields.get r "k" = some (Value.str "default") :=
  defaults_override RecorderOutput defaultsLogger env0 Level.info none "test"
    (some (rec1 "k" "caller")) (fun _ => 0) (rec1 "k" "default") "k" (Value.str "default")
    rfl rfl (by decide) rfl (by simp [Fields.keys, rec1]) rfl

/-- C9, counterexample: a logger with the default field `k = default`, called with the
field `k = caller`, emits one record, and the record holds `default` at `k`, which is
not the caller-supplied value. -/
theorem caller_field_overridden_counterexample :
    (defaultsLogger.send env0 Level.info none "test" (some (rec1 "k" "caller"))).map
        (fun e => e.sink.2.map (fun r => Fields.get r "k"))
      = some [some (Value.str "default")] ∧
    Value.str "default" ≠ Value.str "caller" := by
  refine ⟨rfl, ?_⟩
  intro h
  injection h with h
  exact absurd h (by decide)

/-- C10: when the last element of the argument list is a `map[string]interface{}` or an
`xlog.F`, `extractFields` returns that map and leaves the list without its last element;
on the empty list, and on a list whose last element is neither (maps at other positions
or not), it returns nil and leaves the list as it is. -/
theorem extractFields_spec (init : List Value) :
    (∀ f, extractFields (init ++ [Value.mapSI f]) = (f, init)) ∧
    (∀ f, extractFields (init ++ [Value.xF f]) = (f, init)) ∧
    extractFields [] = (none, []) ∧
    (∀ last, (∀ f, last ≠ Value.mapSI f) → (∀ f, last ≠ Value.xF f) →
      extractFields (init ++ [last]) = (none, init ++ [last])) := by
  have hlen : ∀ x : Value, 0 < (init ++ [x]).length := by intro x; simp
  have hget : ∀ x : Value, (init ++ [x])[(init ++ [x]).length - 1]? = some x := by
    intro x; simp
  have htake : ∀ x : Value, (init ++ [x]).take ((init ++ [x]).length - 1) = init := by
    intro x; simp
  refine ⟨?_, ?_, rfl, ?_⟩
  · intro f
    unfold extractFields
    rw [if_pos (hlen _), hget, htake]
  · intro f
    unfold extractFields
    rw [if_pos (hlen _), hget, htake]
  · intro last h1 h2
    unfold extractFields
    rw [if_pos (hlen _), hget]
    split
    · rename_i f hf; cases hf; exact absurd rfl (h1 f)
    · rename_i f hf; cases hf; exact absurd rfl (h2 f)
    · rfl

/-- C10, witness: the four argument lists of the test `TestExtractFields`. -/
theorem extractFields_spec_witness :
    extractFields [Value.str "a", Value.int 1, Value.mapSI (some (rec1 "foo" "bar"))]
      = (some (rec1 "foo" "bar"), [Value.str "a", Value.int 1]) ∧
    extractFields [Value.str "a", Value.int 1, Value.xF (some (rec1 "foo" "bar"))]
      = (some (rec1 "foo" "bar"), [Value.str "a", Value.int 1]) ∧
    extractFields [] = (none, []) ∧
    extractFields [Value.mapSI (some (rec1 "foo" "bar")), Value.str "a", Value.int 1]
      = (none, [Value.mapSI (some (rec1 "foo" "bar")), Value.str "a", Value.int 1]) :=
  ⟨(extractFields_spec [Value.str "a", Value.int 1]).1 _,
   (extractFields_spec [Value.str "a", Value.int 1]).2.1 _,
   (extractFields_spec []).2.2.1,
   (extractFields_spec [Value.mapSI (some (rec1 "foo" "bar")), Value.str "a"]).2.2.2
     (Value.int 1) (fun f h => by cases h) (fun f h => by cases h)⟩


/-! ## Theorems: composition outputs -/

/-- C12: a `FilterOutput` without an output returns nil and leaves the state alone,
whatever its condition; with an output and a condition, `Write` is one call of the
output's `Write` on the record, with its result, when the condition holds of the
record, and returns nil without touching the output when it does not. -/
theorem FilterOutput_Write_spec {σ R : Type} (o : Output σ R) (cond : R → Bool)
    (c : Option (R → Bool)) (s : σ × List R) (r : R) :
    FilterOutput.Write { Cond := c, Output := none } s r = some (s, none) ∧
    (cond r = true →
      FilterOutput.Write { Cond := some cond, Output := some o.traced } s r
          = some (o.traced.Write s r) ∧
        (o.traced.Write s r).1.2 = s.2 ++ [r]) ∧
    (cond r = false →
      FilterOutput.Write { Cond := some cond, Output := some o.traced } s r
        = some (s, none)) := by
  refine ⟨rfl, fun h => ⟨?_, rfl⟩, fun h => ?_⟩
  · simp [FilterOutput.Write, h]
  · simp [FilterOutput.Write, h]

/-- C12, witness: a filter on the field `type` in front of a recorder, on a record that
matches and on one that does not. -/
theorem FilterOutput_Write_spec_witness :
    (FilterOutput.Write
        { Cond := some (fun r => (Fields.get r "type").isSome),
          Output := some RecorderOutput.traced } (([] : List Fields), []) (rec1 "type" "x")
      = some (RecorderOutput.traced.Write ([], []) (rec1 "type" "x")) ∧
      (RecorderOutput.traced.Write (([] : List Fields), []) (rec1 "type" "x")).1.2
        = [] ++ [rec1 "type" "x"]) ∧
    FilterOutput.Write
        { Cond := some (fun r => (Fields.get r "type").isSome),
          Output := some RecorderOutput.traced } (([] : List Fields), []) (rec1 "foo" "bar")
      = some (([], []), none) :=
  ⟨(FilterOutput_Write_spec RecorderOutput (fun r => (Fields.get r "type").isSome) none
      ([], []) (rec1 "type" "x")).2.1 rfl,
   (FilterOutput_Write_spec RecorderOutput (fun r => (Fields.get r "type").isSome) none
      ([], []) (rec1 "foo" "bar")).2.2 rfl⟩

theorem LevelOutput.choose_name {σ : Type} (l : LevelOutput σ) (L : Level) :
    l.choose (some (Value.str L.String)) = l.registered L := by
  cases L <;> simp [LevelOutput.choose, LevelOutput.registered, Level.String]

theorem LevelOutput.choose_other {σ : Type} (l : LevelOutput σ) (v : Option Value)
    (h : ∀ L : Level, v ≠ some (Value.str L.String)) : l.choose v = none := by
  unfold LevelOutput.choose
  split
  · rename_i s
    have h1 := h Level.debug
    have h2 := h Level.info
    have h3 := h Level.warn
    have h4 := h Level.error
    have h5 := h Level.fatal
    simp only [Level.String, ne_eq, Option.some.injEq, Value.str.injEq] at h1 h2 h3 h4 h5
    simp [h1, h2, h3, h4, h5]
  · rfl

/-- C13: when the record holds under `level` the name of one of the five levels, `Write`
is one call of the `Write` of the output registered for that level, on the unchanged
record and with its result, and it returns nil and leaves the state alone when no output
is registered for that level; when the value under `level` is absent, not a string, or
none of the five names, it returns nil and leaves the state alone. -/
theorem LevelOutput_Write_spec {σ : Type} (l : LevelOutput σ) (s : σ) (r : Fields) :
    (∀ (L : Level) (o : Output σ Fields),
      Fields.get r KeyLevel = some (Value.str L.String) → l.registered L = some o →
      l.Write s r = o.Write s r) ∧
    (∀ L : Level, Fields.get r KeyLevel = some (Value.str L.String) → l.registered L = none →
      l.Write s r = (s, none)) ∧
    ((∀ L : Level, Fields.get r KeyLevel ≠ some (Value.str L.String)) →
      l.Write s r = (s, none)) := by
  refine ⟨fun L o h1 h2 => ?_, fun L h1 h2 => ?_, fun h => ?_⟩
  · unfold LevelOutput.Write
    rw [h1, LevelOutput.choose_name, h2]
  · unfold LevelOutput.Write
    rw [h1, LevelOutput.choose_name, h2]
  · unfold LevelOutput.Write
    rw [LevelOutput.choose_other l _ h]


/-- C13, witness: a debug record goes to the debug output, an info record is dropped
because no output is registered for info, and a record without level is dropped. -/
theorem LevelOutput_Write_spec_witness :
    exampleLevelOutput.Write ([], []) (rec1 "level" "debug")
      = RecorderOutput.traced.Write ([], []) (rec1 "level" "debug") ∧
    exampleLevelOutput.Write ([], []) (rec1 "level" "info") = (([], []), none) ∧
    exampleLevelOutput.Write ([], []) (rec1 "foo" "bar") = (([], []), none) :=
  ⟨(LevelOutput_Write_spec exampleLevelOutput ([], []) (rec1 "level" "debug")).1
      Level.debug RecorderOutput.traced rfl rfl,
   (LevelOutput_Write_spec exampleLevelOutput ([], []) (rec1 "level" "info")).2.1
      Level.info rfl rfl,
   (LevelOutput_Write_spec exampleLevelOutput ([], []) (rec1 "foo" "bar")).2.2
      (fun L h => by simp [Fields.get, rec1, KeyLevel] at h)⟩

theorem Fields.keys_set_of_mem (m : Fields) (k : String) (v : Value)
    (h : k ∈ Fields.keys m) : Fields.keys (Fields.set m k v) = Fields.keys m := by
  induction m with
  | nil => simp [Fields.keys] at h
  | cons kv rest ih =>
    obtain ⟨k1, v1⟩ := kv
    by_cases hk : k1 = k
    · subst hk; simp [Fields.set, Fields.keys]
    · have h2 : k ∈ Fields.keys rest := by
        simp only [Fields.keys, List.map_cons, List.mem_cons] at h
        rcases h with h | h
        · exact absurd h.symm hk
        · exact h
      have := ih h2
      simp only [Fields.keys] at this
      simp [Fields.set, Fields.keys, hk, this]

theorem trimLoop_aux (maxLen : Nat) (src : Fields) :
    ∀ d : Fields, (Fields.keys src).Nodup → (∀ k, k ∈ Fields.keys src → k ∈ Fields.keys d) →
      Fields.keys (src.foldl (fun d kv =>
          match trimmed maxLen (some kv.2) with
          | some v => Fields.set d kv.1 v
          | none => d) d) = Fields.keys d ∧
      ∀ k, Fields.get (src.foldl (fun d kv =>
          match trimmed maxLen (some kv.2) with
          | some v => Fields.set d kv.1 v
          | none => d) d) k
        = match Fields.get src k with
          | some v =>
            (match trimmed maxLen (some v) with
              | some w => some w
              | none => Fields.get d k)
          | none => Fields.get d k := by
  induction src with
  | nil => intro d _ _; exact ⟨rfl, fun k => rfl⟩
  | cons kv rest ih =>
    intro d hn hsub
    obtain ⟨k0, v0⟩ := kv
    simp only [Fields.keys, List.map_cons, List.nodup_cons] at hn
    have hk0 : k0 ∈ Fields.keys d := hsub k0 (by simp [Fields.keys])
    have hrest : ∀ k, k ∈ Fields.keys rest → k ∈ Fields.keys d := fun k hk =>
      hsub k (by simp only [Fields.keys, List.map_cons, List.mem_cons]; exact Or.inr hk)
    simp only [List.foldl_cons]
    cases ht : trimmed maxLen (some v0) with
    | none =>
      obtain ⟨i1, i2⟩ := ih d hn.2 hrest
      refine ⟨i1, fun k => ?_⟩
      rw [i2 k]
      by_cases hk : k0 = k
      · subst hk
        rw [Fields.get_eq_none rest k0 hn.1]
        simp [Fields.get, ht]
      · simp [Fields.get, hk]
    | some w =>
      have hkeys := Fields.keys_set_of_mem d k0 w hk0
      obtain ⟨i1, i2⟩ := ih (Fields.set d k0 w) hn.2 (fun k hk => by rw [hkeys]; exact hrest k hk)
      refine ⟨by simp only [] at i1 ⊢; rw [i1, hkeys], fun k => ?_⟩
      simp only [] at i2 ⊢
      rw [i2 k]
      by_cases hk : k0 = k
      · subst hk
        rw [Fields.get_eq_none rest k0 hn.1]
        simp [Fields.get, ht, Fields.get_set_eq]
      · have hne : k ≠ k0 := fun e => hk e.symm
        simp [Fields.get, hk, Fields.get_set_ne _ _ _ _ hne]

/-- C14 (as amended): `NewTrimOutput(maxLen, next)` is one call of `next.Write`, with its result, on a
record that has the keys of `r`, in which a string longer than `maxLen` bytes is cut to
its first `maxLen` bytes and every other value (a shorter string, a value that is not a
string) is the one `r` has. -/
theorem NewTrimOutput_spec {σ : Type} (maxLen : Nat) (next : Output σ Fields) (s : σ)
    (r : Fields) (hr : (Fields.keys r).Nodup) :
    (NewTrimOutput maxLen next).Write s r = next.Write s (trimLoop maxLen r) ∧
    Fields.keys (trimLoop maxLen r) = Fields.keys r ∧
    (∀ k str, Fields.get r k = some (Value.str str) → maxLen < str.length →
      Fields.get (trimLoop maxLen r) k = some (Value.str (str.take maxLen))) ∧
    (∀ k str, Fields.get r k = some (Value.str str) → str.length ≤ maxLen →
      Fields.get (trimLoop maxLen r) k = some (Value.str str)) ∧
    (∀ k v, Fields.get r k = some v → (∀ str, v ≠ Value.str str) →
      Fields.get (trimLoop maxLen r) k = some v) := by
  obtain ⟨h1, h2⟩ := trimLoop_aux maxLen r r hr (fun k hk => hk)
  refine ⟨rfl, h1, ?_, ?_, ?_⟩
  · intro k str hk hlen
    unfold trimLoop
    rw [h2 k, hk]
    simp [trimmed, hlen]
  · intro k str hk hlen
    have : ¬ maxLen < str.length := by omega
    unfold trimLoop
    rw [h2 k, hk]
    simp [trimmed, this, hk]
  · intro k v hk hv
    unfold trimLoop
    rw [h2 k, hk]
    cases v <;> simp [trimmed, hk]
    exact absurd rfl (hv _)


/-- C14, witness: the scenario `Trim(maxLen=5)` on the record with `msg = abcdefgh` and
the short field `foo = bar`. -/
theorem NewTrimOutput_spec_witness :
    (NewTrimOutput 5 RecorderOutput).Write []
        [("msg", Value.str "abcdefgh"), ("foo", Value.str "bar"), ("n", Value.int 123456)]
      = RecorderOutput.Write [] (trimLoop 5
        [("msg", Value.str "abcdefgh"), ("foo", Value.str "bar"), ("n", Value.int 123456)]) ∧
    Fields.get (trimLoop 5
        [("msg", Value.str "abcdefgh"), ("foo", Value.str "bar"), ("n", Value.int 123456)]) "msg"
      = some (Value.str ("abcdefgh".take 5)) ∧
    Fields.get (trimLoop 5
        [("msg", Value.str "abcdefgh"), ("foo", Value.str "bar"), ("n", Value.int 123456)]) "foo"
      = some (Value.str "bar") ∧
    Fields.get (trimLoop 5
        [("msg", Value.str "abcdefgh"), ("foo", Value.str "bar"), ("n", Value.int 123456)]) "n"
      = some (Value.int 123456) :=
  have h := NewTrimOutput_spec 5 RecorderOutput []
    [("msg", Value.str "abcdefgh"), ("foo", Value.str "bar"), ("n", Value.int 123456)]
    (by simp [Fields.keys])
  ⟨h.1, h.2.2.1 "msg" "abcdefgh" rfl (by decide), h.2.2.2.1 "foo" "bar" rfl (by decide),
    h.2.2.2.2 "n" (Value.int 123456) rfl (fun str e => by cases e)⟩

/-- C14, counterexample: the text `héllo` is 6 bytes in UTF-8 (`é` is `c3 a9`) and 5
characters.  With `maxLen` 2 the forwarded value is its first 2 bytes, `h` and `c3`,
which is not its first 2 characters; with `maxLen` 5 the value, which is 5 characters
long, is not left unchanged but cut to 5 bytes. -/
theorem trim_cuts_bytes_counterexample :
    Fields.get (trimLoop 2 [("msg", Value.str "h\xc3\xa9llo")]) "msg"
      = some (Value.str "h\xc3") ∧
    String.mk (takeChars 2 "h\xc3\xa9llo".data) = "h\xc3\xa9" ∧
    "h\xc3" ≠ "h\xc3\xa9" ∧
    charLength "h\xc3\xa9llo" = 5 ∧
    Fields.get (trimLoop 5 [("msg", Value.str "h\xc3\xa9llo")]) "msg"
      = some (Value.str "h\xc3\xa9ll") ∧
    "h\xc3\xa9ll" ≠ "h\xc3\xa9llo" := by
  refine ⟨rfl, by decide, by decide, by decide, rfl, by decide⟩

theorem String.length_take_le (str : String) (n : Nat) : ¬ n < (str.take n).length := by
  have : (str.take n).length = min n str.length := by
    show (str.take n).data.length = min n str.data.length
    rw [String.data_take, List.length_take]
  omega

theorem trimValue_idem (maxLen : Nat) (v : Value) :
    trimValue maxLen (trimValue maxLen v) = trimValue maxLen v := by
  cases v with
  | str str =>
    by_cases h : maxLen < str.length
    · have e : trimValue maxLen (Value.str str) = Value.str (str.take maxLen) := by
        unfold trimValue; simp [h]
      rw [e]
      unfold trimValue
      simp [String.length_take_le]
    · have e : trimValue maxLen (Value.str str) = Value.str str := by
        unfold trimValue; simp [h]
      rw [e, e]
  | _ => rfl

theorem trimAt_spec (maxLen : Nat) (d : Fields) (f : String) :
    Fields.keys (match trimmed maxLen (Fields.get d f) with
      | some v => Fields.set d f v
      | none => d) = Fields.keys d ∧
    ∀ k, Fields.get (match trimmed maxLen (Fields.get d f) with
      | some v => Fields.set d f v
      | none => d) k
      = if k = f then (Fields.get d k).map (trimValue maxLen) else Fields.get d k := by
  cases hg : Fields.get d f with
  | none =>
    refine ⟨by simp [trimmed], fun k => ?_⟩
    by_cases hk : k = f
    · subst hk; simp [trimmed, hg]
    · simp [trimmed, hk]
  | some v =>
    have hmem : f ∈ Fields.keys d := Fields.mem_keys_of_get d f v hg
    cases v with
    | str str =>
      by_cases hlen : maxLen < str.length
      · refine ⟨by simp [trimmed, hlen, Fields.keys_set_of_mem _ _ _ hmem], fun k => ?_⟩
        by_cases hk : k = f
        · subst hk; simp [trimmed, hlen, hg, Fields.get_set_eq, trimValue]
        · simp [trimmed, hlen, hk, Fields.get_set_ne _ _ _ _ hk]
      · refine ⟨by simp [trimmed, hlen], fun k => ?_⟩
        by_cases hk : k = f
        · subst hk; simp [trimmed, hlen, hg, trimValue]
        · simp [trimmed, hlen, hk]
    | _ =>
      refine ⟨by simp [trimmed], fun k => ?_⟩
      by_cases hk : k = f
      · subst hk; simp [trimmed, hg, trimValue]
      · simp [trimmed, hk]

theorem trimFieldsLoop_aux (maxLen : Nat) (T : List String) :
    ∀ d : Fields,
      Fields.keys (trimFieldsLoop T maxLen d) = Fields.keys d ∧
      ∀ k, Fields.get (trimFieldsLoop T maxLen d) k
        = if k ∈ T then (Fields.get d k).map (trimValue maxLen) else Fields.get d k := by
  induction T with
  | nil => intro d; exact ⟨rfl, fun k => by simp [trimFieldsLoop]⟩
  | cons f rest ih =>
    intro d
    obtain ⟨a1, a2⟩ := trimAt_spec maxLen d f
    obtain ⟨i1, i2⟩ := ih (match trimmed maxLen (Fields.get d f) with
      | some v => Fields.set d f v
      | none => d)
    simp only [trimFieldsLoop, List.foldl_cons] at i1 i2 ⊢
    refine ⟨by rw [i1, a1], fun k => ?_⟩
    rw [i2 k, a2 k]
    by_cases hk : k = f
    · subst hk
      by_cases hr : k ∈ rest
      · cases hg : Fields.get d k <;> simp [hr, trimValue_idem]
      · simp [hr]
    · simp [hk]

/-- C15: `NewTrimFieldsOutput(T, maxLen, next)` is one call of `next.Write`, with its
result, on a record with exactly the keys of `r`, in the same order: under a key listed
in `T` a string longer than `maxLen` bytes is cut to its first `maxLen` bytes and any
other value stays, and under a key that is not listed the value stays whatever its
length; a name of `T` that `r` does not have is not added. -/
theorem NewTrimFieldsOutput_spec {σ : Type} (T : List String) (maxLen : Nat)
    (next : Output σ Fields) (s : σ) (r : Fields) :
    (NewTrimFieldsOutput T maxLen next).Write s r
      = next.Write s (trimFieldsLoop T maxLen r) ∧
    Fields.keys (trimFieldsLoop T maxLen r) = Fields.keys r ∧
    (∀ k, k ∈ T →
      Fields.get (trimFieldsLoop T maxLen r) k = (Fields.get r k).map (trimValue maxLen)) ∧
    (∀ k, k ∉ T → Fields.get (trimFieldsLoop T maxLen r) k = Fields.get r k) ∧
    (∀ k, k ∈ T → k ∉ Fields.keys r → k ∉ Fields.keys (trimFieldsLoop T maxLen r)) := by
  obtain ⟨h1, h2⟩ := trimFieldsLoop_aux maxLen T r
  refine ⟨rfl, h1, fun k hk => ?_, fun k hk => ?_, fun k _ hk => ?_⟩
  · rw [h2 k]; simp [hk]
  · rw [h2 k]; simp [hk]
  · rw [h1]; exact hk

/-- C15, witness: trimming only `msg` to 5 bytes leaves the long field `other` alone and
does not add the listed name `absent`. -/
theorem NewTrimFieldsOutput_spec_witness :
    Fields.get (trimFieldsLoop ["msg", "absent"] 5
        [("msg", Value.str "abcdefgh"), ("other", Value.str "ijklmnop")]) "msg"
      = (Fields.get [("msg", Value.str "abcdefgh"), ("other", Value.str "ijklmnop")] "msg").map
          (trimValue 5) ∧
    Fields.get (trimFieldsLoop ["msg", "absent"] 5
        [("msg", Value.str "abcdefgh"), ("other", Value.str "ijklmnop")]) "other"
      = Fields.get [("msg", Value.str "abcdefgh"), ("other", Value.str "ijklmnop")] "other" ∧
    "absent" ∉ Fields.keys (trimFieldsLoop ["msg", "absent"] 5
        [("msg", Value.str "abcdefgh"), ("other", Value.str "ijklmnop")]) :=
  have h := NewTrimFieldsOutput_spec ["msg", "absent"] 5 RecorderOutput []
    [("msg", Value.str "abcdefgh"), ("other", Value.str "ijklmnop")]
  ⟨h.2.2.1 "msg" (by simp), h.2.2.2.1 "other" (by simp),
    h.2.2.2.2 "absent" (by simp) (by simp [Fields.keys])⟩


/-! ## Theorems: encoders -/

theorem sortedKeys_spec (r : Fields) (hr : (Fields.keys r).Nodup) :
    List.Sorted (fun a b : String => a.data < b.data) (sortStrings (gatherKeys r)) ∧
    ∀ k, k ∈ sortStrings (gatherKeys r) ↔
      k ∈ Fields.keys r ∧ k ∉ [KeyLevel, KeyMessage, KeyTime] := by
  have hperm : (sortStrings (gatherKeys r)).Perm (gatherKeys r) :=
    List.perm_insertionSort _ _
  have hnd : (sortStrings (gatherKeys r)).Nodup :=
    hperm.nodup_iff.mpr (List.Nodup.filter _ hr)
  have hsorted : List.Sorted (fun a b : String => a.data ≤ b.data)
      (sortStrings (gatherKeys r)) :=
    @List.sorted_insertionSort String (fun a b => a.data ≤ b.data) _
      ⟨fun a b => le_total a.data b.data⟩ ⟨fun _ _ _ h1 h2 => le_trans h1 h2⟩ _
  refine ⟨?_, fun k => ?_⟩
  · have := List.Pairwise.and hsorted hnd
    refine List.Pairwise.imp ?_ this
    intro a b hab
    exact lt_of_le_of_ne hab.1 (fun e => hab.2 (String.ext_iff.mpr e))
  · rw [hperm.mem_iff]
    simp only [gatherKeys, List.mem_filter, List.mem_cons, List.mem_singleton,
      List.not_mem_nil, or_false, Bool.not_eq_true', Bool.or_eq_false_iff, beq_eq_false_iff_ne,
      ne_eq, not_or, Bool.not_eq_eq_eq_not, Bool.not_true, and_assoc]

theorem logfmt_loop_cons {σ : Type} (lib : Lib) (o : logfmtOutput σ) (r : Fields)
    (k : String) (rest : List String) (buf : String) :
    logfmtOutput.loop lib o r (k :: rest) buf
      = match lib.writeValue (Fields.index r k) with
        | Except.error e => Except.error e
        | Except.ok v =>
          logfmtOutput.loop lib o r rest
            (match rest with
              | [] => (((buf ++ k).push o.delimiter) ++ v).push '\n'
              | _ :: _ => (((buf ++ k).push o.delimiter) ++ v).push o.separator) := rfl

theorem logfmt_loop_ok {σ : Type} (lib : Lib) (o : logfmtOutput σ) (r : Fields)
    (render : String → String) (ks : List String) :
    ∀ buf : String, ks ≠ [] →
      (∀ k, k ∈ ks → lib.writeValue (Fields.index r k) = Except.ok (render k)) →
      logfmtOutput.loop lib o r ks buf
        = Except.ok (buf ++ String.join
            ((ks.map (fun k => (k.push o.delimiter) ++ render k)).intersperse
              (String.singleton o.separator)) ++ "\n") := by
  induction ks with
  | nil => intro buf h; exact absurd rfl h
  | cons k rest ih =>
    intro buf _ hk
    have h1 := hk k (by simp)
    cases rest with
    | nil =>
      simp only [logfmtOutput.loop, h1]
      congr 1
      simp [String.ext_iff, String.data_append, String.data_push, String.data_join]
    | cons k2 rest2 =>
      have hrest : ∀ x, x ∈ k2 :: rest2 → lib.writeValue (Fields.index r x)
          = Except.ok (render x) := fun x hx => hk x (List.mem_cons_of_mem _ hx)
      rw [logfmt_loop_cons, h1]
      simp only []
      rw [ih _ (by simp) hrest]
      congr 1
      simp [String.ext_iff, String.data_append, String.data_push, String.data_join,
        String.singleton]

theorem logfmt_loop_error {σ : Type} (lib : Lib) (o : logfmtOutput σ) (r : Fields)
    (ks : List String) :
    ∀ buf : String,
      (∃ k e, k ∈ ks ∧ lib.writeValue (Fields.index r k) = Except.error e) →
      ∃ e, logfmtOutput.loop lib o r ks buf = Except.error e := by
  induction ks with
  | nil => intro buf h; obtain ⟨k, e, hk, _⟩ := h; simp at hk
  | cons k rest ih =>
    intro buf h
    cases hw : lib.writeValue (Fields.index r k) with
    | error e => exact ⟨e, by simp [logfmtOutput.loop, hw]⟩
    | ok v =>
      obtain ⟨k1, e, hk1, he⟩ := h
      have hk1r : k1 ∈ rest := by
        rcases List.mem_cons.mp hk1 with h1 | h1
        · subst h1; rw [hw] at he; cases he
        · exact h1
      rw [logfmt_loop_cons, hw]
      exact ih _ ⟨k1, e, hk1r, he⟩

/-- C16: the keys the logfmt encoder writes are `level`, `message`, `time`, in that
order, followed by the other keys of the record in strictly increasing order (so each
once); when `writeValue` renders every value, the bytes passed to the writer are the
entries key, delimiter, rendered value, with one separator between consecutive entries,
and one newline after the last entry; when `writeValue` fails on a value, `Write`
returns an error and passes nothing to the writer. -/
theorem logfmt_line {σ : Type} (lib : Lib) (o : logfmtOutput σ) (s : σ) (r : Fields)
    (render : String → String) (hr : (Fields.keys r).Nodup) :
    (List.Sorted (fun a b : String => a.data < b.data) (sortStrings (gatherKeys r)) ∧
      ∀ k, k ∈ sortStrings (gatherKeys r) ↔
        k ∈ Fields.keys r ∧ k ∉ [KeyLevel, KeyMessage, KeyTime]) ∧
    ((∀ k, k ∈ [KeyLevel, KeyMessage, KeyTime] ++ sortStrings (gatherKeys r) →
        lib.writeValue (Fields.index r k) = Except.ok (render k)) →
      o.Write lib s r = o.w.Write s
        (String.join
          ((([KeyLevel, KeyMessage, KeyTime] ++ sortStrings (gatherKeys r)).map
              (fun k => (k.push o.delimiter) ++ render k)).intersperse
            (String.singleton o.separator)) ++ "\n")) ∧
    ((∃ k e, k ∈ [KeyLevel, KeyMessage, KeyTime] ++ sortStrings (gatherKeys r) ∧
        lib.writeValue (Fields.index r k) = Except.error e) →
      ∃ e, o.Write lib s r = (s, some e)) := by
  refine ⟨sortedKeys_spec r hr, fun h => ?_, fun h => ?_⟩
  · unfold logfmtOutput.Write
    rw [logfmt_loop_ok lib o r render _ "" (by simp) h]
    simp
  · obtain ⟨e, he⟩ := logfmt_loop_error lib o r _ "" h
    exact ⟨e, by unfold logfmtOutput.Write; rw [he]⟩


/-- C16, witness: the line for a record with the fields `foo` and `a`. -/
theorem logfmt_line_witness :
    exampleLogfmt.Write testLib [] exampleRecord
      = (["level=info message=hello time=2006-01-02T15:04:05Z a=1 foo=bar\n"], none) := by
  have hks : sortStrings (gatherKeys exampleRecord) = ["a", "foo"] := by decide
  have h := (logfmt_line testLib exampleLogfmt [] exampleRecord exampleRender
    (by decide)).2.1 (by
      rw [hks]
      intro k hk
      simp only [List.cons_append, List.nil_append, List.mem_cons, List.mem_singleton,
        List.not_mem_nil, or_false] at hk
      rcases hk with h | h | h | h | h <;> subst h <;> rfl)
  rw [h, hks]
  rfl


theorem logstashStep_eq (lib : Lib) (lsf : Fields) (kv : String × Value) :
    logstashStep lib lsf kv
      = Fields.set lsf (logstashKey kv.1) (logstashStored lib kv.1 kv.2) := by
  obtain ⟨k, v⟩ := kv
  have hne : KeyTime ≠ KeyLevel := by decide
  by_cases h1 : k = KeyTime
  · subst h1
    cases v <;> simp [logstashStep, logstashKey, logstashStored, logstashValue, hne]
  · by_cases h2 : k = KeyLevel
    · subst h2
      cases v <;> simp [logstashStep, logstashKey, logstashStored, logstashValue, h1]
    · cases v <;> simp [logstashStep, logstashKey, logstashStored, logstashValue, h1, h2]

theorem logstash_foldl_other (lib : Lib) (src : Fields) :
    ∀ (d : Fields) (k : String), (∀ kv, kv ∈ src → logstashKey kv.1 ≠ k) →
      Fields.get (src.foldl (logstashStep lib) d) k = Fields.get d k := by
  induction src with
  | nil => intro d k _; rfl
  | cons kv rest ih =>
    intro d k h
    simp only [List.foldl_cons]
    rw [ih _ k (fun x hx => h x (List.mem_cons_of_mem _ hx)), logstashStep_eq,
      Fields.get_set_ne _ _ _ _ (fun e => h kv (by simp) e.symm)]

theorem Fields.mem_of_get (m : Fields) (k : String) (v : Value)
    (h : Fields.get m k = some v) : (k, v) ∈ m := by
  induction m with
  | nil => simp [Fields.get] at h
  | cons kv rest ih =>
    obtain ⟨k1, v1⟩ := kv
    by_cases hk : k1 = k
    · subst hk
      simp only [Fields.get, if_true, Option.some.injEq] at h
      subst h; simp
    · simp only [Fields.get, hk, if_false] at h
      exact List.mem_cons_of_mem _ (ih h)

theorem logstash_foldl_entry (lib : Lib) (src : Fields) :
    ∀ (d : Fields) (k : String) (v : Value),
      ((Fields.keys src).map logstashKey).Nodup → (k, v) ∈ src →
      Fields.get (src.foldl (logstashStep lib) d) (logstashKey k)
        = some (logstashStored lib k v) := by
  induction src with
  | nil => intro d k v _ h; simp at h
  | cons kv rest ih =>
    intro d k v hn h
    simp only [Fields.keys, List.map_cons, List.nodup_cons] at hn
    simp only [List.foldl_cons]
    rcases List.mem_cons.mp h with h1 | h1
    · subst h1
      rw [logstash_foldl_other lib rest _ _ (fun x hx e => hn.1 (by
        rw [← e]
        exact List.mem_map.mpr ⟨x.1, List.mem_map.mpr ⟨x, hx, rfl⟩, rfl⟩)),
        logstashStep_eq, Fields.get_set_eq]
    · exact ih _ k v hn.2 h1

theorem logstashKey_nodup (r : Fields) (hr : (Fields.keys r).Nodup)
    (ht : "@timestamp" ∉ Fields.keys r) : ((Fields.keys r).map logstashKey).Nodup := by
  refine List.Nodup.map_on ?_ hr
  intro x hx y hy e
  unfold logstashKey at e
  by_cases h1 : x = KeyTime <;> by_cases h2 : y = KeyTime
  · rw [h1, h2]
  · simp only [h1, h2, if_true, if_false] at e
    exact absurd (e ▸ hy) ht
  · simp only [h1, h2, if_true, if_false] at e
    exact absurd (e ▸ hx) ht
  · simpa [h1, h2] using e

/-- C17 (as amended): for a record that has neither the key `@version` nor the key
`@timestamp`, the object the logstash encoder builds has `@version` equal to 1 and no
key `time`; it holds the value of `time` under `@timestamp`, as its RFC3339 string when
it is a timestamp and as it is otherwise; it holds a string `level` upper-cased; and it
holds every other field under its own key, a timestamp as its RFC3339 string and any
other value unchanged. -/
theorem logstashFields_spec (lib : Lib) (r : Fields) (hr : (Fields.keys r).Nodup)
    (hv : "@version" ∉ Fields.keys r) (ht : "@timestamp" ∉ Fields.keys r) :
    Fields.get (logstashFields lib r) "@version" = some (Value.int 1) ∧
    Fields.get (logstashFields lib r) KeyTime = none ∧
    (∀ v, Fields.get r KeyTime = some v →
      Fields.get (logstashFields lib r) "@timestamp" = some (logstashValue lib v)) ∧
    (∀ str, Fields.get r KeyLevel = some (Value.str str) →
      Fields.get (logstashFields lib r) KeyLevel = some (Value.str (lib.ToUpper str))) ∧
    (∀ k v, k ≠ KeyTime → k ≠ KeyLevel → Fields.get r k = some v →
      Fields.get (logstashFields lib r) k = some (logstashValue lib v)) := by
  have hn := logstashKey_nodup r hr ht
  have hkey : ∀ kv, kv ∈ r → kv.1 ∈ Fields.keys r := fun kv h =>
    List.mem_map.mpr ⟨kv, h, rfl⟩
  refine ⟨?_, ?_, ?_, ?_, ?_⟩
  · unfold logstashFields
    rw [logstash_foldl_other lib r _ _ (fun kv h e => ?_)]
    · rfl
    · unfold logstashKey at e
      by_cases h1 : kv.1 = KeyTime
      · simp [h1] at e
      · simp only [h1, if_false] at e
        exact hv (e ▸ hkey kv h)
  · unfold logstashFields
    rw [logstash_foldl_other lib r _ _ (fun kv h e => ?_)]
    · rfl
    · unfold logstashKey at e
      by_cases h1 : kv.1 = KeyTime
      · simp [h1, KeyTime] at e
      · simp only [h1, if_false] at e
  · intro v h
    have := logstash_foldl_entry lib r [("@version", Value.int 1)] KeyTime v hn
      (Fields.mem_of_get r _ _ h)
    have hne : KeyTime ≠ KeyLevel := by decide
    simpa [logstashKey, logstashStored, hne] using this
  · intro str h
    have := logstash_foldl_entry lib r [("@version", Value.int 1)] KeyLevel _ hn
      (Fields.mem_of_get r _ _ h)
    have hne : KeyLevel ≠ KeyTime := by decide
    simpa [logstashKey, logstashStored, logstashValue, hne] using this
  · intro k v h1 h2 h
    have := logstash_foldl_entry lib r [("@version", Value.int 1)] k v hn
      (Fields.mem_of_get r _ _ h)
    simpa [logstashKey, logstashStored, h1, h2] using this

/-- C17, witness: the record of the examples, whose `time` is a timestamp. -/
theorem logstashFields_spec_witness :
    Fields.get (logstashFields testLib exampleRecord) "@version" = some (Value.int 1) ∧
    Fields.get (logstashFields testLib exampleRecord) KeyTime = none ∧
    Fields.get (logstashFields testLib exampleRecord) "@timestamp"
      = some (logstashValue testLib (Value.time 0)) ∧
    Fields.get (logstashFields testLib exampleRecord) KeyLevel
      = some (Value.str (testLib.ToUpper "info")) ∧
    Fields.get (logstashFields testLib exampleRecord) "foo"
      = some (logstashValue testLib (Value.str "bar")) :=
  have h := logstashFields_spec testLib exampleRecord (by decide) (by decide) (by decide)
  ⟨h.1, h.2.1, h.2.2.1 _ rfl, h.2.2.2.1 _ rfl,
    h.2.2.2.2 "foo" _ (by decide) (by decide) rfl⟩

/-- C17, counterexample: a record with the field `@version = 2` gives an object whose
`@version` is 2, not the constant 1; and a record with a timestamp under another key,
`created`, gives an object that holds a string under `created`, not the value of the
record. -/
theorem logstash_counterexample :
    Fields.get (logstashFields testLib [("@version", Value.int 2)]) "@version"
      = some (Value.int 2) ∧
    Value.int 2 ≠ Value.int 1 ∧
    Fields.get (logstashFields testLib [("created", Value.time 0)]) "created"
      = some (Value.str "2006-01-02T15:04:05Z") ∧
    Value.str "2006-01-02T15:04:05Z" ≠ Value.time 0 := by
  refine ⟨rfl, ?_, rfl, ?_⟩
  · intro h; injection h with h; exact absurd h (by decide)
  · intro h; cases h


theorem console_loop_cons {σ : Type} (lib : Lib) (o : consoleOutput σ) (r : Fields)
    (k : String) (rest : List String) (buf : String) :
    consoleOutput.loop lib o r (k :: rest) buf
      = match lib.writeValue (Fields.index r k) with
        | Except.error e => Except.error e
        | Except.ok v =>
          consoleOutput.loop lib o r rest
            ((((buf.push o.separator) ++ lib.colorPrint k Color.green).push o.delimiter)
              ++ v) := rfl

theorem console_loop_ok {σ : Type} (lib : Lib) (o : consoleOutput σ) (r : Fields)
    (render : String → String) (ks : List String) :
    ∀ buf : String,
      (∀ k, k ∈ ks → lib.writeValue (Fields.index r k) = Except.ok (render k)) →
      consoleOutput.loop lib o r ks buf
        = Except.ok (buf ++ String.join
            (ks.map (fun k =>
              (((String.singleton o.separator) ++ lib.colorPrint k Color.green).push
                o.delimiter) ++ render k))) := by
  induction ks with
  | nil =>
    intro buf _
    simp only [consoleOutput.loop, List.map_nil]
    congr 1
    simp [String.ext_iff, String.data_append, String.data_join]
  | cons k rest ih =>
    intro buf hk
    rw [console_loop_cons, hk k (by simp)]
    simp only []
    rw [ih _ (fun x hx => hk x (List.mem_cons_of_mem _ hx))]
    congr 1
    simp [String.ext_iff, String.data_append, String.data_push, String.data_join,
      String.singleton]

theorem console_loop_error {σ : Type} (lib : Lib) (o : consoleOutput σ) (r : Fields)
    (ks : List String) :
    ∀ buf : String,
      (∃ k e, k ∈ ks ∧ lib.writeValue (Fields.index r k) = Except.error e) →
      ∃ e, consoleOutput.loop lib o r ks buf = Except.error e := by
  induction ks with
  | nil => intro buf h; obtain ⟨k, e, hk, _⟩ := h; simp at hk
  | cons k rest ih =>
    intro buf h
    cases hw : lib.writeValue (Fields.index r k) with
    | error e => exact ⟨e, by rw [console_loop_cons, hw]⟩
    | ok v =>
      obtain ⟨k1, e, hk1, he⟩ := h
      have hk1r : k1 ∈ rest := by
        rcases List.mem_cons.mp hk1 with h1 | h1
        · subst h1; rw [hw] at he; cases he
        · exact h1
      rw [console_loop_cons, hw]
      exact ih _ ⟨k1, e, hk1r, he⟩

/-- C18: for a record whose `level`, when it is a string, has at least 4 bytes, the
console encoder writes one line: the prefix made of the time, the level and the message,
then, for exactly the keys of the record other than `time`, `level` and `message`, in
strictly increasing order (so each once), the separator, the key in green, the delimiter
and the rendered value, then a newline.  A `time` that is not a timestamp, a `level` or
a `message` that is not a string, adds nothing to the prefix.  When `writeValue` fails
on a field, `Write` returns an error and writes nothing. -/
theorem console_line {σ : Type} (lib : Lib) (o : consoleOutput σ) (s : σ) (r : Fields)
    (render : String → String) (hr : (Fields.keys r).Nodup)
    (hlvl : ∀ lvl, Fields.get r KeyLevel = some (Value.str lvl) → 4 ≤ lvl.length) :
    (List.Sorted (fun a b : String => a.data < b.data) (sortStrings (gatherKeys r)) ∧
      ∀ k, k ∈ sortStrings (gatherKeys r) ↔
        k ∈ Fields.keys r ∧ k ∉ [KeyLevel, KeyMessage, KeyTime]) ∧
    (∃ lv, consoleLevel lib (Fields.get r KeyLevel) = some lv ∧
      ((∀ k, k ∈ sortStrings (gatherKeys r) →
          lib.writeValue (Fields.index r k) = Except.ok (render k)) →
        o.Write lib s r = some (o.w.Write s
          (consoleTime lib (Fields.get r KeyTime) ++ lv
            ++ consoleMessage (Fields.get r KeyMessage)
            ++ String.join ((sortStrings (gatherKeys r)).map (fun k =>
                (((String.singleton o.separator) ++ lib.colorPrint k Color.green).push
                  o.delimiter) ++ render k))
            ++ "\n"))) ∧
      ((∃ k e, k ∈ sortStrings (gatherKeys r) ∧
          lib.writeValue (Fields.index r k) = Except.error e) →
        ∃ e, o.Write lib s r = some (s, some e))) ∧
    ((∀ t, Fields.get r KeyTime ≠ some (Value.time t)) →
      consoleTime lib (Fields.get r KeyTime) = "") ∧
    ((∀ lvl, Fields.get r KeyLevel ≠ some (Value.str lvl)) →
      consoleLevel lib (Fields.get r KeyLevel) = some "") ∧
    ((∀ msg, Fields.get r KeyMessage ≠ some (Value.str msg)) →
      consoleMessage (Fields.get r KeyMessage) = "") := by
  have hlv : ∃ lv, consoleLevel lib (Fields.get r KeyLevel) = some lv := by
    cases hg : Fields.get r KeyLevel with
    | none => exact ⟨"", rfl⟩
    | some v =>
      cases v with
      | str lvl =>
        have h4 : ¬ lvl.length < 4 := by have := hlvl lvl hg; omega
        refine ⟨(lib.colorPrint (lib.ToUpper (lvl.take 4))
            (if lvl = "debug" then Color.gray
            else if lvl = "warn" then Color.yellow
            else if lvl = "error" then Color.red else Color.blue)).push ' ', ?_⟩
        simp only [consoleLevel, h4, if_false]
      | _ => exact ⟨"", rfl⟩
  obtain ⟨lv, hlv⟩ := hlv
  refine ⟨sortedKeys_spec r hr, ⟨lv, hlv, fun h => ?_, fun h => ?_⟩, fun h => ?_,
    fun h => ?_, fun h => ?_⟩
  · unfold consoleOutput.Write
    rw [hlv]
    simp only []
    rw [console_loop_ok lib o r render _ _ h]
    simp only []
    congr 2
  · obtain ⟨e, he⟩ := console_loop_error lib o r _
      (("" ++ consoleTime lib (Fields.get r KeyTime)) ++ lv
        ++ consoleMessage (Fields.get r KeyMessage)) h
    refine ⟨e, ?_⟩
    unfold consoleOutput.Write
    rw [hlv]
    simp only []
    rw [he]
  · cases hg : Fields.get r KeyTime with
    | none => rfl
    | some v =>
      cases v with
      | time t => exact absurd hg (h t)
      | _ => rfl
  · cases hg : Fields.get r KeyLevel with
    | none => rfl
    | some v =>
      cases v with
      | str lvl => exact absurd hg (h lvl)
      | _ => rfl
  · cases hg : Fields.get r KeyMessage with
    | none => rfl
    | some v =>
      cases v with
      | str msg => exact absurd hg (h msg)
      | _ => rfl

/-- C18, witness: the line for the record of the examples, and the prefix of a record
whose `time`, `level` and `message` have the wrong type. -/
theorem console_line_witness :
    exampleConsole.Write testLib [] exampleRecord
      = some (["2006/01/02 15:04:05 INFO hello a=1 foo=bar\n"], none) ∧
    consoleTime testLib (Fields.get [("time", Value.int 1)] KeyTime) = "" ∧
    consoleLevel testLib (Fields.get [("level", Value.int 1)] KeyLevel) = some "" ∧
    consoleMessage (Fields.get [("message", Value.int 1)] KeyMessage) = "" := by
  have hks : sortStrings (gatherKeys exampleRecord) = ["a", "foo"] := by decide
  obtain ⟨_, ⟨lv, hlv, h, _⟩, _⟩ := console_line testLib exampleConsole [] exampleRecord
    exampleRender (by decide) (fun lvl h => by
      have : lvl = "info" := by
        simp only [exampleRecord, Fields.get, KeyLevel] at h
        simpa using h.symm
      subst this; decide)
  have hlv2 : lv = "INFO " := by
    have : consoleLevel testLib (Fields.get exampleRecord KeyLevel) = some "INFO " := by
      decide
    rw [this] at hlv
    exact (Option.some.inj hlv).symm
  subst hlv2
  refine ⟨?_, ?_, ?_, ?_⟩
  · rw [h (by
      rw [hks]
      intro k hk
      simp only [List.mem_cons, List.mem_singleton, List.not_mem_nil, or_false] at hk
      rcases hk with h | h <;> subst h <;> rfl), hks]
    rfl
  · exact (console_line testLib exampleConsole [] [("time", Value.int 1)] exampleRender
      (by decide) (fun lvl h => by simp [Fields.get, KeyLevel] at h)).2.2.1
      (fun t h => by simp [Fields.get, KeyTime] at h)
  · exact (console_line testLib exampleConsole [] [("level", Value.int 1)] exampleRender
      (by decide) (fun lvl h => by simp [Fields.get, KeyLevel] at h)).2.2.2.1
      (fun t h => by simp [Fields.get, KeyLevel] at h)
  · exact (console_line testLib exampleConsole [] [("message", Value.int 1)] exampleRender
      (by decide) (fun lvl h => by simp [Fields.get, KeyLevel] at h)).2.2.2.2
      (fun t h => by simp [Fields.get, KeyMessage] at h)


/-! ## Theorems: Fatal -/

theorem send_passes {σ : Type} (o : Output σ Fields) (l : logger σ) (env : Env σ)
    (L : Level) (caller : Option (String × Int)) (msg : String) (fields : Option Fields)
    (now : Unit → Int) (hout : l.output = some o) (hnow : l.now = some now)
    (hlev : l.level.toNat ≤ L.toNat) :
    l.send env L caller msg fields
      = some { sink := (o.Write env.sink (sendData l (now ()) L caller msg fields)).1,
               critical := env.critical ++
                 (match (o.Write env.sink (sendData l (now ()) L caller msg fields)).2 with
                   | none => []
                   | some err => [critialLine "send error: " err]) } := by
  have h1 : ¬ L.toNat < l.level.toNat := by omega
  unfold logger.send
  simp only [h1, if_false, hout, logger.Now, hnow]
  split
  · rename_i s hw; simp [hw]
  · rename_i s err hw; simp [hw]

theorem fatal_ge (T : Level) : T.toNat ≤ Level.fatal.toNat := by
  cases T <;> simp [Level.toNat]

theorem fatalEnd_on_channel {τ : Type} (o : Output τ Fields)
    (l : logger (OutputChannel (τ × List Fields) Fields))
    (p : Proc (OutputChannel (τ × List Fields) Fields))
    (caller : Option (String × Int)) (now : Unit → Int) (msg : String) (f : Option Fields)
    (hout : l.output = some (OutputChannel.asOutput o.traced)) (hnow : l.now = some now)
    (hopen : p.env.sink.stopNil = false) (hinv : ChanInv p.env.sink) :
    ∃ p1, l.fatalEnd (some (OutputChannel.ops o.traced)) p caller msg f = some p1 ∧
      p1.exits = p.exits ++ [p1.env.sink] ∧
      p1.env.sink.input = [] ∧ p1.env.sink.consumer = Consumer.exited ∧
      (p.env.sink.accepts →
        p1.env.sink.sink.2 = p.env.sink.sink.2 ++ p.env.sink.input
          ++ [sendData l (now ()) Level.fatal caller msg f]) ∧
      (¬ p.env.sink.accepts →
        p1.env.sink.sink.2 = p.env.sink.sink.2 ++ p.env.sink.input ∧
        p1.env.critical = p.env.critical ++ [critialLine "send error: " ErrBufferFull]) := by
  obtain ⟨hlen, halive⟩ := hinv
  have hc := halive hopen
  have hsend := send_passes (OutputChannel.asOutput o.traced) l p.env Level.fatal caller msg f
    now hout hnow (fatal_ge _)
  have key : ∀ (oc1 : OutputChannel (τ × List Fields) Fields) (crit : List String),
      oc1.stopNil = false → oc1.consumer ≠ Consumer.exited →
      l.send p.env Level.fatal caller msg f = some { sink := oc1, critical := crit } →
      ∃ p1, l.fatalEnd (some (OutputChannel.ops o.traced)) p caller msg f = some p1 ∧
        p1.exits = p.exits ++ [p1.env.sink] ∧
        p1.env.sink.input = [] ∧ p1.env.sink.consumer = Consumer.exited ∧
        p1.env.sink.sink.2 = oc1.sink.2 ++ oc1.input ∧ p1.env.critical = crit := by
    intro oc1 crit h1 h2 hs
    obtain ⟨f1, _, f3⟩ := flushLoop_traced o oc1.input
      { oc1 with consumer := Consumer.exited, stopNil := true }
    obtain ⟨_, _, _, f6, _⟩ := flushLoop_frame o.traced oc1.input
      { oc1 with consumer := Consumer.exited, stopNil := true }
    refine ⟨⟨⟨OutputChannel.Flush o.traced
        ({ oc1 with consumer := Consumer.exited, stopNil := true }), crit⟩,
      p.exits ++ [OutputChannel.Flush o.traced
        ({ oc1 with consumer := Consumer.exited, stopNil := true })]⟩,
      ?_, rfl, f3, f6, f1, rfl⟩
    simp [logger.fatalEnd, hs, OutputChannel.ops, OutputChannel.Close, h1, h2]
  by_cases ha : p.env.sink.input.length < p.env.sink.bufSize
  · have hw : OutputChannel.Write o.traced p.env.sink (sendData l (now ()) Level.fatal caller msg f)
        = ({ p.env.sink with input := p.env.sink.input
              ++ [sendData l (now ()) Level.fatal caller msg f] }, none) := by
      simp [OutputChannel.Write, ha]
    simp only [OutputChannel.asOutput, hw] at hsend
    obtain ⟨p1, e1, e2, e3, e4, e5, _⟩ := key
      { p.env.sink with input := p.env.sink.input
          ++ [sendData l (now ()) Level.fatal caller msg f] } _ hopen hc hsend
    refine ⟨p1, e1, e2, e3, e4, fun _ => ?_, fun hna => absurd (Or.inl ha) hna⟩
    rw [e5]; simp
  · by_cases hb : p.env.sink.bufSize = 0 ∧ p.env.sink.consumer = Consumer.ready
    · have hnil : p.env.sink.input = [] := by
        have : p.env.sink.input.length = 0 := by omega
        exact List.length_eq_zero.mp this
      have hw : OutputChannel.Write o.traced p.env.sink
          (sendData l (now ()) Level.fatal caller msg f)
          = (deliver o.traced { p.env.sink with consumer := Consumer.running }
              (sendData l (now ()) Level.fatal caller msg f), none) := by
        simp [OutputChannel.Write, ha, hb]
      simp only [OutputChannel.asOutput, hw] at hsend
      obtain ⟨p1, e1, e2, e3, e4, e5, _⟩ := key
        (deliver o.traced { p.env.sink with consumer := Consumer.running }
          (sendData l (now ()) Level.fatal caller msg f)) _
        (by rw [deliver_stopNil]; exact hopen) (by rw [deliver_consumer]; simp) hsend
      refine ⟨p1, e1, e2, e3, e4, fun _ => ?_, fun hna => absurd (Or.inr hb) hna⟩
      rw [e5, deliver_traced, deliver_input]; simp [hnil]
    · have hw : OutputChannel.Write o.traced p.env.sink
          (sendData l (now ()) Level.fatal caller msg f)
          = (p.env.sink, some ErrBufferFull) := by
        simp [OutputChannel.Write, ha, hb]
      simp only [OutputChannel.asOutput, hw] at hsend
      obtain ⟨p1, e1, e2, e3, e4, e5, e6⟩ := key p.env.sink _ hopen hc hsend
      refine ⟨p1, e1, e2, e3, e4, fun hacc => ?_, fun _ => ⟨e5, e6⟩⟩
      rcases hacc with h | h
      · exact absurd h ha
      · exact absurd h hb

/-- C11 (as amended): for a logger that has a time source and whose output is an open
`OutputChannel`, `Fatal` and `Fatalf` return after one call of the exit operation, made
last: at that call the queue is empty, the consumer has exited, and the output has
received every record that was queued, in order; it has also received, after them, the
fatal record when the channel took it (room in the queue, or a waiting consumer on an
unbuffered channel); when the queue was full the fatal record is dropped, the drop is
reported on the diagnostic logger, and exit is called all the same. -/
theorem Fatal_closes_then_exits {τ : Type} (lib : Lib) (o : Output τ Fields)
    (l : logger (OutputChannel (τ × List Fields) Fields))
    (p : Proc (OutputChannel (τ × List Fields) Fields))
    (caller : Option (String × Int)) (now : Unit → Int) (format : String) (v : List Value)
    (call : Option (Proc (OutputChannel (τ × List Fields) Fields))) (msg : String)
    (hout : l.output = some (OutputChannel.asOutput o.traced)) (hnow : l.now = some now)
    (hopen : p.env.sink.stopNil = false) (hinv : ChanInv p.env.sink)
    (hcall : (call = l.Fatal lib (some (OutputChannel.ops o.traced)) p caller v ∧
        msg = lib.Sprint (extractFields v).2) ∨
      (call = l.Fatalf lib (some (OutputChannel.ops o.traced)) p caller format v ∧
        msg = lib.Sprintf (if (extractFields v).1.isSome then trimVerb format else format)
          (extractFields v).2)) :
    ∃ p1, call = some p1 ∧
      p1.exits = p.exits ++ [p1.env.sink] ∧
      p1.env.sink.input = [] ∧ p1.env.sink.consumer = Consumer.exited ∧
      (p.env.sink.accepts →
        p1.env.sink.sink.2 = p.env.sink.sink.2 ++ p.env.sink.input
          ++ [sendData l (now ()) Level.fatal caller msg (extractFields v).1]) ∧
      (¬ p.env.sink.accepts →
        p1.env.sink.sink.2 = p.env.sink.sink.2 ++ p.env.sink.input ∧
        p1.env.critical = p.env.critical ++ [critialLine "send error: " ErrBufferFull]) := by
  rcases hcall with ⟨h1, h2⟩ | ⟨h1, h2⟩
  · subst h1 h2
    exact fatalEnd_on_channel o l p caller now _ _ hout hnow hopen hinv
  · subst h1 h2
    exact fatalEnd_on_channel o l p caller now _ _ hout hnow hopen hinv

/-- C11, witness: `Fatal("test", F{"foo": "bar"})` on a fresh channel of capacity 100,
as in `TestFatal`: one exit, made when the output holds the fatal record. -/
theorem Fatal_closes_then_exits_witness :
    ∃ p1, chanLogger.Fatal testLib (some (OutputChannel.ops RecorderOutput.traced))
        { env := { sink := NewOutputChannel ([], []), critical := [] }, exits := [] } none
        [Value.str "test", Value.xF (some (rec1 "foo" "bar"))] = some p1 ∧
      p1.exits = [] ++ [p1.env.sink] ∧
      p1.env.sink.sink.2
        = [] ++ [] ++ [sendData chanLogger 0 Level.fatal none "test" (some (rec1 "foo" "bar"))] := by
  obtain ⟨p1, h1, h2, _, _, h5, _⟩ := Fatal_closes_then_exits testLib RecorderOutput chanLogger
    { env := { sink := NewOutputChannel ([], []), critical := [] }, exits := [] } none
    (fun _ => 0) "" [Value.str "test", Value.xF (some (rec1 "foo" "bar"))]
    _ _ rfl rfl rfl ⟨by decide, fun _ => by decide⟩ (Or.inl ⟨rfl, rfl⟩)
  exact ⟨p1, h1, h2, h5 (Or.inl (by decide))⟩

/-- C11, counterexample: with a full queue (capacity 1, one record queued, the consumer
idle) `Fatal("test")` calls exit once, and at that call the output has received the
queued record only: the fatal record was dropped, as the diagnostic line says. -/
theorem Fatal_full_queue_counterexample :
    (chanLogger.Fatal testLib (some (OutputChannel.ops RecorderOutput.traced))
        { env := { sink := fullChan, critical := [] }, exits := [] } none
        [Value.str "test"]).map (fun p1 => (p1.exits.map (fun oc => oc.sink.2), p1.env.critical))
      = some ([[rec1 "foo" "bar"]], ["send error: buffer full"]) ∧
    Fields.get (rec1 "foo" "bar") KeyLevel = none := by
  refine ⟨rfl, rfl⟩


/-! ## Theorems: New and Copy -/

theorem Heap_length_assign (h : Ref.Heap) (a : Nat) (k : String) (v : Value) :
    (Ref.Heap.assign h a k v).length = h.length := by
  simp [Ref.Heap.assign]

theorem Heap_read_assign_same (h : Ref.Heap) (a : Nat) (k : String) (v : Value)
    (ha : a < h.length) :
    Ref.Heap.read (Ref.Heap.assign h a k v) (some a)
      = Fields.set (Ref.Heap.read h (some a)) k v := by
  simp [Ref.Heap.assign, Ref.Heap.read, List.getElem?_set, ha]

theorem Heap_read_assign_other (h : Ref.Heap) (a : Nat) (r : Option Nat) (k : String)
    (v : Value) (hr : r ≠ some a) :
    Ref.Heap.read (Ref.Heap.assign h a k v) r = Ref.Heap.read h r := by
  cases r with
  | none => rfl
  | some b =>
    have hb : a ≠ b := fun e => hr (by rw [e])
    simp [Ref.Heap.assign, Ref.Heap.read, List.getElem?_set, hb]

theorem Heap_read_alloc_new (h : Ref.Heap) :
    Ref.Heap.read (Ref.Heap.alloc h).1 (some (Ref.Heap.alloc h).2) = [] := by
  simp [Ref.Heap.alloc, Ref.Heap.read]

theorem Heap_read_alloc_old (h : Ref.Heap) (r : Option Nat)
    (hr : ∀ a, r = some a → a < h.length) :
    Ref.Heap.read (Ref.Heap.alloc h).1 r = Ref.Heap.read h r := by
  cases r with
  | none => rfl
  | some b =>
    have hb := hr b rfl
    simp [Ref.Heap.alloc, Ref.Heap.read, List.getElem?_append_left hb]

theorem assignLoop_spec {σ : Type} (a : Nat) (src : Fields) :
    ∀ (l : Ref.logger σ) (h : Ref.Heap), a < h.length →
      (src.foldl (fun (lh : Ref.logger σ × Ref.Heap) kv =>
          (lh.1, Ref.Heap.assign lh.2 a kv.1 kv.2)) (l, h)).1 = l ∧
      (src.foldl (fun (lh : Ref.logger σ × Ref.Heap) kv =>
          (lh.1, Ref.Heap.assign lh.2 a kv.1 kv.2)) (l, h)).2.length = h.length ∧
      Ref.Heap.read (src.foldl (fun (lh : Ref.logger σ × Ref.Heap) kv =>
          (lh.1, Ref.Heap.assign lh.2 a kv.1 kv.2)) (l, h)).2 (some a)
        = Fields.assignAll (Ref.Heap.read h (some a)) (some src) ∧
      ∀ r, r ≠ some a →
        Ref.Heap.read (src.foldl (fun (lh : Ref.logger σ × Ref.Heap) kv =>
          (lh.1, Ref.Heap.assign lh.2 a kv.1 kv.2)) (l, h)).2 r = Ref.Heap.read h r := by
  induction src with
  | nil => intro l h _; exact ⟨rfl, rfl, rfl, fun _ _ => rfl⟩
  | cons kv rest ih =>
    intro l h ha
    obtain ⟨i1, i2, i3, i4⟩ := ih l (Ref.Heap.assign h a kv.1 kv.2)
      (by rw [Heap_length_assign]; exact ha)
    simp only [List.foldl_cons]
    refine ⟨i1, by rw [i2, Heap_length_assign], ?_, fun r hr => ?_⟩
    · rw [i3, Heap_read_assign_same h a _ _ ha]; rfl
    · rw [i4 r hr, Heap_read_assign_other h a r _ _ hr]

theorem setFieldLoop_some {σ : Type} (a : Nat) (src : Fields) :
    ∀ (l : Ref.logger σ) (h : Ref.Heap), l.fields = some a → a < h.length →
      (src.foldl (fun (lh : Ref.logger σ × Ref.Heap) kv =>
          lh.1.SetField lh.2 kv.1 kv.2) (l, h)).1 = l ∧
      Ref.Heap.read (src.foldl (fun (lh : Ref.logger σ × Ref.Heap) kv =>
          lh.1.SetField lh.2 kv.1 kv.2) (l, h)).2 (some a)
        = Fields.assignAll (Ref.Heap.read h (some a)) (some src) ∧
      ∀ r, r ≠ some a →
        Ref.Heap.read (src.foldl (fun (lh : Ref.logger σ × Ref.Heap) kv =>
          lh.1.SetField lh.2 kv.1 kv.2) (l, h)).2 r = Ref.Heap.read h r := by
  induction src with
  | nil => intro l h _ _; exact ⟨rfl, rfl, fun _ _ => rfl⟩
  | cons kv rest ih =>
    intro l h hl ha
    have hstep : l.SetField h kv.1 kv.2 = (l, Ref.Heap.assign h a kv.1 kv.2) := by
      simp [Ref.logger.SetField, hl]
    obtain ⟨i1, i3, i4⟩ := ih l (Ref.Heap.assign h a kv.1 kv.2) hl
      (by rw [Heap_length_assign]; exact ha)
    simp only [List.foldl_cons, hstep]
    refine ⟨i1, ?_, fun r hr => ?_⟩
    · rw [i3, Heap_read_assign_same h a _ _ ha]; rfl
    · rw [i4 r hr, Heap_read_assign_other h a r _ _ hr]

theorem setFieldLoop_nil_fields {σ : Type} (src : Fields) (l : Ref.logger σ) (h : Ref.Heap)
    (hl : l.fields = none) :
    (src.foldl (fun (lh : Ref.logger σ × Ref.Heap) kv =>
        lh.1.SetField lh.2 kv.1 kv.2) (l, h)).1.level = l.level ∧
    (src.foldl (fun (lh : Ref.logger σ × Ref.Heap) kv =>
        lh.1.SetField lh.2 kv.1 kv.2) (l, h)).1.output = l.output ∧
    Ref.Heap.read (src.foldl (fun (lh : Ref.logger σ × Ref.Heap) kv =>
        lh.1.SetField lh.2 kv.1 kv.2) (l, h)).2
        (src.foldl (fun (lh : Ref.logger σ × Ref.Heap) kv =>
          lh.1.SetField lh.2 kv.1 kv.2) (l, h)).1.fields
      = Fields.assignAll [] (some src) ∧
    (∀ a, (src.foldl (fun (lh : Ref.logger σ × Ref.Heap) kv =>
        lh.1.SetField lh.2 kv.1 kv.2) (l, h)).1.fields = some a → a = h.length) ∧
    ∀ r, (∀ a, r = some a → a < h.length) →
      Ref.Heap.read (src.foldl (fun (lh : Ref.logger σ × Ref.Heap) kv =>
        lh.1.SetField lh.2 kv.1 kv.2) (l, h)).2 r = Ref.Heap.read h r := by
  cases src with
  | nil =>
    refine ⟨rfl, rfl, ?_, ?_, fun _ _ => rfl⟩
    · simp [hl, Ref.Heap.read, Fields.assignAll]
    · intro a ha; simp [hl] at ha
  | cons kv rest =>
    have hstep : l.SetField h kv.1 kv.2
        = ({ l with fields := some (Ref.Heap.alloc h).2 },
            Ref.Heap.assign (Ref.Heap.alloc h).1 (Ref.Heap.alloc h).2 kv.1 kv.2) := by
      simp [Ref.logger.SetField, hl]
    have hlt : (Ref.Heap.alloc h).2 < (Ref.Heap.alloc h).1.length := by
      simp [Ref.Heap.alloc]
    obtain ⟨i1, i3, i4⟩ := setFieldLoop_some (Ref.Heap.alloc h).2 rest
      ({ l with fields := some (Ref.Heap.alloc h).2 } : Ref.logger σ)
      (Ref.Heap.assign (Ref.Heap.alloc h).1 (Ref.Heap.alloc h).2 kv.1 kv.2) rfl
      (by rw [Heap_length_assign]; exact hlt)
    simp only [List.foldl_cons, hstep]
    rw [i1]
    refine ⟨rfl, rfl, ?_, ?_, fun r hr => ?_⟩
    · simp only []
      rw [i3, Heap_read_assign_same _ _ _ _ hlt, Heap_read_alloc_new]
      rfl
    · intro a ha
      simp only [Option.some.injEq] at ha
      rw [← ha]; rfl
    · have hne : r ≠ some (Ref.Heap.alloc h).2 := by
        intro e
        have := hr _ e
        simp [Ref.Heap.alloc] at this
      rw [i4 r hne, Heap_read_assign_other _ _ r _ _ hne, Heap_read_alloc_old h r hr]

theorem Fields.get_assignAll_nil (src : Fields) (hn : (Fields.keys src).Nodup) (k : String) :
    Fields.get (Fields.assignAll [] (some src)) k = Fields.get src k := by
  cases hg : Fields.get src k with
  | some v => exact Fields.get_assignAll_of_get src [] k v hn hg
  | none =>
    have hk : k ∉ Fields.keys src := by
      intro hmem
      obtain ⟨kv, hkv, e⟩ := List.mem_map.mp hmem
      have : ∀ (m : Fields), kv ∈ m → Fields.get m kv.1 ≠ none := by
        intro m
        induction m with
        | nil => intro h; simp at h
        | cons x rest ih =>
          intro h
          by_cases hx : x.1 = kv.1
          · simp [Fields.get, hx]
          · simp only [Fields.get, hx, if_false]
            rcases List.mem_cons.mp h with h1 | h1
            · exact absurd (by rw [h1]) hx
            · exact ih h1
      exact this src hkv (by rw [e]; exact hg)
    rw [Fields.get_assignAll_of_not_mem src [] k hk]
    rfl


theorem newBase_spec {σ : Type} (defaultOutput : Output σ Fields)
    (stale : Option (Unit → Int)) (c : Ref.Config σ) :
    (Ref.newBase defaultOutput stale c).fields = none ∧
    (Ref.newBase defaultOutput stale c).level = c.Level ∧
    (Ref.newBase defaultOutput stale c).output = some (c.Output.getD defaultOutput) := by
  cases hd : c.DisablePooling <;> cases ho : c.Output <;>
    simp [Ref.newBase, Ref.loggerPoolGet, hd, ho]

theorem New_eq {σ : Type} (defaultOutput : Output σ Fields) (timeNow : Unit → Int)
    (stale : Option (Unit → Int)) (c : Ref.Config σ) (h : Ref.Heap) :
    Ref.New defaultOutput timeNow stale c h
      = ({ ((Ref.Heap.read h c.Fields).foldl
              (fun (lh : Ref.logger σ × Ref.Heap) kv => lh.1.SetField lh.2 kv.1 kv.2)
              (Ref.newBase defaultOutput stale c, h)).1 with
            disablePooling := c.DisablePooling,
            now := some (c.NowGetter.getD timeNow) },
          ((Ref.Heap.read h c.Fields).foldl
              (fun (lh : Ref.logger σ × Ref.Heap) kv => lh.1.SetField lh.2 kv.1 kv.2)
              (Ref.newBase defaultOutput stale c, h)).2) := by
  unfold Ref.New Ref.newBase
  cases hg : c.NowGetter <;> rfl

/-- C19: `New(c)` returns a logger whose threshold is `c.Level`, whose output is
`c.Output` when that is set and the default channel otherwise (never nil), whose pooling
flag and clock are those of the configuration (`time.Now` without a `NowGetter`), and
whose map holds under every key what `c.Fields` holds; the map of `c.Fields` is left as
it was, and an assignment made through `c.Fields` afterwards does not change the map
of the logger. -/
theorem New_spec {σ : Type} (defaultOutput : Output σ Fields) (timeNow : Unit → Int)
    (stale : Option (Unit → Int)) (c : Ref.Config σ) (h : Ref.Heap)
    (hc : ∀ a, c.Fields = some a → a < h.length)
    (hn : (Fields.keys (Ref.Heap.read h c.Fields)).Nodup) :
    (Ref.New defaultOutput timeNow stale c h).1.level = c.Level ∧
    (Ref.New defaultOutput timeNow stale c h).1.output
      = some (c.Output.getD defaultOutput) ∧
    (Ref.New defaultOutput timeNow stale c h).1.disablePooling = c.DisablePooling ∧
    (Ref.New defaultOutput timeNow stale c h).1.now = some (c.NowGetter.getD timeNow) ∧
    (∀ k, Fields.get (Ref.Heap.read (Ref.New defaultOutput timeNow stale c h).2
          (Ref.New defaultOutput timeNow stale c h).1.fields) k
        = Fields.get (Ref.Heap.read h c.Fields) k) ∧
    Ref.Heap.read (Ref.New defaultOutput timeNow stale c h).2 c.Fields
      = Ref.Heap.read h c.Fields ∧
    (∀ a name value, c.Fields = some a →
      Ref.Heap.read (Ref.Heap.assign (Ref.New defaultOutput timeNow stale c h).2 a name value)
          (Ref.New defaultOutput timeNow stale c h).1.fields
        = Ref.Heap.read (Ref.New defaultOutput timeNow stale c h).2
          (Ref.New defaultOutput timeNow stale c h).1.fields) := by
  obtain ⟨b1, b2, b3⟩ := newBase_spec defaultOutput stale c
  obtain ⟨s1, s2, s3, s4, s5⟩ := setFieldLoop_nil_fields (Ref.Heap.read h c.Fields)
    (Ref.newBase defaultOutput stale c) h b1
  rw [New_eq]
  refine ⟨by simp only []; rw [s1, b2], by simp only []; rw [s2, b3], rfl, rfl, fun k => ?_,
    ?_, fun a name value ha => ?_⟩
  · simp only []
    rw [s3]
    exact Fields.get_assignAll_nil _ hn k
  · simp only []
    exact s5 c.Fields hc
  · simp only []
    apply Heap_read_assign_other
    intro e
    have h1 := s4 a e
    have h2 := hc a ha
    omega


/-- C19, witness: the configuration of `TestNew`; after `New`, the assignment
`c.Fields["bar"] = "baz"` leaves the map of the logger as it was. -/
theorem New_spec_witness :
    (Ref.New RecorderOutput.traced (fun _ => 0) none testConfig testHeap).1.level
      = Level.error ∧
    (∀ k, Fields.get (Ref.Heap.read
          (Ref.New RecorderOutput.traced (fun _ => 0) none testConfig testHeap).2
          (Ref.New RecorderOutput.traced (fun _ => 0) none testConfig testHeap).1.fields) k
        = Fields.get (rec1 "foo" "bar") k) ∧
    Ref.Heap.read (Ref.Heap.assign
          (Ref.New RecorderOutput.traced (fun _ => 0) none testConfig testHeap).2
          0 "bar" (Value.str "baz"))
        (Ref.New RecorderOutput.traced (fun _ => 0) none testConfig testHeap).1.fields
      = Ref.Heap.read (Ref.New RecorderOutput.traced (fun _ => 0) none testConfig testHeap).2
        (Ref.New RecorderOutput.traced (fun _ => 0) none testConfig testHeap).1.fields :=
  have h := New_spec RecorderOutput.traced (fun _ => 0) none testConfig testHeap
    (fun a ha => by cases ha; decide) (by decide)
  ⟨h.1, h.2.2.2.2.1, h.2.2.2.2.2.2 0 "bar" (Value.str "baz") rfl⟩

theorem Copy_eq {σ : Type} (l : Ref.logger σ) (h : Ref.Heap) :
    (l.Copy h).1 = { level := l.level, output := l.output, fields := some h.length,
                     disablePooling := l.disablePooling, now := none } ∧
    (l.Copy h).2.length = h.length + 1 ∧
    Ref.Heap.read (l.Copy h).2 (some h.length)
      = Fields.assignAll [] (some (Ref.Heap.read h l.fields)) ∧
    ∀ r, (∀ a, r = some a → a < h.length) →
      Ref.Heap.read (l.Copy h).2 r = Ref.Heap.read h r := by
  have hlt : (Ref.Heap.alloc h).2 < (Ref.Heap.alloc h).1.length := by simp [Ref.Heap.alloc]
  obtain ⟨i1, i2, i3, i4⟩ := assignLoop_spec (Ref.Heap.alloc h).2 (Ref.Heap.read h l.fields)
    ({ level := l.level, output := l.output, fields := some (Ref.Heap.alloc h).2,
       disablePooling := l.disablePooling, now := none } : Ref.logger σ)
    (Ref.Heap.alloc h).1 hlt
  unfold Ref.logger.Copy
  refine ⟨i1, ?_, ?_, fun r hr => ?_⟩
  · simp only []; rw [i2]; simp [Ref.Heap.alloc]
  · have := i3
    rw [Heap_read_alloc_new] at this
    exact this
  · have hne : r ≠ some (Ref.Heap.alloc h).2 := by
      intro e
      have := hr _ e
      simp [Ref.Heap.alloc] at this
    simp only []
    rw [i4 r hne, Heap_read_alloc_old h r hr]

/-- The copy made on the heap, read back, is the copy made on the values. -/
theorem Copy_deref {σ : Type} (l : Ref.logger σ) (h : Ref.Heap) :
    (l.Copy h).1.deref (l.Copy h).2 = (l.deref h).Copy := by
  obtain ⟨c1, _, c3, _⟩ := Copy_eq l h
  unfold Ref.logger.deref
  rw [c1]
  simp only [Option.map_some', c3, logger.Copy]
  cases hf : l.fields <;> simp [Ref.Heap.read, Fields.assignAll]

/-- C20: `Copy` returns a logger with the threshold and the output of `l` and with a map
that holds under every key what the map of `l` holds, which is left as it was; the two
maps are independent: a `SetField` on the copy does not change the map of `l`, and a
`SetField` on `l` does not change the map of the copy. -/
theorem Copy_spec {σ : Type} (l : Ref.logger σ) (h : Ref.Heap)
    (hl : ∀ a, l.fields = some a → a < h.length)
    (hn : (Fields.keys (Ref.Heap.read h l.fields)).Nodup) :
    (l.Copy h).1.level = l.level ∧
    (l.Copy h).1.output = l.output ∧
    (∀ k, Fields.get (Ref.Heap.read (l.Copy h).2 (l.Copy h).1.fields) k
        = Fields.get (Ref.Heap.read h l.fields) k) ∧
    Ref.Heap.read (l.Copy h).2 l.fields = Ref.Heap.read h l.fields ∧
    (∀ name value,
      Ref.Heap.read ((l.Copy h).1.SetField (l.Copy h).2 name value).2 l.fields
        = Ref.Heap.read (l.Copy h).2 l.fields) ∧
    (∀ name value,
      Ref.Heap.read (l.SetField (l.Copy h).2 name value).2 (l.Copy h).1.fields
        = Ref.Heap.read (l.Copy h).2 (l.Copy h).1.fields) := by
  obtain ⟨c1, c2, c3, c4⟩ := Copy_eq l h
  have hf : (l.Copy h).1.fields = some h.length := by rw [c1]
  refine ⟨by rw [c1], by rw [c1], fun k => ?_, c4 _ hl, fun name value => ?_,
    fun name value => ?_⟩
  · rw [hf, c3]
    exact Fields.get_assignAll_nil _ hn k
  · have hstep : (l.Copy h).1.SetField (l.Copy h).2 name value
        = ((l.Copy h).1, Ref.Heap.assign (l.Copy h).2 h.length name value) := by
      simp [Ref.logger.SetField, hf]
    rw [hstep]
    apply Heap_read_assign_other
    intro e
    have := hl _ e
    omega
  · rw [hf]
    cases hlf : l.fields with
    | none =>
      have hstep : l.SetField (l.Copy h).2 name value
          = ({ l with fields := some (Ref.Heap.alloc (l.Copy h).2).2 },
              Ref.Heap.assign (Ref.Heap.alloc (l.Copy h).2).1
                (Ref.Heap.alloc (l.Copy h).2).2 name value) := by
        simp [Ref.logger.SetField, hlf]
      rw [hstep]
      have hne : some h.length ≠ some (Ref.Heap.alloc (l.Copy h).2).2 := by
        simp [Ref.Heap.alloc, c2]
      simp only []
      rw [Heap_read_assign_other _ _ _ _ _ hne]
      exact Heap_read_alloc_old _ _ (fun a ha => by cases ha; rw [c2]; omega)
    | some a =>
      have hstep : l.SetField (l.Copy h).2 name value
          = (l, Ref.Heap.assign (l.Copy h).2 a name value) := by
        simp [Ref.logger.SetField, hlf]
      rw [hstep]
      apply Heap_read_assign_other
      intro e
      have := hl a hlf
      simp only [Option.some.injEq] at e
      omega

/-- C20, witness: the logger of `TestCopy`; `SetField("bar", "baz")` on the copy leaves
the map of the original as it was. -/
theorem Copy_spec_witness :
    (testRefLogger.Copy testHeap).1.level = testRefLogger.level ∧
    (∀ k, Fields.get (Ref.Heap.read (testRefLogger.Copy testHeap).2
          (testRefLogger.Copy testHeap).1.fields) k
        = Fields.get (rec1 "foo" "bar") k) ∧
    Ref.Heap.read ((testRefLogger.Copy testHeap).1.SetField (testRefLogger.Copy testHeap).2
          "bar" (Value.str "baz")).2 testRefLogger.fields
      = Ref.Heap.read (testRefLogger.Copy testHeap).2 testRefLogger.fields :=
  have h := Copy_spec testRefLogger testHeap (fun a ha => by cases ha; decide) (by decide)
  ⟨h.1, h.2.2.1, h.2.2.2.2.1 "bar" (Value.str "baz")⟩


/-! ## Theorems: close, copies, reserved keys -/

/-- C21: with pooling disabled `close` changes nothing, neither the logger (threshold,
output, fields, pooling flag) nor the pool; with pooling enabled the logger that `close`
puts into the pool has the threshold 0, no output and no fields, and is the logger as
the pool hands it out again. -/
theorem close_spec {σ : Type} (l : Ref.logger σ) (pool : List (Ref.logger σ)) :
    (l.disablePooling = true → Ref.logger.close l pool = (l, pool)) ∧
    (l.disablePooling = false →
      (Ref.logger.close l pool).1.level.toNat = 0 ∧
      (Ref.logger.close l pool).1.output.isNone = true ∧
      (Ref.logger.close l pool).1.fields = none ∧
      (Ref.logger.close l pool).1.disablePooling = false ∧
      (Ref.logger.close l pool).1.now = l.now ∧
      (Ref.logger.close l pool).2 = pool ++ [(Ref.logger.close l pool).1]) := by
  refine ⟨fun h => ?_, fun h => ?_⟩
  · simp [Ref.logger.close, h]
  · simp [Ref.logger.close, h, Level.toNat]

/-- C21, witness: the logger of `TestNewPoolDisabled` is unchanged by `close`; the same
logger with pooling enabled goes to the pool cleared. -/
theorem close_spec_witness :
    Ref.logger.close unpooledLogger [] = (unpooledLogger, []) ∧
    (Ref.logger.close pooledLogger []).1.level.toNat = 0 ∧
    (Ref.logger.close pooledLogger []).1.output.isNone = true ∧
    (Ref.logger.close pooledLogger []).1.fields = none ∧
    (Ref.logger.close pooledLogger []).2 = [] ++ [(Ref.logger.close pooledLogger []).1] :=
  ⟨(close_spec unpooledLogger []).1 rfl,
    ((close_spec pooledLogger []).2 rfl).1,
    ((close_spec pooledLogger []).2 rfl).2.1,
    ((close_spec pooledLogger []).2 rfl).2.2.1,
    ((close_spec pooledLogger []).2 rfl).2.2.2.2.2⟩

/-- C27: the logger `Copy` returns has the threshold, the output and the pooling flag of
the original and a map with the same content, and no time source; so a call that passes
the gate (level at or above the threshold, output set) panics in `Now`, before the
output is called, and a call the gate drops returns with nothing changed. -/
theorem Copy_has_no_clock {σ : Type} (l : logger σ) (env : Env σ) (L : Level)
    (caller : Option (String × Int)) (msg : String) (fields : Option Fields) :
    l.Copy.level = l.level ∧ l.Copy.output = l.output ∧
    l.Copy.disablePooling = l.disablePooling ∧
    (∀ D, l.fields = some D → (Fields.keys D).Nodup →
      ∃ D1, l.Copy.fields = some D1 ∧ ∀ k, Fields.get D1 k = Fields.get D k) ∧
    l.Copy.now = none ∧ l.Copy.Now = none ∧
    (l.level.toNat ≤ L.toNat → l.output.isSome = true →
      l.Copy.send env L caller msg fields = none) ∧
    ((L.toNat < l.level.toNat ∨ l.output.isNone = true) →
      l.Copy.send env L caller msg fields = some env) := by
  refine ⟨rfl, rfl, rfl, fun D hD hn => ?_, rfl, rfl, fun h1 h2 => ?_, fun h => ?_⟩
  · refine ⟨Fields.assignAll [] (some D), by simp [logger.Copy, hD], fun k => ?_⟩
    exact Fields.get_assignAll_nil D hn k
  · have h3 : ¬ L.toNat < l.level.toNat := by omega
    obtain ⟨o, ho⟩ := Option.isSome_iff_exists.mp h2
    simp [logger.send, logger.Copy, logger.Now, h3, ho]
  · rcases h with h | h
    · simp [logger.send, logger.Copy, h]
    · have ho : l.output = none := Option.isNone_iff_eq_none.mp h
      simp [logger.send, logger.Copy, ho]

/-- C27, witness: the copy of the logger of `TestCopy` panics on a call at debug, its
threshold, and the copy of a logger with threshold warn completes a call at info. -/
theorem Copy_has_no_clock_witness :
    fooLogger.Copy.send env0 Level.debug none "test" none = none ∧
    warnLogger.Copy.send env0 Level.info none "test" none = some env0 :=
  ⟨(Copy_has_no_clock fooLogger env0 Level.debug none "test" none).2.2.2.2.2.2.1
      (by decide) rfl,
    (Copy_has_no_clock warnLogger env0 Level.info none "test" none).2.2.2.2.2.2.2
      (Or.inl (by decide))⟩

/-- C28: for a record whose `level` is a string shorter than 4 bytes the level step of
`consoleOutput.Write` panics, and so does `Write`; for a record whose `level` is absent,
is no string, or is a string of at least 4 bytes, the level step gives its bytes and
`Write` returns. -/
theorem console_level_step {σ : Type} (lib : Lib) (o : consoleOutput σ) (s : σ)
    (r : Fields) :
    (∀ lvl, Fields.get r KeyLevel = some (Value.str lvl) → lvl.length < 4 →
      consoleLevel lib (Fields.get r KeyLevel) = none ∧ o.Write lib s r = none) ∧
    ((∀ lvl, Fields.get r KeyLevel = some (Value.str lvl) → 4 ≤ lvl.length) →
      (consoleLevel lib (Fields.get r KeyLevel)).isSome = true ∧
      (o.Write lib s r).isSome = true) := by
  refine ⟨fun lvl h1 h2 => ?_, fun h => ?_⟩
  · have hl : consoleLevel lib (Fields.get r KeyLevel) = none := by
      rw [h1]; simp [consoleLevel, h2]
    exact ⟨hl, by simp [consoleOutput.Write, hl]⟩
  · have hl : (consoleLevel lib (Fields.get r KeyLevel)).isSome = true := by
      cases hg : Fields.get r KeyLevel with
      | none => rfl
      | some v =>
        cases v with
        | str lvl =>
          have h4 : ¬ lvl.length < 4 := by have := h lvl hg; omega
          simp [consoleLevel, h4]
        | _ => rfl
    refine ⟨hl, ?_⟩
    obtain ⟨lv, hlv⟩ := Option.isSome_iff_exists.mp hl
    unfold consoleOutput.Write
    rw [hlv]
    simp only
    split <;> rfl

/-- C28, witness: the levels `off` and the empty string make `Write` panic; the record
of the examples, with the level `info`, is written. -/
theorem console_level_step_witness :
    exampleConsole.Write testLib [] [(KeyLevel, Value.str "off")] = none ∧
    exampleConsole.Write testLib [] [(KeyLevel, Value.str "")] = none ∧
    (exampleConsole.Write testLib [] exampleRecord).isSome = true :=
  ⟨((console_level_step testLib exampleConsole [] [(KeyLevel, Value.str "off")]).1
      "off" rfl (by decide)).2,
    ((console_level_step testLib exampleConsole [] [(KeyLevel, Value.str "")]).1
      "" rfl (by decide)).2,
    ((console_level_step testLib exampleConsole [] exampleRecord).2 (by
      intro lvl h
      have e : lvl = "info" := by
        have h1 : Fields.get exampleRecord KeyLevel = some (Value.str "info") := rfl
        rw [h1] at h
        injection h with h2
        injection h2 with h3
        exact h3.symm
      subst e; decide)).2⟩

/-- C29: a call that passes the gate hands the output exactly one record, in which every
key the logger's fields `D` use holds the value of `D`, every key only the call's fields
`F` use holds the value of `F`, and every other key holds what `send` generated: the
clock reading under `time`, the level name under `level`, the text under `message` and
the call site under `file`.  This is so for the reserved keys as for any other. -/
theorem send_reserved_keys {σ : Type} (o : Output σ Fields) (l : logger (σ × List Fields))
    (env : Env (σ × List Fields)) (L : Level) (caller : Option (String × Int))
    (msg : String) (fields : Option Fields) (now : Unit → Int)
    (hout : l.output = some o.traced) (hnow : l.now = some now)
    (hlev : l.level.toNat ≤ L.toNat)
    (hFn : (Fields.keys (fields.getD [])).Nodup)
    (hDn : (Fields.keys (l.fields.getD [])).Nodup) :
    ∃ env1 r, l.send env L caller msg fields = some env1 ∧
      env1.sink.2 = env.sink.2 ++ [r] ∧
      (∀ k v, Fields.get (l.fields.getD []) k = some v → Fields.get r k = some v) ∧
      (∀ k v, k ∉ Fields.keys (l.fields.getD []) →
        Fields.get (fields.getD []) k = some v → Fields.get r k = some v) ∧
      (∀ k, k ∉ Fields.keys (l.fields.getD []) → k ∉ Fields.keys (fields.getD []) →
        Fields.get r k = Fields.get (sendBase (now ()) L caller msg) k) ∧
      Fields.get (sendBase (now ()) L caller msg) KeyTime = some (Value.time (now ())) ∧
      Fields.get (sendBase (now ()) L caller msg) KeyLevel = some (Value.str L.String) ∧
      Fields.get (sendBase (now ()) L caller msg) KeyMessage = some (Value.str msg) ∧
      (∀ file line, caller = some (file, line) →
        Fields.get (sendBase (now ()) L caller msg) KeyFile
          = some (Value.str (file ++ ":" ++ toString line))) := by
  obtain ⟨env1, h1, h2, _⟩ := send_emits o l env L caller msg fields now hout hnow hlev
  obtain ⟨g1, g2, g3, g4⟩ := sendBase_get (now ()) L caller msg
  refine ⟨env1, _, h1, h2, fun k v hk => ?_, fun k v hD hk => ?_, fun k hD hF => ?_,
    g1, g2, g3, g4⟩
  · rw [sendData_eq]
    exact Fields.get_assignAll_of_get _ _ _ _ hDn hk
  · rw [sendData_eq, Fields.get_assignAll_of_not_mem _ _ _ hD]
    exact Fields.get_assignAll_of_get _ _ _ _ hFn hk
  · rw [sendData_eq, Fields.get_assignAll_of_not_mem _ _ _ hD,
      Fields.get_assignAll_of_not_mem _ _ _ hF]

/-- C29, witness: a call at info with the field `level` set to `custom`, on the logger
with the default field `foo`: the record holds `custom` under `level`, and the generated
text under `message`. -/
theorem send_reserved_keys_witness :
    ∃ env1 r, fooLogger.send env0 Level.info none "test" (some (rec1 "level" "custom"))
        = some env1 ∧
      env1.sink.2 = [] ++ [r] ∧
      Fields.get r KeyLevel = some (Value.str "custom") ∧
      Fields.get r KeyMessage = some (Value.str "test") := by
  obtain ⟨env1, r, h1, h2, _, h4, h5, _, _, h8, _⟩ := send_reserved_keys RecorderOutput
    fooLogger env0 Level.info none "test" (some (rec1 "level" "custom")) (fun _ => 0)
    rfl rfl (by decide) (by decide) (by decide)
  refine ⟨env1, r, h1, h2, h4 KeyLevel _ (by decide) rfl, ?_⟩
  rw [h5 KeyMessage (by decide) (by decide)]
  exact h8


/-! ## Theorems: a closed channel -/

theorem runOp_closed {σ R : Type} (o : Output σ R) (oc : OutputChannel σ R) (op : Op R)
    (h1 : oc.stopNil = true) (h2 : oc.consumer = Consumer.exited) (hop : op ≠ Op.flush) :
    ∃ oc1 acc, runOp o oc op = some (oc1, acc) ∧ oc1.sink = oc.sink ∧
      oc.input <+: oc1.input ∧ oc1.stopNil = true ∧ oc1.consumer = Consumer.exited := by
  cases op with
  | write r =>
    by_cases ha : oc.input.length < oc.bufSize
    · exact ⟨{ oc with input := oc.input ++ [r] }, [r],
        by simp [runOp, OutputChannel.Write, ha], rfl, List.prefix_append _ _, h1, h2⟩
    · have hb : ¬ (oc.bufSize = 0 ∧ oc.consumer = Consumer.ready) := by
        rw [h2]; simp
      exact ⟨oc, [], by simp [runOp, OutputChannel.Write, ha, hb], rfl,
        List.prefix_refl _, h1, h2⟩
  | consumerStep =>
    exact ⟨oc, [], by simp [runOp, consumerStep, h2], rfl, List.prefix_refl _, h1, h2⟩
  | consumerArrive =>
    exact ⟨oc, [], by simp [runOp, consumerArrive, h2], rfl, List.prefix_refl _, h1, h2⟩
  | flush => exact absurd rfl hop
  | close =>
    exact ⟨oc, [], by simp [runOp, OutputChannel.Close, h1], rfl, List.prefix_refl _, h1, h2⟩

theorem exec_closed {σ R : Type} (o : Output σ R) (ops : List (Op R)) :
    ∀ oc : OutputChannel σ R, oc.stopNil = true → oc.consumer = Consumer.exited →
      (∀ op, op ∈ ops → op ≠ Op.flush) →
      ∃ oc1 acc, exec o oc ops = some (oc1, acc) ∧ oc1.sink = oc.sink ∧
        oc.input <+: oc1.input ∧ oc1.stopNil = true ∧ oc1.consumer = Consumer.exited := by
  induction ops with
  | nil => intro oc h1 h2 _; exact ⟨oc, [], rfl, rfl, List.prefix_refl _, h1, h2⟩
  | cons op ops ih =>
    intro oc h1 h2 hops
    obtain ⟨oc1, acc1, e1, s1, p1, c1, d1⟩ :=
      runOp_closed o oc op h1 h2 (hops op (List.mem_cons_self _ _))
    obtain ⟨oc2, acc2, e2, s2, p2, c2, d2⟩ :=
      ih oc1 c1 d1 (fun x hx => hops x (List.mem_cons_of_mem _ hx))
    exact ⟨oc2, acc1 ++ acc2, by simp [exec, e1, e2], by rw [s2, s1],
      List.IsPrefix.trans p1 p2, c2, d2⟩

theorem runOp_exited {σ R : Type} (o : Output σ R) (oc oc1 : OutputChannel σ R)
    (op : Op R) (acc : List R) (h : oc.stopNil = true → oc.consumer = Consumer.exited)
    (hrun : runOp o oc op = some (oc1, acc)) :
    oc1.stopNil = true → oc1.consumer = Consumer.exited := by
  cases op with
  | write r =>
    by_cases ha : oc.input.length < oc.bufSize
    · simp only [runOp, OutputChannel.Write, ha, if_true, Option.some.injEq,
        Prod.mk.injEq] at hrun
      rw [← hrun.1]; exact h
    · by_cases hb : oc.bufSize = 0 ∧ oc.consumer = Consumer.ready
      · intro h1
        have hw : OutputChannel.Write o oc r
            = (deliver o { oc with consumer := Consumer.running } r, none) := by
          simp [OutputChannel.Write, ha, hb]
        have e : oc1 = deliver o { oc with consumer := Consumer.running } r := by
          simp only [runOp, hw, Option.some.injEq, Prod.mk.injEq] at hrun
          exact hrun.1.symm
        rw [e, deliver_stopNil] at h1
        have := h h1
        rw [hb.2] at this
        cases this
      · simp only [runOp, OutputChannel.Write, ha, hb, if_false, Option.some.injEq,
          Prod.mk.injEq] at hrun
        rw [← hrun.1]; exact h
  | consumerStep =>
    intro h1
    simp only [runOp, Option.some.injEq, Prod.mk.injEq] at hrun
    obtain ⟨e, _⟩ := hrun
    cases hc : oc.consumer with
    | exited =>
      have : consumerStep o oc = oc := by simp [consumerStep, hc]
      rw [← e, this]; exact hc
    | running =>
      cases hi : oc.input with
      | nil =>
        have : consumerStep o oc = oc := by simp [consumerStep, hc, hi]
        rw [← e, this] at h1
        have := h h1
        rw [hc] at this; cases this
      | cons msg rest =>
        have : consumerStep o oc
            = deliver o { oc with input := rest, consumer := Consumer.running } msg := by
          simp [consumerStep, hc, hi]
        rw [← e, this, deliver_stopNil] at h1
        have := h h1
        rw [hc] at this; cases this
    | ready =>
      cases hi : oc.input with
      | nil =>
        have : consumerStep o oc = oc := by simp [consumerStep, hc, hi]
        rw [← e, this] at h1
        have := h h1
        rw [hc] at this; cases this
      | cons msg rest =>
        have : consumerStep o oc
            = deliver o { oc with input := rest, consumer := Consumer.running } msg := by
          simp [consumerStep, hc, hi]
        rw [← e, this, deliver_stopNil] at h1
        have := h h1
        rw [hc] at this; cases this
  | consumerArrive =>
    intro h1
    simp only [runOp, Option.some.injEq, Prod.mk.injEq] at hrun
    obtain ⟨e, _⟩ := hrun
    cases hc : oc.consumer with
    | exited =>
      have : consumerArrive oc = oc := by simp [consumerArrive, hc]
      rw [← e, this]; exact hc
    | running =>
      have : consumerArrive oc = { oc with consumer := Consumer.ready } := by
        simp [consumerArrive, hc]
      rw [← e, this] at h1
      have := h h1
      rw [hc] at this; cases this
    | ready =>
      have : consumerArrive oc = oc := by simp [consumerArrive, hc]
      rw [← e, this] at h1
      have := h h1
      rw [hc] at this; cases this
  | flush =>
    simp only [runOp, Option.some.injEq, Prod.mk.injEq] at hrun
    obtain ⟨e, _⟩ := hrun
    obtain ⟨_, _, f3, f4, _⟩ := flushLoop_frame o oc.input oc
    rw [← e]
    unfold OutputChannel.Flush
    rw [f3, f4]; exact h
  | close =>
    intro h1
    by_cases hs : oc.stopNil = true
    · have e : oc1 = oc := by
        simp only [runOp, OutputChannel.Close, hs, if_true, Option.some.injEq,
          Prod.mk.injEq] at hrun
        exact hrun.1.symm
      rw [e]; exact h hs
    · by_cases hc : oc.consumer = Consumer.exited
      · simp [runOp, OutputChannel.Close, hs, hc] at hrun
      · have hcl : OutputChannel.Close o oc = some (OutputChannel.Flush o
            { oc with consumer := Consumer.exited, stopNil := true }) := by
          simp [OutputChannel.Close, hs, hc]
        have e : oc1 = OutputChannel.Flush o
            { oc with consumer := Consumer.exited, stopNil := true } := by
          simp only [runOp, hcl, Option.some.injEq, Prod.mk.injEq] at hrun
          exact hrun.1.symm
        obtain ⟨_, _, _, f4, _⟩ := flushLoop_frame o oc.input
          { oc with consumer := Consumer.exited, stopNil := true }
        rw [e]
        exact f4

theorem exec_exited {σ R : Type} (o : Output σ R) (ops : List (Op R)) :
    ∀ (oc oc1 : OutputChannel σ R) (acc : List R),
      (oc.stopNil = true → oc.consumer = Consumer.exited) →
      exec o oc ops = some (oc1, acc) →
      oc1.stopNil = true → oc1.consumer = Consumer.exited := by
  induction ops with
  | nil =>
    intro oc oc1 acc h hrun
    simp only [exec, Option.some.injEq, Prod.mk.injEq] at hrun
    rw [← hrun.1]; exact h
  | cons op ops ih =>
    intro oc oc1 acc h hrun
    cases h1 : runOp o oc op with
    | none => simp [exec, h1] at hrun
    | some x =>
      obtain ⟨oc2, acc2⟩ := x
      cases h2 : exec o oc2 ops with
      | none => simp [exec, h1, h2] at hrun
      | some y =>
        obtain ⟨oc3, acc3⟩ := y
        simp only [exec, h1, h2, Option.some.injEq, Prod.mk.injEq] at hrun
        rw [← hrun.1]
        exact ih oc2 oc3 acc3 (runOp_exited o oc oc2 op acc2 h h1) h2

/-- C30: take any state `oc` that a channel reaches from its construction, by any
operations, in which `Close` has returned (`stop` is nil).  There `Write(r)` with room in
the queue returns nil and puts `r` at the end of the queue; `Close` then returns at once
with the state unchanged; whatever operations other than `Flush` follow (writes, calls of
`Close`, moves of the consumer), they all return, the output receives nothing, `r` stays
in the queue and the channel stays closed; a call of `Flush` passes the queue, `r` last,
to the output. -/
theorem Write_after_Close {σ R : Type} (o : Output σ R) (s0 : σ × List R) (n : Nat)
    (ops0 : List (Op R)) (oc : OutputChannel (σ × List R) R) (acc0 : List R) (r : R)
    (hreach : exec o.traced (NewOutputChannelBuffer s0 n) ops0 = some (oc, acc0))
    (hstop : oc.stopNil = true) (hroom : oc.input.length < oc.bufSize) :
    oc.consumer = Consumer.exited ∧
    OutputChannel.Write o.traced oc r = ({ oc with input := oc.input ++ [r] }, none) ∧
    OutputChannel.Close o.traced (OutputChannel.Write o.traced oc r).1
      = some (OutputChannel.Write o.traced oc r).1 ∧
    (∀ ops : List (Op R), (∀ op, op ∈ ops → op ≠ Op.flush) →
      ∃ oc1 acc, exec o.traced (OutputChannel.Write o.traced oc r).1 ops = some (oc1, acc) ∧
        oc1.sink.2 = oc.sink.2 ∧ (oc.input ++ [r]) <+: oc1.input ∧
        oc1.stopNil = true ∧ oc1.consumer = Consumer.exited) ∧
    (OutputChannel.Flush o.traced (OutputChannel.Write o.traced oc r).1).sink.2
      = oc.sink.2 ++ oc.input ++ [r] ∧
    (OutputChannel.Flush o.traced (OutputChannel.Write o.traced oc r).1).input = [] := by
  have hexit : oc.consumer = Consumer.exited :=
    exec_exited o.traced ops0 (NewOutputChannelBuffer s0 n) oc acc0
      (by intro h; simp [NewOutputChannelBuffer] at h) hreach hstop
  have hw : OutputChannel.Write o.traced oc r = ({ oc with input := oc.input ++ [r] }, none) := by
    simp [OutputChannel.Write, hroom]
  rw [hw]
  refine ⟨hexit, rfl, by simp [OutputChannel.Close, hstop], fun ops hops => ?_, ?_, ?_⟩
  · obtain ⟨oc1, acc, e, s1, p1, c1, d1⟩ := exec_closed o.traced ops
      { oc with input := oc.input ++ [r] } hstop hexit hops
    exact ⟨oc1, acc, e, by rw [s1], p1, c1, d1⟩
  · have := (flushLoop_traced o (oc.input ++ [r]) { oc with input := oc.input ++ [r] }).1
    simpa [OutputChannel.Flush, List.append_assoc] using this
  · exact (flushLoop_traced o (oc.input ++ [r]) { oc with input := oc.input ++ [r] }).2.2

/-- C30, witness: a channel of capacity 1 is closed right after its construction; a
write is then accepted; a later `Close` and a move of the consumer deliver nothing, and
`Flush` delivers the record. -/
theorem Write_after_Close_witness :
    exec RecorderOutput.traced (NewOutputChannelBuffer ([], []) 1) [Op.close]
      = some (closedChan, []) ∧
    OutputChannel.Write RecorderOutput.traced closedChan (rec1 "foo" "bar")
      = ({ closedChan with input := [] ++ [rec1 "foo" "bar"] }, none) ∧
    (∃ oc1 acc, exec RecorderOutput.traced
        (OutputChannel.Write RecorderOutput.traced closedChan (rec1 "foo" "bar")).1
        [Op.close, Op.consumerStep] = some (oc1, acc) ∧
      oc1.sink.2 = [] ∧ ([] ++ [rec1 "foo" "bar"]) <+: oc1.input ∧
      oc1.stopNil = true ∧ oc1.consumer = Consumer.exited) ∧
    (OutputChannel.Flush RecorderOutput.traced
        (OutputChannel.Write RecorderOutput.traced closedChan (rec1 "foo" "bar")).1).sink.2
      = [] ++ [] ++ [rec1 "foo" "bar"] :=
  ⟨rfl,
    (Write_after_Close RecorderOutput ([], []) 1 [Op.close] closedChan []
      (rec1 "foo" "bar") rfl rfl (by decide)).2.1,
    (Write_after_Close RecorderOutput ([], []) 1 [Op.close] closedChan []
      (rec1 "foo" "bar") rfl rfl (by decide)).2.2.2.1 [Op.close, Op.consumerStep] (by
        intro op hop
        simp only [List.mem_cons, List.mem_singleton, List.not_mem_nil, or_false] at hop
        rcases hop with h | h <;> subst h <;> intro e <;> cases e),
    (Write_after_Close RecorderOutput ([], []) 1 [Op.close] closedChan []
      (rec1 "foo" "bar") rfl rfl (by decide)).2.2.2.2.1⟩


/-! ## Theorems: leveled calls -/

/-- C25, the failing input: a `map[string]string` as last parameter of a leveled call is
not taken off the parameters; `extractFields` returns a nil map, and each of `Debug`,
`Debugf`, `Info`, `Infof`, `Warn`, `Warnf`, `Error`, `Errorf`, `Fatal` and `Fatalf`
sends a record with no field of the call, whose message is formatted from all the
parameters, the map included. -/
theorem mapSS_not_extracted {σ : Type} (lib : Lib) (l : logger σ) (env : Env σ)
    (chan : Option (ChannelOps σ)) (p : Proc σ) (caller : Option (String × Int))
    (format : String) (init : List Value) (m : Option (List (String × String))) :
    extractFields (init ++ [Value.mapSS m]) = (none, init ++ [Value.mapSS m]) ∧
    l.Debug lib env caller (init ++ [Value.mapSS m])
      = l.send env Level.debug caller (lib.Sprint (init ++ [Value.mapSS m])) none ∧
    l.Debugf lib env caller format (init ++ [Value.mapSS m])
      = l.send env Level.debug caller (lib.Sprintf format (init ++ [Value.mapSS m])) none ∧
    l.Info lib env caller (init ++ [Value.mapSS m])
      = l.send env Level.info caller (lib.Sprint (init ++ [Value.mapSS m])) none ∧
    l.Infof lib env caller format (init ++ [Value.mapSS m])
      = l.send env Level.info caller (lib.Sprintf format (init ++ [Value.mapSS m])) none ∧
    l.Warn lib env caller (init ++ [Value.mapSS m])
      = l.send env Level.warn caller (lib.Sprint (init ++ [Value.mapSS m])) none ∧
    l.Warnf lib env caller format (init ++ [Value.mapSS m])
      = l.send env Level.warn caller (lib.Sprintf format (init ++ [Value.mapSS m])) none ∧
    l.Error lib env caller (init ++ [Value.mapSS m])
      = l.send env Level.error caller (lib.Sprint (init ++ [Value.mapSS m])) none ∧
    l.Errorf lib env caller format (init ++ [Value.mapSS m])
      = l.send env Level.error caller (lib.Sprintf format (init ++ [Value.mapSS m])) none ∧
    l.Fatal lib chan p caller (init ++ [Value.mapSS m])
      = l.fatalEnd chan p caller (lib.Sprint (init ++ [Value.mapSS m])) none ∧
    l.Fatalf lib chan p caller format (init ++ [Value.mapSS m])
      = l.fatalEnd chan p caller (lib.Sprintf format (init ++ [Value.mapSS m])) none := by
  have h : extractFields (init ++ [Value.mapSS m]) = (none, init ++ [Value.mapSS m]) := by
    simp [extractFields]
  refine ⟨h, ?_, ?_, ?_, ?_, ?_, ?_, ?_, ?_, ?_, ?_⟩ <;>
    simp [logger.Debug, logger.Debugf, logger.Info, logger.Infof, logger.Warn, logger.Warnf,
      logger.Error, logger.Errorf, logger.Fatal, logger.Fatalf, h]

theorem trimVerb_append (f : String) (hf : 0 < f.length) : trimVerb (f ++ "%v") = f := by
  have hd : (f ++ "%v").data = f.data ++ ['%', 'v'] := by rw [String.data_append]
  have hl : f.length = f.data.length := rfl
  have hlen : (f ++ "%v").length = f.length + 2 := by rw [String.length_append]; rfl
  have h1 : (f ++ "%v").data[f.length]? = some '%' := by
    rw [hd, hl, List.getElem?_append_right (le_refl _), Nat.sub_self]; rfl
  have h2 : (f ++ "%v").data[f.length + 1]? = some 'v' := by
    rw [hd, hl, List.getElem?_append_right (Nat.le_succ _)]
    have : f.data.length.succ - f.data.length = 1 := by omega
    rw [this]; rfl
  have h3 : (f ++ "%v").take f.length = f := by
    apply String.ext
    rw [String.data_take, hd, hl, List.take_left]
  unfold trimVerb
  rw [hlen]
  have e1 : f.length + 2 - 2 = f.length := by omega
  have e2 : f.length + 2 - 1 = f.length + 1 := by omega
  rw [e1, e2, h1, h2, if_pos ⟨by omega, rfl, rfl⟩, h3]

theorem extractFields_xF (init : List Value) (m : Option Fields) :
    extractFields (init ++ [Value.xF m]) = (m, init) := by
  simp [extractFields]

theorem extractFields_mapSI (init : List Value) (m : Option Fields) :
    extractFields (init ++ [Value.mapSI m]) = (m, init) := by
  simp [extractFields]

/-- C24 (as amended): for a format `f` that is not empty and parameters that end in a
field map that is not nil (an `xlog.F` or a `map[string]interface{}`), `Errorf` and
`Fatalf` called with `f` followed by `%v` send the fields of the map and the message
`f` formatted with the parameters before the map. -/
theorem Errorf_trims_verb {σ : Type} (lib : Lib) (l : logger σ) (env : Env σ)
    (chan : Option (ChannelOps σ)) (p : Proc σ) (caller : Option (String × Int))
    (f : String) (init : List Value) (m : Fields) (last : Value)
    (hf : 0 < f.length) (hlast : last = Value.xF (some m) ∨ last = Value.mapSI (some m)) :
    l.Errorf lib env caller (f ++ "%v") (init ++ [last])
      = l.send env Level.error caller (lib.Sprintf f init) (some m) ∧
    l.Fatalf lib chan p caller (f ++ "%v") (init ++ [last])
      = l.fatalEnd chan p caller (lib.Sprintf f init) (some m) := by
  have h : extractFields (init ++ [last]) = (some m, init) := by
    rcases hlast with h | h
    · rw [h, extractFields_xF]
    · rw [h, extractFields_mapSI]
  simp [logger.Errorf, logger.Fatalf, h, trimVerb_append f hf]

/-- C24, witness: the call of `TestErrorf`, `Errorf("test %d%v", 1, F{"foo": "bar"})`,
sends the message formatted from `test %d` and the parameter 1. -/
theorem Errorf_trims_verb_witness :
    fooLogger.Errorf testLib env0 none ("test %d" ++ "%v")
        ([Value.int 1] ++ [Value.xF (some (rec1 "foo" "bar"))])
      = fooLogger.send env0 Level.error none (testLib.Sprintf "test %d" [Value.int 1])
          (some (rec1 "foo" "bar")) :=
  (Errorf_trims_verb testLib fooLogger env0 none { env := env0, exits := [] } none
    "test %d" [Value.int 1] (rec1 "foo" "bar") _ (by decide) (Or.inl rfl)).1

/-- C24, counterexample: with the empty format followed by `%v` the format has length
2, which the test `l > 2` refuses, so the record's message is formatted from `%v` and
not from the empty format; and with a nil field map `f != nil` fails, so the message is
formatted from `test%v` and not from `test`.  (`testLib.Sprintf` gives the format back;
`fmt.Sprintf` gives `%!v(MISSING)` for `%v` without a parameter.) -/
theorem Errorf_bare_verb_counterexample :
    ((fooLogger.Errorf testLib env0 none ("" ++ "%v")
        [Value.xF (some (rec1 "k" "v"))]).map
      (fun e => e.sink.2.map (fun r => Fields.get r KeyMessage)))
      = some [some (Value.str (testLib.Sprintf "%v" []))] ∧
    testLib.Sprintf "%v" [] ≠ testLib.Sprintf "" [] ∧
    ((fooLogger.Errorf testLib env0 none ("test" ++ "%v") [Value.xF none]).map
      (fun e => e.sink.2.map (fun r => Fields.get r KeyMessage)))
      = some [some (Value.str (testLib.Sprintf "test%v" []))] ∧
    testLib.Sprintf "test%v" [] ≠ testLib.Sprintf "test" [] := by
  refine ⟨rfl, by decide, rfl, by decide⟩


/-! ## Theorems: the writer adapter -/

theorem trimRightNewlines_spec (p : String) :
    (∃ n, p.data = (trimRightNewlines p).data ++ List.replicate n '\n') ∧
    (trimRightNewlines p).data.getLast? ≠ some '\n' := by
  have hsplit : p.data = p.data.rdropWhile (fun c => c = '\n')
      ++ p.data.rtakeWhile (fun c => c = '\n') := by
    unfold List.rdropWhile List.rtakeWhile
    rw [← List.reverse_append, List.takeWhile_append_dropWhile, List.reverse_reverse]
  have hall : ∀ x, x ∈ p.data.rtakeWhile (fun c => c = '\n') → x = '\n' := by
    intro x hx
    unfold List.rtakeWhile at hx
    simpa using List.mem_takeWhile_imp (List.mem_reverse.mp hx)
  refine ⟨⟨(p.data.rtakeWhile (fun c => c = '\n')).length, ?_⟩, ?_⟩
  · have hrep : p.data.rtakeWhile (fun c => c = '\n')
        = List.replicate (p.data.rtakeWhile (fun c => c = '\n')).length '\n' :=
      List.eq_replicate_iff.mpr ⟨rfl, hall⟩
    rw [← hrep]
    exact hsplit
  · show (p.data.rdropWhile (fun c => c = '\n')).getLast? ≠ some '\n'
    by_cases hl : p.data.rdropWhile (fun c => c = '\n') = []
    · rw [hl]; simp
    · rw [List.getLast?_eq_getLast _ hl]
      intro e
      have h1 := List.rdropWhile_last_not (fun c => decide (c = '\n')) p.data hl
      injection e with e1
      exact h1 (by simp [e1])

/-- C22 (as amended): for a logger that has a time source, `Write(p)` returns
`(len(p), nil)`, whatever the output does.  It calls the output at most once: not at
all when the threshold is above info or no output is set, and otherwise exactly once,
with the record `send` builds at level info for the message `p` without the newline
bytes it ends with, however many; the error of that call is not returned.  That record
holds `info` under `level` and that message under `message` unless the logger's own
fields use these keys; a key the logger's fields use holds the logger's value.  When the
output is an `OutputChannel`, `Flush` is called after that. -/
theorem Write_spec {σ : Type} (l : logger σ) (chan : Option (ChannelOps σ)) (env : Env σ)
    (caller : Option (String × Int)) (p : String) (now : Unit → Int)
    (hnow : l.now = some now) :
    ∃ env1, l.Write chan env caller p = some (env1, p.length, none) ∧
      ((Level.info.toNat < l.level.toNat ∨ l.output.isNone = true) →
        env1.sink = flushIfChannel chan env.sink) ∧
      (∀ o, l.output = some o → l.level.toNat ≤ Level.info.toNat →
        env1.sink = flushIfChannel chan (o.Write env.sink
          (sendData l (now ()) Level.info caller (trimRightNewlines p) none)).1) ∧
      (KeyLevel ∉ Fields.keys (l.fields.getD []) →
        Fields.get (sendData l (now ()) Level.info caller (trimRightNewlines p) none) KeyLevel
          = some (Value.str "info")) ∧
      (KeyMessage ∉ Fields.keys (l.fields.getD []) →
        Fields.get (sendData l (now ()) Level.info caller (trimRightNewlines p) none)
            KeyMessage
          = some (Value.str (trimRightNewlines p))) ∧
      (∀ k v, (Fields.keys (l.fields.getD [])).Nodup →
        Fields.get (l.fields.getD []) k = some v →
        Fields.get (sendData l (now ()) Level.info caller (trimRightNewlines p) none) k
          = some v) ∧
      (∃ n, p.data = (trimRightNewlines p).data ++ List.replicate n '\n') ∧
      (trimRightNewlines p).data.getLast? ≠ some '\n' := by
  obtain ⟨_, g2, g3, _⟩ := sendBase_get (now ()) Level.info caller (trimRightNewlines p)
  obtain ⟨t1, t2⟩ := trimRightNewlines_spec p
  have hbase : ∀ k, k ∉ Fields.keys (l.fields.getD []) →
      Fields.get (sendData l (now ()) Level.info caller (trimRightNewlines p) none) k
        = Fields.get (sendBase (now ()) Level.info caller (trimRightNewlines p)) k := by
    intro k hk
    rw [sendData_eq, Fields.get_assignAll_of_not_mem _ _ _ hk]
    rfl
  have hD : ∀ k v, (Fields.keys (l.fields.getD [])).Nodup →
      Fields.get (l.fields.getD []) k = some v →
      Fields.get (sendData l (now ()) Level.info caller (trimRightNewlines p) none) k
        = some v := by
    intro k v hn hk
    rw [sendData_eq]
    exact Fields.get_assignAll_of_get _ _ _ _ hn hk
  have hlevel : KeyLevel ∉ Fields.keys (l.fields.getD []) →
      Fields.get (sendData l (now ()) Level.info caller (trimRightNewlines p) none) KeyLevel
        = some (Value.str "info") := fun hk => by rw [hbase _ hk]; exact g2
  have hmsg : KeyMessage ∉ Fields.keys (l.fields.getD []) →
      Fields.get (sendData l (now ()) Level.info caller (trimRightNewlines p) none)
          KeyMessage
        = some (Value.str (trimRightNewlines p)) := fun hk => by rw [hbase _ hk]; exact g3
  by_cases hgate : Level.info.toNat < l.level.toNat ∨ l.output.isNone = true
  · have hs : l.send env Level.info caller (trimRightNewlines p) none = some env := by
      rcases hgate with h | h
      · exact send_below l env _ _ _ _ h
      · have ho : l.output = none := Option.isNone_iff_eq_none.mp h
        simp [logger.send, ho]
    refine ⟨{ env with sink := flushIfChannel chan env.sink }, ?_, fun _ => rfl,
      fun o ho hlev => ?_, hlevel, hmsg, hD, t1, t2⟩
    · simp [logger.Write, hs]
    · rcases hgate with h | h
      · omega
      · rw [ho] at h; simp at h
  · have hlev : l.level.toNat ≤ Level.info.toNat := by
      by_contra hc; exact hgate (Or.inl (by omega))
    cases ho : l.output with
    | none => exact absurd (Or.inr (by simp [ho])) hgate
    | some o =>
      have hs := send_passes o l env Level.info caller (trimRightNewlines p) none now
        ho hnow hlev
      refine ⟨_, by unfold logger.Write; rw [hs], fun h => absurd h ?_, fun o1 ho1 _ => ?_,
        hlevel, hmsg, hD, t1, t2⟩
      · rw [← ho]; exact hgate
      · injection ho1 with e
        rw [← e]

/-- C22, witness: `Write` of the bytes `test` and a newline on a logger with a recording
output returns 5 and nil, and the record it sends holds `info` under `level` and `test`
under `message`. -/
theorem Write_spec_witness :
    ∃ env1, fooLogger.Write none env0 none "test\n" = some (env1, 5, none) ∧
      env1.sink.2 = [sendData fooLogger 0 Level.info none "test" none] ∧
      Fields.get (sendData fooLogger 0 Level.info none "test" none) KeyLevel
        = some (Value.str "info") ∧
      Fields.get (sendData fooLogger 0 Level.info none "test" none) KeyMessage
        = some (Value.str "test") := by
  obtain ⟨env1, h, _, h3, h4, h5, _⟩ :=
    Write_spec fooLogger none env0 none "test\n" (fun _ => 0) rfl
  refine ⟨env1, h, ?_, h4 (by decide), h5 (by decide)⟩
  have := h3 RecorderOutput.traced rfl (by decide)
  rw [this]
  rfl

/-- C22, counterexample: `Write` of the bytes `test` and two newlines sends a record with
the message `test`, while the bytes without their one trailing newline are `test` and a
newline; and on a logger whose own fields are `message = x` and `level = debug`, `Write`
of `test` and a newline sends a record with the message `x` and the level `debug`. -/
theorem Write_two_newlines_counterexample :
    ((fooLogger.Write none env0 none "test\n\n").map
      (fun x => (x.1.sink.2.map (fun r => Fields.get r KeyMessage), x.2)))
      = some ([some (Value.str "test")], 6, none) ∧
    String.mk ("test\n\n".data.dropLast) = "test\n" ∧
    "test" ≠ "test\n" ∧
    ((overrideLogger.Write none env0 none "test\n").map
      (fun x => x.1.sink.2.map (fun r => (Fields.get r KeyMessage, Fields.get r KeyLevel))))
      = some [(some (Value.str "x"), some (Value.str "debug"))] ∧
    "x" ≠ "test" ∧ "debug" ≠ "info" := by
  refine ⟨rfl, by decide, by decide, rfl, by decide, by decide⟩


/-! ## Theorems: reading a logfmt line back -/

theorem map_intersperse_aux {α β : Type} (g : α → β) (x : α) :
    ∀ l : List α, (l.intersperse x).map g = (l.map g).intersperse (g x)
  | [] => rfl
  | [_] => rfl
  | a :: b :: rest => by
    have ih := map_intersperse_aux g x (b :: rest)
    simp only [List.intersperse, List.map_cons] at ih ⊢
    rw [ih]

theorem join_intersperse_data (l : List String) (sep : String) :
    (String.join (l.intersperse sep)).data = List.intercalate sep.data (l.map String.data) := by
  rw [String.data_join, map_intersperse_aux]
  rfl

theorem unescape_escape_cases (c : Char) :
    (escapeChar c = [c] ∧ c ≠ '"' ∧ c ≠ '\\') ∨
    (∃ e, escapeChar c = ['\\', e] ∧ unescapeChar e = c) := by
  unfold escapeChar
  by_cases h1 : c = '"'
  · right; exact ⟨'"', by simp [h1], by rw [h1]; decide⟩
  by_cases h2 : c = '\\'
  · right; exact ⟨'\\', by simp [h2], by rw [h2]; decide⟩
  by_cases h3 : c = '\n'
  · right; exact ⟨'n', by rw [h3]; decide, by rw [h3]; decide⟩
  by_cases h4 : c = '\t'
  · right; exact ⟨'t', by rw [h4]; decide, by rw [h4]; decide⟩
  by_cases h5 : c = '\r'
  · right; exact ⟨'r', by rw [h5]; decide, by rw [h5]; decide⟩
  left
  simp [h1, h2, h3, h4, h5]

theorem readQuoted_cons_plain (c : Char) (rest : List Char) (h1 : c ≠ '"') (h2 : c ≠ '\\')
    (hr : rest ≠ []) :
    readQuoted (c :: rest) = (readQuoted rest).map (fun p => (c :: p.1, p.2)) := by
  cases rest with
  | nil => exact absurd rfl hr
  | cons e rest2 => simp [readQuoted, h1, h2]

theorem readQuoted_cons_escaped (e : Char) (rest : List Char) :
    readQuoted ('\\' :: e :: rest)
      = (readQuoted rest).map (fun p => (unescapeChar e :: p.1, p.2)) := by
  simp [readQuoted]

theorem readQuoted_quote (rest : List Char) : readQuoted ('"' :: rest) = some ([], rest) := by
  cases rest with
  | nil => simp [readQuoted]
  | cons e rest2 => simp [readQuoted]

theorem readQuoted_escaped (t rest : List Char) :
    readQuoted (t.flatMap escapeChar ++ '"' :: rest) = some (t, rest) := by
  induction t with
  | nil => simpa using readQuoted_quote rest
  | cons c cs ih =>
    rw [List.flatMap_cons, List.append_assoc]
    rcases unescape_escape_cases c with ⟨h, h1, h2⟩ | ⟨e, h, hu⟩
    · rw [h, List.singleton_append, readQuoted_cons_plain c _ h1 h2 (by simp), ih]
      rfl
    · rw [h]
      show readQuoted ('\\' :: e :: (cs.flatMap escapeChar ++ '"' :: rest)) = _
      rw [readQuoted_cons_escaped, ih, ← hu]
      rfl

theorem readValue_writeText (s : Char) (hs : needsQuote s = true) (hq : s ≠ '"')
    (t : String) (rest : List Char) (hrest : rest = [] ∨ ∃ more, rest = s :: more) :
    readValue s ((writeText t).data ++ rest) = some (t.data, rest) := by
  unfold writeText
  by_cases hany : t.data.any needsQuote = true
  · rw [if_pos hany]
    show readValue s (('"' :: (t.data.flatMap escapeChar ++ ['"'])) ++ rest) = _
    have e : ('"' :: (t.data.flatMap escapeChar ++ ['"'])) ++ rest
        = '"' :: (t.data.flatMap escapeChar ++ '"' :: rest) := by simp
    rw [e]
    simp only [readValue, if_true]
    exact readQuoted_escaped t.data rest
  · rw [if_neg hany]
    have hall : ∀ c, c ∈ t.data → needsQuote c = false := by
      intro c hc
      by_contra hn
      exact hany (List.any_eq_true.mpr ⟨c, hc, by simpa using hn⟩)
    have hne : ∀ c, c ∈ t.data → (fun x => x != s) c = true := by
      intro c hc
      simp only [bne_iff_ne, ne_eq]
      intro e
      have := hall c hc
      rw [e, hs] at this
      cases this
    have htake : List.takeWhile (fun x => x != s) rest = [] ∧
        List.dropWhile (fun x => x != s) rest = rest := by
      rcases hrest with h | ⟨more, h⟩
      · subst h; exact ⟨rfl, rfl⟩
      · subst h; simp
    cases hd : t.data with
    | nil =>
      rw [List.nil_append]
      rcases hrest with h | ⟨more, h⟩
      · subst h; rfl
      · subst h
        simp [readValue, hq]
    | cons c cs =>
      have hc : c ≠ '"' := by
        intro e
        have := hall c (by rw [hd]; simp)
        rw [e] at this
        exact absurd this (by decide)
      have hne2 : ∀ x, x ∈ c :: cs → (fun x => x != s) x = true := by
        intro x hx; exact hne x (by rw [hd]; exact hx)
      show readValue s (c :: (cs ++ rest)) = _
      simp only [readValue, hc, if_false]
      have e : c :: (cs ++ rest) = (c :: cs) ++ rest := rfl
      rw [e, List.takeWhile_append_of_pos hne2, List.dropWhile_append_of_pos hne2,
        htake.1, htake.2]
      simp

theorem intercalate_cons_cons {α : Type} (sep : List α) (x y : List α) (rest : List (List α)) :
    List.intercalate sep (x :: y :: rest) = x ++ (sep ++ List.intercalate sep (y :: rest)) := by
  simp [List.intercalate, List.intersperse]

theorem readKey_spec (d s : Char) (k : String) (after : List Char)
    (hd : d ∉ k.data) (hs : s ∉ k.data) :
    List.takeWhile (fun c => c != d && c != s) (k.data ++ d :: after) = k.data ∧
    List.dropWhile (fun c => c != d && c != s) (k.data ++ d :: after) = d :: after := by
  have hall : ∀ a, a ∈ k.data → (fun c => c != d && c != s) a = true := by
    intro a ha
    simp only [Bool.and_eq_true, bne_iff_ne, ne_eq]
    exact ⟨fun e => hd (e ▸ ha), fun e => hs (e ▸ ha)⟩
  rw [List.takeWhile_append_of_pos hall, List.dropWhile_append_of_pos hall]
  simp

theorem parseEntries_encoded (d s : Char) (hs : needsQuote s = true) (hq : s ≠ '"') :
    ∀ (es : List (String × String)), es ≠ [] →
      (∀ e, e ∈ es → d ∉ e.1.data ∧ s ∉ e.1.data) →
      ∀ fuel : Nat,
        (List.intercalate [s]
          (es.map (fun e => e.1.data ++ d :: (writeText e.2).data))).length < fuel →
        parseEntries d s fuel (List.intercalate [s]
          (es.map (fun e => e.1.data ++ d :: (writeText e.2).data))) = some es := by
  intro es
  induction es with
  | nil => intro h; exact absurd rfl h
  | cons e rest ih =>
    intro _ hkeys fuel hfuel
    obtain ⟨k, t⟩ := e
    have hk := hkeys (k, t) (by simp)
    cases fuel with
    | zero => omega
    | succ f =>
      cases rest with
      | nil =>
        have hin : List.intercalate [s]
            (List.map (fun e => e.1.data ++ d :: (writeText e.2).data) [(k, t)])
            = k.data ++ d :: ((writeText t).data ++ []) := by
          simp [List.intercalate]
        rw [hin]
        obtain ⟨h1, h2⟩ := readKey_spec d s k ((writeText t).data ++ []) hk.1 hk.2
        simp only [parseEntries, h1, h2, if_true,
          readValue_writeText s hs hq t [] (Or.inl rfl)]
      | cons e2 rest2 =>
        have hin : List.intercalate [s]
            (List.map (fun e => e.1.data ++ d :: (writeText e.2).data) ((k, t) :: e2 :: rest2))
            = k.data ++ d :: ((writeText t).data ++ s :: List.intercalate [s]
                (List.map (fun e => e.1.data ++ d :: (writeText e.2).data) (e2 :: rest2))) := by
          rw [List.map_cons, List.map_cons, intercalate_cons_cons]
          simp
        rw [hin] at hfuel ⊢
        obtain ⟨h1, h2⟩ := readKey_spec d s k ((writeText t).data ++ s :: List.intercalate [s]
            (List.map (fun e => e.1.data ++ d :: (writeText e.2).data) (e2 :: rest2)))
          hk.1 hk.2
        have hih := ih (by simp) (fun e he => hkeys e (List.mem_cons_of_mem _ he)) f (by
          simp only [List.length_append, List.length_cons] at hfuel
          omega)
        simp only [parseEntries, h1, h2, if_true,
          readValue_writeText s hs hq t _ (Or.inr ⟨_, rfl⟩), hih, Option.map_some']

theorem gatherKeys_eq (r : Fields)
    (hf : ∀ k, k ∈ Fields.keys r → k ∉ [KeyTime, KeyLevel, KeyMessage, KeyFile]) :
    gatherKeys r = Fields.keys r := by
  unfold gatherKeys
  apply List.filter_eq_self.mpr
  intro k hk
  have := hf k hk
  simp only [List.mem_cons, List.mem_singleton, List.not_mem_nil, or_false, not_or] at this
  simp [this.1, this.2.1, this.2.2.1]

theorem mem_sortStrings (l : List String) (k : String) : k ∈ sortStrings l ↔ k ∈ l :=
  (List.perm_insertionSort _ l).mem_iff

theorem parse_logfmtLine (d s : Char) (hs : needsQuote s = true) (hq : s ≠ '"')
    (r : Fields) (text : String → String)
    (hkeys : ∀ k, k ∈ logfmtKeys r → s ∉ k.data ∧ d ∉ k.data) :
    parseLogfmt d s (logfmtLine d s (fun k => writeText (text k)) r)
      = some ((logfmtKeys r).map (fun k => (k, text k))) := by
  have hline : (logfmtLine d s (fun k => writeText (text k)) r).data
      = List.intercalate [s] (((logfmtKeys r).map (fun k => (k, text k))).map
          (fun e => e.1.data ++ d :: (writeText e.2).data)) ++ ['\n'] := by
    unfold logfmtLine
    rw [String.data_append, join_intersperse_data, List.map_map, List.map_map]
    congr 2
    apply List.map_congr_left
    intro k _
    simp [String.data_append, String.data_push]
  have hlen : (logfmtLine d s (fun k => writeText (text k)) r).length
      = (List.intercalate [s] (((logfmtKeys r).map (fun k => (k, text k))).map
          (fun e => e.1.data ++ d :: (writeText e.2).data))).length + 1 := by
    show (logfmtLine d s (fun k => writeText (text k)) r).data.length = _
    rw [hline]; simp
  unfold parseLogfmt
  rw [hlen, hline, List.dropLast_concat]
  refine parseEntries_encoded d s hs hq _ (by simp [logfmtKeys]) (fun e he => ?_) _
    (Nat.lt_succ_self _)
  obtain ⟨k, hk, rfl⟩ := List.mem_map.mp he
  exact ⟨(hkeys k hk).2, (hkeys k hk).1⟩

/-- C26 (as amended): take a record with no field among `time`, `level`, `message` and
`file`, whose keys, like the three leading keys, hold neither the separator nor the
delimiter, and let `writeValue` write the text of a value (a string as it is, any other
value in its natural textual representation), between quotes when it needs them.  The
logfmt encoder writes its line, and the parser, which reads quoted values back, gives
for that line the three leading entries and then the keys of the record in sorted order,
each with the text of its value; so every field of the record is read back with its key
and the text of its value.  Hence two such records with the same line have the same
keys and, under every key, values with the same text. -/
theorem logfmt_round_trip {σ : Type} (lib : Lib) (o : logfmtOutput σ) (s : σ) (r : Fields)
    (natural : Value → String)
    (hw : ∀ v, lib.writeValue v = specWriteValue natural v)
    (hsep : needsQuote o.separator = true) (hq : o.separator ≠ '"')
    (hf : ∀ k, k ∈ Fields.keys r → k ∉ [KeyTime, KeyLevel, KeyMessage, KeyFile])
    (hkeys : ∀ k, k ∈ logfmtKeys r → o.separator ∉ k.data ∧ o.delimiter ∉ k.data) :
    o.Write lib s r = o.w.Write s (logfmtLine o.delimiter o.separator
      (fun k => writeText (valueText natural (Fields.index r k))) r) ∧
    parseLogfmt o.delimiter o.separator (logfmtLine o.delimiter o.separator
        (fun k => writeText (valueText natural (Fields.index r k))) r)
      = some (([KeyLevel, KeyMessage, KeyTime] ++ sortStrings (Fields.keys r)).map
          (fun k => (k, valueText natural (Fields.index r k)))) ∧
    (∀ k v, Fields.get r k = some v →
      (k, valueText natural v) ∈
        ([KeyLevel, KeyMessage, KeyTime] ++ sortStrings (Fields.keys r)).map
          (fun k => (k, valueText natural (Fields.index r k)))) ∧
    (∀ r2 : Fields,
      (∀ k, k ∈ Fields.keys r2 → k ∉ [KeyTime, KeyLevel, KeyMessage, KeyFile]) →
      (∀ k, k ∈ logfmtKeys r2 → o.separator ∉ k.data ∧ o.delimiter ∉ k.data) →
      logfmtLine o.delimiter o.separator
          (fun k => writeText (valueText natural (Fields.index r2 k))) r2
        = logfmtLine o.delimiter o.separator
          (fun k => writeText (valueText natural (Fields.index r k))) r →
      (∀ k, k ∈ Fields.keys r2 ↔ k ∈ Fields.keys r) ∧
      (∀ k, k ∈ Fields.keys r →
        valueText natural (Fields.index r2 k) = valueText natural (Fields.index r k))) := by
  have hkeyseq : ∀ (x : Fields),
      (∀ k, k ∈ Fields.keys x → k ∉ [KeyTime, KeyLevel, KeyMessage, KeyFile]) →
      logfmtKeys x = [KeyLevel, KeyMessage, KeyTime] ++ sortStrings (Fields.keys x) := by
    intro x hx
    unfold logfmtKeys
    rw [gatherKeys_eq x hx]
  have hparse := parse_logfmtLine o.delimiter o.separator hsep hq r
    (fun k => valueText natural (Fields.index r k)) hkeys
  rw [hkeyseq r hf] at hparse
  refine ⟨?_, hparse, fun k v hk => ?_, fun r2 hf2 hkeys2 hline => ?_⟩
  · have hl := logfmt_loop_ok lib o r
      (fun k => writeText (valueText natural (Fields.index r k)))
      ([KeyLevel, KeyMessage, KeyTime] ++ sortStrings (gatherKeys r)) "" (by simp)
      (fun k _ => by rw [hw]; rfl)
    unfold logfmtOutput.Write
    rw [hl]
    simp [logfmtLine, logfmtKeys]
  · have hmem : k ∈ [KeyLevel, KeyMessage, KeyTime] ++ sortStrings (Fields.keys r) :=
      List.mem_append_right _
        ((mem_sortStrings _ k).mpr (Fields.mem_keys_of_get r k v hk))
    refine List.mem_map.mpr ⟨k, hmem, ?_⟩
    simp [Fields.index, hk]
  · have hparse2 := parse_logfmtLine o.delimiter o.separator hsep hq r2
      (fun k => valueText natural (Fields.index r2 k)) hkeys2
    rw [hkeyseq r2 hf2, hline, hparse] at hparse2
    injection hparse2 with hparse2
    have hsorted : sortStrings (Fields.keys r) = sortStrings (Fields.keys r2) := by
      have hfst := congrArg (List.map Prod.fst) hparse2
      simpa [List.map_map, Function.comp_def] using hfst
    refine ⟨fun k => ?_, fun k hk => ?_⟩
    · rw [← mem_sortStrings (Fields.keys r2) k, ← hsorted, mem_sortStrings]
    · rw [← hsorted] at hparse2
      have hall := List.map_inj_left.mp hparse2 k
        (List.mem_append_right _ ((mem_sortStrings _ k).mpr hk))
      exact (congrArg Prod.snd hall).symm

/-- C26, witness: the record with the text `x "y" z` under `a` and the number 2 under
`b`, written with delimiter `=` and separator a space: the text is written between
quotes, and the line is read back. -/
theorem logfmt_round_trip_witness :
    exampleLogfmt.Write specLib [] quotedRecord
      = (["level=null message=null time=null a=\"x \\\"y\\\" z\" b=2\n"], none) ∧
    parseLogfmt '=' ' ' "level=null message=null time=null a=\"x \\\"y\\\" z\" b=2\n"
      = some [("level", "null"), ("message", "null"), ("time", "null"),
          ("a", "x \"y\" z"), ("b", "2")] := by
  have hks : logfmtKeys quotedRecord = ["level", "message", "time", "a", "b"] := by decide
  have h := logfmt_round_trip specLib exampleLogfmt [] quotedRecord testNatural
    (fun _ => rfl) (by decide) (by decide) (by decide) (by
      intro k hk
      rw [hks] at hk
      simp only [List.mem_cons, List.mem_singleton, List.not_mem_nil, or_false] at hk
      rcases hk with h | h | h | h | h <;> subst h <;> exact ⟨by decide, by decide⟩)
  have hline : logfmtLine exampleLogfmt.delimiter exampleLogfmt.separator
      (fun k => writeText (valueText testNatural (Fields.index quotedRecord k)))
      quotedRecord = "level=null message=null time=null a=\"x \\\"y\\\" z\" b=2\n" := by
    decide
  have hsort : sortStrings (Fields.keys quotedRecord) = ["a", "b"] := by decide
  refine ⟨?_, ?_⟩
  · rw [h.1, hline]; rfl
  · have h2 := h.2.1
    rw [hline, hsort] at h2
    exact h2

/-- C26, counterexample: written with delimiter `=` and separator a space, the record
with the one field `a=1 b` (value `2`) and the record with the two fields `a` (value `1`)
and `b` (value `2`) give the same line; so do the record with the number 1 under `a` and
the record with the string `1` under `a`. -/
theorem logfmt_same_bytes_counterexample :
    exampleLogfmt.Write specLib [] oddKeyRecord
      = (["level=null message=null time=null a=1 b=2\n"], none) ∧
    exampleLogfmt.Write specLib [] twoKeyRecord
      = (["level=null message=null time=null a=1 b=2\n"], none) ∧
    Fields.keys oddKeyRecord = ["a=1 b"] ∧ Fields.keys twoKeyRecord = ["a", "b"] ∧
    exampleLogfmt.Write specLib [] intRecord
      = (["level=null message=null time=null a=1\n"], none) ∧
    exampleLogfmt.Write specLib [] strRecord
      = (["level=null message=null time=null a=1\n"], none) ∧
    Fields.get intRecord "a" = some (Value.int 1) ∧
    Fields.get strRecord "a" = some (Value.str "1") := by
  refine ⟨?_, ?_, rfl, rfl, ?_, ?_, rfl, rfl⟩
  · have hks : sortStrings (gatherKeys oddKeyRecord) = ["a=1 b"] := by decide
    unfold logfmtOutput.Write
    rw [hks]; rfl
  · have hks : sortStrings (gatherKeys twoKeyRecord) = ["a", "b"] := by decide
    unfold logfmtOutput.Write
    rw [hks]; rfl
  · have hks : sortStrings (gatherKeys intRecord) = ["a"] := by decide
    unfold logfmtOutput.Write
    rw [hks]; rfl
  · have hks : sortStrings (gatherKeys strRecord) = ["a"] := by decide
    unfold logfmtOutput.Write
    rw [hks]; rfl


/-! ## Theorems: trimming twice -/

theorem trimValue_str (k : Nat) (str : String) :
    trimValue k (Value.str str) = Value.str (str.take k) := by
  by_cases h : k < str.length
  · unfold trimValue; simp [h]
  · have hl : str.length = str.data.length := rfl
    have e : str.take k = str := by
      apply String.ext
      rw [String.data_take]
      exact List.take_of_length_le (by omega)
    unfold trimValue; simp [h, e]

theorem trimValue_comp (m n : Nat) (v : Value) :
    trimValue m (trimValue n v) = trimValue (min m n) v := by
  cases v with
  | str str =>
    rw [trimValue_str n, trimValue_str m, trimValue_str (min m n)]
    congr 1
    apply String.ext
    rw [String.data_take, String.data_take, String.data_take, List.take_take]
  | _ => rfl

theorem trimLoop_get (maxLen : Nat) (r : Fields) (hr : (Fields.keys r).Nodup) (k : String) :
    Fields.get (trimLoop maxLen r) k = (Fields.get r k).map (trimValue maxLen) := by
  obtain ⟨_, h2⟩ := trimLoop_aux maxLen r r hr (fun k hk => hk)
  unfold trimLoop
  rw [h2 k]
  cases hg : Fields.get r k with
  | none => rfl
  | some v =>
    cases v with
    | str str =>
      by_cases h : maxLen < str.length
      · simp [trimmed, trimValue, h]
      · simp [trimmed, trimValue, h]
    | _ => simp [trimmed, trimValue]

theorem trimLoop_keys (maxLen : Nat) (r : Fields) (hr : (Fields.keys r).Nodup) :
    Fields.keys (trimLoop maxLen r) = Fields.keys r :=
  (trimLoop_aux maxLen r r hr (fun _ hk => hk)).1

theorem Fields.eq_of_keys_get :
    ∀ (a b : Fields), Fields.keys a = Fields.keys b → (Fields.keys a).Nodup →
      (∀ k, Fields.get a k = Fields.get b k) → a = b := by
  intro a
  induction a with
  | nil =>
    intro b hk _ _
    cases b with
    | nil => rfl
    | cons x rest => simp [Fields.keys] at hk
  | cons x rest ih =>
    intro b hk hn hg
    cases b with
    | nil => simp [Fields.keys] at hk
    | cons y rest2 =>
      obtain ⟨k1, v1⟩ := x
      obtain ⟨k2, v2⟩ := y
      simp only [Fields.keys, List.map_cons, List.cons.injEq] at hk
      obtain ⟨hk1, hk2⟩ := hk
      subst hk1
      simp only [Fields.keys, List.map_cons, List.nodup_cons] at hn
      have hv : v1 = v2 := by
        have := hg k1
        simp only [Fields.get, if_true, Option.some.injEq] at this
        exact this
      subst hv
      have hrest : rest = rest2 := by
        refine ih rest2 hk2 hn.2 (fun k => ?_)
        by_cases hkk : k1 = k
        · subst hkk
          rw [Fields.get_eq_none rest k1 hn.1,
            Fields.get_eq_none rest2 k1 (by
              have h2 : Fields.keys rest2 = List.map Prod.fst rest := hk2.symm
              rw [h2]; exact hn.1)]
        · have := hg k
          simp only [Fields.get, hkk, if_false] at this
          exact this
      rw [hrest]

/-- C32: for a record `r` (a map: each key once) the loop of `NewTrimOutput(m)` run on
the record the loop of `NewTrimOutput(n)` made of `r` gives the record the loop of
`NewTrimOutput(min(m, n))` makes of `r`; with the same length twice it gives the record
of one run; and `NewTrimOutput(n, NewTrimOutput(m, next))` hands `next` the record, and
returns the result, of `NewTrimOutput(min(m, n), next)`. -/
theorem trim_composes {σ : Type} (m n : Nat) (next : Output σ Fields) (s : σ) (r : Fields)
    (hr : (Fields.keys r).Nodup) :
    trimLoop m (trimLoop n r) = trimLoop (min m n) r ∧
    trimLoop n (trimLoop n r) = trimLoop n r ∧
    (NewTrimOutput n (NewTrimOutput m next)).Write s r
      = (NewTrimOutput (min m n) next).Write s r := by
  have key : ∀ a b : Nat, trimLoop a (trimLoop b r) = trimLoop (min a b) r := by
    intro a b
    have hkb := trimLoop_keys b r hr
    have hnb : (Fields.keys (trimLoop b r)).Nodup := by rw [hkb]; exact hr
    refine Fields.eq_of_keys_get _ _ ?_ ?_ (fun k => ?_)
    · rw [trimLoop_keys a _ hnb, hkb, trimLoop_keys (min a b) r hr]
    · rw [trimLoop_keys a _ hnb]; exact hnb
    · rw [trimLoop_get a _ hnb, trimLoop_get b r hr, trimLoop_get (min a b) r hr,
        Option.map_map]
      cases Fields.get r k with
      | none => rfl
      | some v => simp [trimValue_comp]
  refine ⟨key m n, ?_, ?_⟩
  · have := key n n
    rwa [Nat.min_self] at this
  · show next.Write s (trimLoop m (trimLoop n r)) = next.Write s (trimLoop (min m n) r)
    rw [key m n]

/-- C32, witness: trimming to 5 bytes the record that trimming to 3 bytes made of the
record with `msg = abcdefgh`, `foo = bar` and the number `n` gives the record trimmed to
3 bytes, in which `msg` is `abc`. -/
theorem trim_composes_witness :
    trimLoop 5 (trimLoop 3
        [("msg", Value.str "abcdefgh"), ("foo", Value.str "bar"), ("n", Value.int 123456)])
      = trimLoop (min 5 3)
        [("msg", Value.str "abcdefgh"), ("foo", Value.str "bar"), ("n", Value.int 123456)] ∧
    trimLoop (min 5 3)
        [("msg", Value.str "abcdefgh"), ("foo", Value.str "bar"), ("n", Value.int 123456)]
      = [("msg", Value.str "abc"), ("foo", Value.str "bar"), ("n", Value.int 123456)] :=
  ⟨(trim_composes 5 3 RecorderOutput []
      [("msg", Value.str "abcdefgh"), ("foo", Value.str "bar"), ("n", Value.int 123456)]
      (by simp [Fields.keys])).1, rfl⟩


/-! ## Theorems: the order of the entries in the logstash encoder -/

theorem logstash_last (lib : Lib) (a c : Fields) (x : String × Value) (d : Fields)
    (hc : ∀ kv, kv ∈ c → logstashKey kv.1 ≠ logstashKey x.1) :
    Fields.get ((a ++ x :: c).foldl (logstashStep lib) d) (logstashKey x.1)
      = some (logstashStored lib x.1 x.2) := by
  rw [List.foldl_append, List.foldl_cons, logstash_foldl_other lib c _ _ hc, logstashStep_eq,
    Fields.get_set_eq]

theorem logstashKey_nodup_or (r : Fields) (hr : (Fields.keys r).Nodup)
    (h : ¬ (KeyTime ∈ Fields.keys r ∧ "@timestamp" ∈ Fields.keys r)) :
    ((Fields.keys r).map logstashKey).Nodup := by
  by_cases ht : "@timestamp" ∈ Fields.keys r
  · have hnt : KeyTime ∉ Fields.keys r := fun hk => h ⟨hk, ht⟩
    have e : (Fields.keys r).map logstashKey = Fields.keys r := by
      conv_rhs => rw [← List.map_id (Fields.keys r)]
      apply List.map_congr_left
      intro k hk
      have hne : k ≠ KeyTime := fun e => hnt (e ▸ hk)
      simp [logstashKey, hne]
    rw [e]; exact hr
  · exact logstashKey_nodup r hr ht

theorem logstash_perm_get (lib : Lib) (r r2 : Fields) (hperm : r2.Perm r)
    (hn : ((Fields.keys r).map logstashKey).Nodup) (d : Fields) (k : String) :
    Fields.get (r2.foldl (logstashStep lib) d) k
      = Fields.get (r.foldl (logstashStep lib) d) k := by
  have hn2 : ((Fields.keys r2).map logstashKey).Nodup :=
    (((hperm.map Prod.fst).map logstashKey).nodup_iff).mpr hn
  by_cases h : ∃ kv, kv ∈ r ∧ logstashKey kv.1 = k
  · obtain ⟨kv, hkv, e⟩ := h
    obtain ⟨k0, v0⟩ := kv
    subst e
    rw [logstash_foldl_entry lib r d k0 v0 hn hkv,
      logstash_foldl_entry lib r2 d k0 v0 hn2 (hperm.mem_iff.mpr hkv)]
  · have h1 : ∀ kv, kv ∈ r → logstashKey kv.1 ≠ k := fun kv hkv e => h ⟨kv, hkv, e⟩
    have h2 : ∀ kv, kv ∈ r2 → logstashKey kv.1 ≠ k := fun kv hkv e =>
      h ⟨kv, hperm.mem_iff.mp hkv, e⟩
    rw [logstash_foldl_other lib r d k h1, logstash_foldl_other lib r2 d k h2]

theorem two_split {α : Type} (r : List α) (x y : α) (hx : x ∈ r) (hy : y ∈ r)
    (hne : y ≠ x) :
    ∃ a b c, r = a ++ x :: (b ++ y :: c) ∨ r = a ++ y :: (b ++ x :: c) := by
  obtain ⟨a, t, e⟩ := List.append_of_mem hx
  rw [e] at hy
  rcases List.mem_append.mp hy with h | h
  · obtain ⟨a1, b1, e1⟩ := List.append_of_mem h
    exact ⟨a1, b1, t, Or.inr (by rw [e, e1]; simp)⟩
  · rcases List.mem_cons.mp h with h | h
    · exact absurd h hne
    · obtain ⟨b, c, e1⟩ := List.append_of_mem h
      exact ⟨a, b, c, Or.inl (by rw [e, e1])⟩

theorem nodup_two_split {α : Type} (a b c : List α) (x y : α)
    (hn : (a ++ x :: (b ++ y :: c)).Nodup) (z : α) (hz : z ∈ a ∨ z ∈ b ∨ z ∈ c) :
    z ≠ x ∧ z ≠ y := by
  have h1 := List.nodup_middle.mp hn
  rw [List.nodup_cons] at h1
  have h2 : ((a ++ b) ++ y :: c).Nodup := by
    have := h1.2
    rwa [← List.append_assoc] at this
  have h3 := List.nodup_middle.mp h2
  rw [List.nodup_cons] at h3
  refine ⟨fun e => h1.1 ?_, fun e => h3.1 ?_⟩
  · rw [← e]
    rcases hz with h | h | h
    · exact List.mem_append_left _ h
    · exact List.mem_append_right _ (List.mem_append_left _ h)
    · exact List.mem_append_right _ (List.mem_append_right _ (List.mem_cons_of_mem _ h))
  · rw [← e]
    rcases hz with h | h | h
    · exact List.mem_append_left _ (List.mem_append_left _ h)
    · exact List.mem_append_left _ (List.mem_append_right _ h)
    · exact List.mem_append_right _ h

theorem logstash_order_form (lib : Lib) (a b c : Fields) (x y : String × Value)
    (d : Fields) (hn : (Fields.keys (a ++ x :: (b ++ y :: c))).Nodup)
    (hxy : logstashKey x.1 = logstashKey y.1)
    (honly : ∀ k, k ≠ x.1 → k ≠ y.1 → logstashKey k ≠ logstashKey y.1) :
    Fields.get ((a ++ x :: (b ++ y :: c)).foldl (logstashStep lib) d) (logstashKey y.1)
      = some (logstashStored lib y.1 y.2) ∧
    Fields.get ((a ++ x :: (b ++ y :: c)).reverse.foldl (logstashStep lib) d)
        (logstashKey y.1)
      = some (logstashStored lib x.1 x.2) := by
  have hkeys : Fields.keys (a ++ x :: (b ++ y :: c))
      = Fields.keys a ++ x.1 :: (Fields.keys b ++ y.1 :: Fields.keys c) := by
    simp [Fields.keys]
  rw [hkeys] at hn
  have hother : ∀ kv, kv ∈ a ∨ kv ∈ b ∨ kv ∈ c → logstashKey kv.1 ≠ logstashKey y.1 := by
    intro kv hkv
    have hmem : kv.1 ∈ Fields.keys a ∨ kv.1 ∈ Fields.keys b ∨ kv.1 ∈ Fields.keys c := by
      rcases hkv with h | h | h
      · exact Or.inl (List.mem_map.mpr ⟨kv, h, rfl⟩)
      · exact Or.inr (Or.inl (List.mem_map.mpr ⟨kv, h, rfl⟩))
      · exact Or.inr (Or.inr (List.mem_map.mpr ⟨kv, h, rfl⟩))
    obtain ⟨h1, h2⟩ := nodup_two_split _ _ _ _ _ hn kv.1 hmem
    exact honly kv.1 h1 h2
  refine ⟨?_, ?_⟩
  · have e : a ++ x :: (b ++ y :: c) = (a ++ x :: b) ++ y :: c := by simp
    rw [e]
    exact logstash_last lib _ c y d (fun kv hkv => hother kv (Or.inr (Or.inr hkv)))
  · have e : (a ++ x :: (b ++ y :: c)).reverse
        = (c.reverse ++ y :: b.reverse) ++ x :: a.reverse := by simp
    rw [e, ← hxy]
    exact logstash_last lib _ a.reverse x d (fun kv hkv => by
      rw [hxy]; exact hother kv (Or.inl (List.mem_reverse.mp hkv)))

theorem logstash_both (lib : Lib) (r : Fields) (hr : (Fields.keys r).Nodup)
    (vt vs : Value) (hx : (KeyTime, vt) ∈ r) (hy : ("@timestamp", vs) ∈ r) :
    (Fields.get (logstashFields lib r) "@timestamp" = some (logstashValue lib vs) ∧
      Fields.get (logstashFields lib r.reverse) "@timestamp"
        = some (logstashValue lib vt)) ∨
    (Fields.get (logstashFields lib r) "@timestamp" = some (logstashValue lib vt) ∧
      Fields.get (logstashFields lib r.reverse) "@timestamp"
        = some (logstashValue lib vs)) := by
  have hk1 : logstashKey KeyTime = "@timestamp" := by simp [logstashKey]
  have hk2 : logstashKey "@timestamp" = "@timestamp" := by simp [logstashKey, KeyTime]
  have hs1 : logstashStored lib KeyTime vt = logstashValue lib vt := by
    simp [logstashStored, KeyTime, KeyLevel]
  have hs2 : logstashStored lib "@timestamp" vs = logstashValue lib vs := by
    simp [logstashStored, KeyLevel]
  have honly : ∀ k : String, k ≠ KeyTime → k ≠ "@timestamp" → logstashKey k ≠ "@timestamp" := by
    intro k h1 h2
    simp [logstashKey, h1, h2]
  have hne : (("@timestamp", vs) : String × Value) ≠ (KeyTime, vt) := by
    intro e
    have := congrArg Prod.fst e
    simp [KeyTime] at this
  obtain ⟨a, b, c, e | e⟩ := two_split r (KeyTime, vt) ("@timestamp", vs) hx hy hne
  · left
    rw [e] at hr
    have h := logstash_order_form lib a b c (KeyTime, vt) ("@timestamp", vs)
      [("@version", Value.int 1)] hr (by simp only [hk1, hk2])
      (fun k h1 h2 => by simp only [hk2]; exact honly k h1 h2)
    simp only [hk2, hs1, hs2] at h
    unfold logstashFields
    rw [e]
    exact h
  · right
    rw [e] at hr
    have h := logstash_order_form lib a b c ("@timestamp", vs) (KeyTime, vt)
      [("@version", Value.int 1)] hr (by simp only [hk1, hk2])
      (fun k h1 h2 => by simp only [hk1]; exact honly k h2 h1)
    simp only [hk1, hs1, hs2] at h
    unfold logstashFields
    rw [e]
    exact h

/-- C31 (as amended): two orders of visiting the entries of a record are two lists `r`
and `r2` with the same entries, each key once.  When the record does not hold both the
key `time` and the key `@timestamp`, the object the logstash encoder builds is the same
map for both orders, and so are the bytes written when `json.Marshal` depends on the map
only.  When the record holds `vt` under `time` and `vs` under `@timestamp`, the object
holds under `@timestamp`, in every order, what is stored for `vt` or what is stored for
`vs` (a timestamp is stored as its RFC3339 string), namely for the one visited last:
visiting in the opposite order gives the other one.  So the two orders give different
values under `@timestamp` when what is stored for `vt` and for `vs` differs, and the
same value when it does not. -/
theorem logstash_visiting_order {σ : Type} (lib : Lib) (w : Writer σ) (s : σ)
    (r r2 : Fields) (hr : (Fields.keys r).Nodup) (hperm : r2.Perm r) :
    (¬ (KeyTime ∈ Fields.keys r ∧ "@timestamp" ∈ Fields.keys r) →
      (∀ k, Fields.get (logstashFields lib r2) k = Fields.get (logstashFields lib r) k) ∧
      ((∀ m1 m2 : Fields, (∀ k, Fields.get m1 k = Fields.get m2 k) →
          lib.Marshal m1 = lib.Marshal m2) →
        (NewLogstashOutput lib w).Write s r2 = (NewLogstashOutput lib w).Write s r)) ∧
    (∀ vt vs, Fields.get r KeyTime = some vt → Fields.get r "@timestamp" = some vs →
      r.reverse.Perm r ∧
      (Fields.get (logstashFields lib r2) "@timestamp" = some (logstashValue lib vt) ∨
        Fields.get (logstashFields lib r2) "@timestamp" = some (logstashValue lib vs)) ∧
      ((Fields.get (logstashFields lib r) "@timestamp" = some (logstashValue lib vs) ∧
          Fields.get (logstashFields lib r.reverse) "@timestamp"
            = some (logstashValue lib vt)) ∨
        (Fields.get (logstashFields lib r) "@timestamp" = some (logstashValue lib vt) ∧
          Fields.get (logstashFields lib r.reverse) "@timestamp"
            = some (logstashValue lib vs))) ∧
      (logstashValue lib vt ≠ logstashValue lib vs →
        Fields.get (logstashFields lib r.reverse) "@timestamp"
          ≠ Fields.get (logstashFields lib r) "@timestamp") ∧
      (logstashValue lib vt = logstashValue lib vs →
        Fields.get (logstashFields lib r2) "@timestamp"
          = Fields.get (logstashFields lib r) "@timestamp")) := by
  refine ⟨fun hnot => ?_, fun vt vs ht hs => ?_⟩
  · have hget : ∀ k, Fields.get (logstashFields lib r2) k
        = Fields.get (logstashFields lib r) k := fun k =>
      logstash_perm_get lib r r2 hperm (logstashKey_nodup_or r hr hnot) _ k
    refine ⟨hget, fun hM => ?_⟩
    show (match lib.Marshal (logstashFields lib r2) with
        | Except.error e => (s, some e)
        | Except.ok b => w.Write s b)
      = (match lib.Marshal (logstashFields lib r) with
        | Except.error e => (s, some e)
        | Except.ok b => w.Write s b)
    rw [hM _ _ hget]
  · have hx := Fields.mem_of_get r KeyTime vt ht
    have hy := Fields.mem_of_get r "@timestamp" vs hs
    have hr2 : (Fields.keys r2).Nodup := ((hperm.map Prod.fst).nodup_iff).mpr hr
    have hboth := logstash_both lib r hr vt vs hx hy
    have hboth2 := logstash_both lib r2 hr2 vt vs (hperm.mem_iff.mpr hx)
      (hperm.mem_iff.mpr hy)
    have hany : Fields.get (logstashFields lib r2) "@timestamp"
          = some (logstashValue lib vt) ∨
        Fields.get (logstashFields lib r2) "@timestamp"
          = some (logstashValue lib vs) := by
      rcases hboth2 with h | h
      · exact Or.inr h.1
      · exact Or.inl h.1
    refine ⟨List.reverse_perm r, hany, hboth, fun hne => ?_, fun heq => ?_⟩
    · rcases hboth with h | h
      · rw [h.1, h.2]
        intro e; injection e with e1; exact hne e1
      · rw [h.1, h.2]
        intro e; injection e with e1; exact hne e1.symm
    · have hrv : Fields.get (logstashFields lib r) "@timestamp"
          = some (logstashValue lib vs) := by
        rcases hboth with h | h
        · exact h.1
        · rw [h.1, heq]
      rcases hany with h | h
      · rw [h, hrv, heq]
      · rw [h, hrv]

/-- C31, witness: the record with a timestamp under `time` and the string `custom` under
`@timestamp`, visited in its order and in the opposite order: the object holds `custom`
in the first case and the RFC3339 string of the timestamp in the second. -/
theorem logstash_visiting_order_witness :
    bothKeysRecord.reverse.Perm bothKeysRecord ∧
    Fields.get (logstashFields testLib bothKeysRecord) "@timestamp"
      = some (Value.str "custom") ∧
    Fields.get (logstashFields testLib bothKeysRecord.reverse) "@timestamp"
      = some (Value.str "2006-01-02T15:04:05Z") ∧
    Fields.get (logstashFields testLib bothKeysRecord.reverse) "@timestamp"
      ≠ Fields.get (logstashFields testLib bothKeysRecord) "@timestamp" := by
  have h := (logstash_visiting_order testLib recWriter [] bothKeysRecord
    bothKeysRecord.reverse (by decide) (List.reverse_perm _)).2
    (Value.time 0) (Value.str "custom") rfl rfl
  refine ⟨h.1, rfl, rfl, h.2.2.2.1 ?_⟩
  intro e
  injection e with e1
  exact absurd e1 (by decide)

/-- C31, counterexample: the record holds a timestamp under `time` and the RFC3339
string of that timestamp under `@timestamp`: two different values, and the object is the
same for both orders of visiting, with that string under `@timestamp`. -/
theorem logstash_same_stored_counterexample :
    Fields.get sameStoredRecord KeyTime = some (Value.time 0) ∧
    Fields.get sameStoredRecord "@timestamp" = some (Value.str "2006-01-02T15:04:05Z") ∧
    Value.time 0 ≠ Value.str "2006-01-02T15:04:05Z" ∧
    sameStoredRecord.reverse.Perm sameStoredRecord ∧
    logstashFields testLib sameStoredRecord
      = [("@version", Value.int 1), ("@timestamp", Value.str "2006-01-02T15:04:05Z")] ∧
    logstashFields testLib sameStoredRecord.reverse
      = [("@version", Value.int 1), ("@timestamp", Value.str "2006-01-02T15:04:05Z")] := by
  refine ⟨rfl, rfl, ?_, List.reverse_perm _, rfl, rfl⟩
  intro e; cases e

/-! ## Theorems: the goroutines, statement by statement -/

theorem perm_blocks {R : Type} (a b c d : List R) :
    List.Perm (a ++ (b ++ c) ++ d) (a ++ (c ++ b) ++ d) := by
  rw [← Multiset.coe_eq_coe]
  simp only [← Multiset.coe_add]
  abel

theorem perm_tail {R : Type} (a b c : List R) :
    List.Perm (a ++ b ++ c) (a ++ c ++ b) := by
  rw [← Multiset.coe_eq_coe]
  simp only [← Multiset.coe_add]
  abel

theorem step_write {σ R : Type} (o : Output σ R) (st : Interleaved (σ × List R) R) (r : R)
    (hinv : st.Inv) :
    ∃ st1 acc, step o.traced st (Move.write r) = some (st1, acc) ∧ st1.Inv ∧
      List.Perm (st1.chan.sink.2 ++ st1.pending ++ st1.chan.input)
        (st.chan.sink.2 ++ st.pending ++ st.chan.input ++ acc) ∧
      ((st.held = none ∨ st.flushing = none) →
        (st1.held = none ∨ st1.flushing = none) ∧
        st1.chan.sink.2 ++ st1.pending ++ st1.chan.input
          = st.chan.sink.2 ++ st.pending ++ st.chan.input ++ acc) := by
  obtain ⟨h1, h2, h3, h4⟩ := hinv
  by_cases ha : st.chan.input.length < st.chan.bufSize
  · refine ⟨{ st with chan := { st.chan with input := st.chan.input ++ [r] } }, [r],
      by simp [step, Interleaved.Write, ha], ⟨?_, h2, h3, h4⟩, ?_, fun hk => ⟨hk, ?_⟩⟩
    · simp only [List.length_append, List.length_singleton]; omega
    · simp [Interleaved.pending]
    · simp [Interleaved.pending]
  · by_cases hb : st.chan.bufSize = 0 ∧ st.chan.consumer = Consumer.ready
    · have hnil : st.chan.input = [] := by
        have : st.chan.input.length = 0 := by omega
        exact List.length_eq_zero.mp this
      have hheld : st.held = none := h3 (by rw [hb.2]; simp)
      have hfl : st.flushing = none := h4 hb.1
      refine ⟨{ st with chan := { st.chan with consumer := Consumer.running },
                        held := some r }, [r],
        by simp [step, Interleaved.Write, ha, hb], ⟨h1, ?_, ?_, h4⟩, ?_,
        fun _ => ⟨Or.inr hfl, ?_⟩⟩
      · intro _; simp
      · intro h; exact absurd rfl h
      · simp [Interleaved.pending, hnil, hheld, hfl]
      · simp [Interleaved.pending, hnil, hheld, hfl]
    · refine ⟨st, [], by simp [step, Interleaved.Write, ha, hb], ⟨h1, h2, h3, h4⟩,
        by simp, fun hk => ⟨hk, by simp⟩⟩

theorem step_arrive {σ R : Type} (o : Output σ R) (st : Interleaved (σ × List R) R)
    (hinv : st.Inv) :
    ∃ st1, step o.traced st Move.arrive = some (st1, []) ∧ st1.Inv ∧
      st1.held = st.held ∧ st1.flushing = st.flushing ∧
      st1.chan.sink = st.chan.sink ∧ st1.chan.input = st.chan.input := by
  obtain ⟨h1, h2, h3, h4⟩ := hinv
  cases hc : st.chan.consumer with
  | running =>
    cases hh : st.held with
    | none =>
      refine ⟨{ st with chan := { st.chan with consumer := Consumer.ready } },
        by simp [step, hc, hh], ⟨h1, ?_, ?_, h4⟩, hh, rfl, rfl, rfl⟩
      · intro _; simp
      · intro _; exact hh
    | some x =>
      exact ⟨st, by simp [step, hc, hh], ⟨h1, h2, h3, h4⟩, hh, rfl, rfl, rfl⟩
  | ready => exact ⟨st, by simp [step, hc], ⟨h1, h2, h3, h4⟩, rfl, rfl, rfl, rfl⟩
  | exited => exact ⟨st, by simp [step, hc], ⟨h1, h2, h3, h4⟩, rfl, rfl, rfl, rfl⟩

theorem step_receive {σ R : Type} (o : Output σ R) (st : Interleaved (σ × List R) R)
    (hinv : st.Inv) :
    ∃ st1, step o.traced st Move.receive = some (st1, []) ∧ st1.Inv ∧
      List.Perm (st1.chan.sink.2 ++ st1.pending ++ st1.chan.input)
        (st.chan.sink.2 ++ st.pending ++ st.chan.input) ∧
      ((st.held = none ∨ st.flushing = none) → st.flushing = none →
        (st1.held = none ∨ st1.flushing = none) ∧
        st1.chan.sink.2 ++ st1.pending ++ st1.chan.input
          = st.chan.sink.2 ++ st.pending ++ st.chan.input) := by
  obtain ⟨h1, h2, h3, h4⟩ := hinv
  have hsame : step o.traced st Move.receive = some (st, []) →
      ∃ st1, step o.traced st Move.receive = some (st1, []) ∧ st1.Inv ∧
        List.Perm (st1.chan.sink.2 ++ st1.pending ++ st1.chan.input)
          (st.chan.sink.2 ++ st.pending ++ st.chan.input) ∧
        ((st.held = none ∨ st.flushing = none) → st.flushing = none →
          (st1.held = none ∨ st1.flushing = none) ∧
          st1.chan.sink.2 ++ st1.pending ++ st1.chan.input
            = st.chan.sink.2 ++ st.pending ++ st.chan.input) := fun e =>
    ⟨st, e, ⟨h1, h2, h3, h4⟩, List.Perm.refl _, fun hk _ => ⟨hk, rfl⟩⟩
  by_cases hc : st.chan.consumer = Consumer.exited
  · exact hsame (by simp [step, hc])
  · by_cases hh : st.held = none
    · by_cases hi : st.chan.input = []
      · apply hsame
        cases hcc : st.chan.consumer <;> simp_all [step]
      · obtain ⟨msg, rest, hi2⟩ := List.exists_cons_of_ne_nil hi
        refine ⟨{ st with chan := { st.chan with input := rest,
                                                  consumer := Consumer.running },
                          held := some msg }, ?_, ⟨?_, ?_, ?_, h4⟩, ?_,
          fun _ hf => ⟨Or.inr hf, ?_⟩⟩
        · cases hcc : st.chan.consumer <;> simp_all [step]
        · have : st.chan.input.length ≤ st.chan.bufSize := h1
          rw [hi2] at this
          simp only [List.length_cons] at this
          show rest.length ≤ st.chan.bufSize
          omega
        · intro _; simp
        · intro h; exact absurd rfl h
        · show List.Perm (st.chan.sink.2 ++ ([msg] ++ st.flushing.toList) ++ rest)
            (st.chan.sink.2 ++ (st.held.toList ++ st.flushing.toList) ++ st.chan.input)
          rw [hh, hi2]
          refine (perm_blocks st.chan.sink.2 [msg] st.flushing.toList rest).trans ?_
          simp
        · show st.chan.sink.2 ++ ([msg] ++ st.flushing.toList) ++ rest
            = st.chan.sink.2 ++ (st.held.toList ++ st.flushing.toList) ++ st.chan.input
          rw [hh, hf, hi2]
          simp
    · apply hsame
      obtain ⟨x, hx⟩ := Option.ne_none_iff_exists'.mp hh
      cases hcc : st.chan.consumer <;> simp_all [step]

theorem step_handle {σ R : Type} (o : Output σ R) (st : Interleaved (σ × List R) R)
    (hinv : st.Inv) :
    ∃ st1, step o.traced st Move.handle = some (st1, []) ∧ st1.Inv ∧
      st1.chan.sink.2 ++ st1.pending ++ st1.chan.input
        = st.chan.sink.2 ++ st.pending ++ st.chan.input ∧
      ((st.held = none ∨ st.flushing = none) → (st1.held = none ∨ st1.flushing = none)) := by
  obtain ⟨h1, h2, h3, h4⟩ := hinv
  by_cases hh : st.held = none
  · exact ⟨st, by simp [step, hh], ⟨h1, h2, h3, h4⟩, rfl, fun hk => hk⟩
  · obtain ⟨msg, hx⟩ := Option.ne_none_iff_exists'.mp hh
    refine ⟨{ st with chan := deliver o.traced st.chan msg, held := none },
      by simp [step, hx], ⟨?_, ?_, fun _ => rfl, ?_⟩, ?_, fun _ => Or.inl rfl⟩
    · show (deliver o.traced st.chan msg).input.length ≤ (deliver o.traced st.chan msg).bufSize
      rw [deliver_input, deliver_bufSize]; exact h1
    · show (deliver o.traced st.chan msg).stopNil = false →
        (deliver o.traced st.chan msg).consumer ≠ Consumer.exited
      rw [deliver_stopNil, deliver_consumer]; exact h2
    · show (deliver o.traced st.chan msg).bufSize = 0 → st.flushing = none
      rw [deliver_bufSize]; exact h4
    · show (deliver o.traced st.chan msg).sink.2 ++ (([] : List R) ++ st.flushing.toList)
          ++ (deliver o.traced st.chan msg).input
        = st.chan.sink.2 ++ (st.held.toList ++ st.flushing.toList) ++ st.chan.input
      rw [deliver_traced, deliver_input, hx]
      simp

theorem step_flushTake {σ R : Type} (o : Output σ R) (st : Interleaved (σ × List R) R)
    (hinv : st.Inv) :
    ∃ st1, step o.traced st Move.flushTake = some (st1, []) ∧ st1.Inv ∧
      st1.chan.sink.2 ++ st1.pending ++ st1.chan.input
        = st.chan.sink.2 ++ st.pending ++ st.chan.input ∧
      ((st.held = none ∨ st.flushing = none) → st.held = none →
        (st1.held = none ∨ st1.flushing = none)) := by
  obtain ⟨h1, h2, h3, h4⟩ := hinv
  by_cases hf : st.flushing = none
  · by_cases hi : st.chan.input = []
    · exact ⟨st, by simp [step, hf, hi], ⟨h1, h2, h3, h4⟩, rfl, fun hk _ => hk⟩
    · obtain ⟨msg, rest, hi2⟩ := List.exists_cons_of_ne_nil hi
      have hlen : st.chan.input.length ≤ st.chan.bufSize := h1
      rw [hi2] at hlen
      simp only [List.length_cons] at hlen
      refine ⟨{ st with chan := { st.chan with input := rest }, flushing := some msg },
        by simp [step, hf, hi2], ⟨?_, h2, h3, ?_⟩, ?_, fun _ hh => Or.inl hh⟩
      · show rest.length ≤ st.chan.bufSize
        omega
      · intro hb
        have hb2 : st.chan.bufSize = 0 := hb
        omega
      · show st.chan.sink.2 ++ (st.held.toList ++ [msg]) ++ rest
          = st.chan.sink.2 ++ (st.held.toList ++ st.flushing.toList) ++ st.chan.input
        rw [hf, hi2]
        simp
  · obtain ⟨x, hx⟩ := Option.ne_none_iff_exists'.mp hf
    exact ⟨st, by simp [step, hx], ⟨h1, h2, h3, h4⟩, rfl, fun hk _ => hk⟩

theorem step_flushPut {σ R : Type} (o : Output σ R) (st : Interleaved (σ × List R) R)
    (hinv : st.Inv) :
    ∃ st1, step o.traced st Move.flushPut = some (st1, []) ∧ st1.Inv ∧
      List.Perm (st1.chan.sink.2 ++ st1.pending ++ st1.chan.input)
        (st.chan.sink.2 ++ st.pending ++ st.chan.input) ∧
      ((st.held = none ∨ st.flushing = none) →
        (st1.held = none ∨ st1.flushing = none) ∧
        st1.chan.sink.2 ++ st1.pending ++ st1.chan.input
          = st.chan.sink.2 ++ st.pending ++ st.chan.input) := by
  obtain ⟨h1, h2, h3, h4⟩ := hinv
  by_cases hf : st.flushing = none
  · exact ⟨st, by simp [step, hf], ⟨h1, h2, h3, h4⟩, List.Perm.refl _,
      fun hk => ⟨hk, rfl⟩⟩
  · obtain ⟨msg, hx⟩ := Option.ne_none_iff_exists'.mp hf
    refine ⟨{ st with chan := deliver o.traced st.chan msg, flushing := none },
      by simp [step, hx], ⟨?_, ?_, ?_, fun _ => rfl⟩, ?_, fun hk => ⟨Or.inr rfl, ?_⟩⟩
    · show (deliver o.traced st.chan msg).input.length ≤ (deliver o.traced st.chan msg).bufSize
      rw [deliver_input, deliver_bufSize]; exact h1
    · show (deliver o.traced st.chan msg).stopNil = false →
        (deliver o.traced st.chan msg).consumer ≠ Consumer.exited
      rw [deliver_stopNil, deliver_consumer]; exact h2
    · show (deliver o.traced st.chan msg).consumer ≠ Consumer.running → st.held = none
      rw [deliver_consumer]; exact h3
    · show List.Perm ((deliver o.traced st.chan msg).sink.2 ++ (st.held.toList ++ [])
          ++ (deliver o.traced st.chan msg).input)
        (st.chan.sink.2 ++ (st.held.toList ++ st.flushing.toList) ++ st.chan.input)
      rw [deliver_traced, deliver_input, hx]
      refine List.Perm.trans ?_ (perm_blocks st.chan.sink.2 [msg] st.held.toList st.chan.input)
      simp
    · have hh : st.held = none := by
        rcases hk with h | h
        · exact h
        · rw [hx] at h; cases h
      show (deliver o.traced st.chan msg).sink.2 ++ (st.held.toList ++ [])
          ++ (deliver o.traced st.chan msg).input
        = st.chan.sink.2 ++ (st.held.toList ++ st.flushing.toList) ++ st.chan.input
      rw [deliver_traced, deliver_input, hx, hh]
      simp

theorem step_close {σ R : Type} (o : Output σ R) (st : Interleaved (σ × List R) R)
    (hinv : st.Inv) :
    ∃ st1, step o.traced st Move.close = some (st1, []) ∧ st1.Inv ∧
      List.Perm (st1.chan.sink.2 ++ st1.pending ++ st1.chan.input)
        (st.chan.sink.2 ++ st.pending ++ st.chan.input) ∧
      ((st.held = none ∨ st.flushing = none) → st.flushing = none →
        (st1.held = none ∨ st1.flushing = none) ∧
        st1.chan.sink.2 ++ st1.pending ++ st1.chan.input
          = st.chan.sink.2 ++ st.pending ++ st.chan.input) := by
  obtain ⟨h1, h2, h3, h4⟩ := hinv
  by_cases hs : st.chan.stopNil = true
  · exact ⟨st, by simp [step, hs], ⟨h1, h2, h3, h4⟩, List.Perm.refl _,
      fun hk _ => ⟨hk, rfl⟩⟩
  · have hs2 : st.chan.stopNil = false := by simpa using hs
    have hc : st.chan.consumer ≠ Consumer.exited := h2 hs2
    have key : ∀ base : OutputChannel (σ × List R) R,
        base.bufSize = st.chan.bufSize → base.input = st.chan.input →
        base.sink.2 = st.chan.sink.2 ++ st.held.toList →
        step o.traced st Move.close
          = some ({ st with
              chan := OutputChannel.Flush o.traced
                { base with consumer := Consumer.exited, stopNil := true },
              held := none }, []) →
        ∃ st1, step o.traced st Move.close = some (st1, []) ∧ st1.Inv ∧
          List.Perm (st1.chan.sink.2 ++ st1.pending ++ st1.chan.input)
            (st.chan.sink.2 ++ st.pending ++ st.chan.input) ∧
          ((st.held = none ∨ st.flushing = none) → st.flushing = none →
            (st1.held = none ∨ st1.flushing = none) ∧
            st1.chan.sink.2 ++ st1.pending ++ st1.chan.input
              = st.chan.sink.2 ++ st.pending ++ st.chan.input) := by
      intro base hb hi hsk e
      obtain ⟨f1, _, f3⟩ := flushLoop_traced o base.input
        { base with consumer := Consumer.exited, stopNil := true }
      obtain ⟨_, g2, g3, _, _⟩ := flushLoop_frame o.traced base.input
        { base with consumer := Consumer.exited, stopNil := true }
      refine ⟨_, e, ⟨?_, ?_, fun _ => rfl, ?_⟩, ?_, fun _ hf => ⟨Or.inl rfl, ?_⟩⟩
      · show (OutputChannel.Flush o.traced _).input.length ≤ (OutputChannel.Flush o.traced _).bufSize
        unfold OutputChannel.Flush
        rw [f3]; simp
      · show (OutputChannel.Flush o.traced _).stopNil = false → _
        unfold OutputChannel.Flush
        rw [g3]
        intro h; cases h
      · show (OutputChannel.Flush o.traced _).bufSize = 0 → st.flushing = none
        unfold OutputChannel.Flush
        rw [g2]
        intro h; exact h4 (hb ▸ h)
      · show List.Perm ((OutputChannel.Flush o.traced _).sink.2 ++ (([] : List R)
            ++ st.flushing.toList) ++ (OutputChannel.Flush o.traced _).input)
          (st.chan.sink.2 ++ (st.held.toList ++ st.flushing.toList) ++ st.chan.input)
        unfold OutputChannel.Flush
        rw [f1, f3]
        show List.Perm (base.sink.2 ++ base.input ++ ([] ++ st.flushing.toList) ++ [])
          (st.chan.sink.2 ++ (st.held.toList ++ st.flushing.toList) ++ st.chan.input)
        rw [hsk, hi]
        have := perm_tail (st.chan.sink.2 ++ st.held.toList) st.chan.input st.flushing.toList
        refine List.Perm.trans ?_ (this.trans ?_)
        · simp
        · simp
      · show (OutputChannel.Flush o.traced _).sink.2 ++ (([] : List R)
            ++ st.flushing.toList) ++ (OutputChannel.Flush o.traced _).input
          = st.chan.sink.2 ++ (st.held.toList ++ st.flushing.toList) ++ st.chan.input
        unfold OutputChannel.Flush
        rw [f1, f3]
        show base.sink.2 ++ base.input ++ ([] ++ st.flushing.toList) ++ []
          = st.chan.sink.2 ++ (st.held.toList ++ st.flushing.toList) ++ st.chan.input
        rw [hsk, hi, hf]
        simp
    by_cases hh : st.held = none
    · exact key st.chan rfl rfl (by simp [hh]) (by simp [step, hs2, hc, hh])
    · obtain ⟨msg, hx⟩ := Option.ne_none_iff_exists'.mp hh
      exact key (deliver o.traced st.chan msg) (deliver_bufSize _ _ _) (deliver_input _ _ _)
        (by rw [deliver_traced, hx]; rfl) (by simp [step, hs2, hc, hx])

theorem step_spec {σ R : Type} (o : Output σ R) (st : Interleaved (σ × List R) R)
    (m : Move R) (hinv : st.Inv) :
    ∃ st1 acc, step o.traced st m = some (st1, acc) ∧ st1.Inv ∧
      List.Perm (st1.chan.sink.2 ++ st1.pending ++ st1.chan.input)
        (st.chan.sink.2 ++ st.pending ++ st.chan.input ++ acc) ∧
      ((st.held = none ∨ st.flushing = none) → exclusive st m = true →
        (st1.held = none ∨ st1.flushing = none) ∧
        st1.chan.sink.2 ++ st1.pending ++ st1.chan.input
          = st.chan.sink.2 ++ st.pending ++ st.chan.input ++ acc) ∧
      (m.insideWrite = true → acc = []) := by
  cases m with
  | write r =>
    obtain ⟨st1, acc, e, i, p, q⟩ := step_write o st r hinv
    exact ⟨st1, acc, e, i, p, fun hk _ => q hk, fun h => by simp [Move.insideWrite] at h⟩
  | arrive =>
    obtain ⟨st1, e, i, a1, a2, a3, a4⟩ := step_arrive o st hinv
    have hall : st1.chan.sink.2 ++ st1.pending ++ st1.chan.input
        = st.chan.sink.2 ++ st.pending ++ st.chan.input ++ [] := by
      simp [Interleaved.pending, a1, a2, a3, a4]
    refine ⟨st1, [], e, i, by rw [hall], fun hk _ => ⟨?_, hall⟩, fun _ => rfl⟩
    rw [a1, a2]; exact hk
  | receive =>
    obtain ⟨st1, e, i, p, q⟩ := step_receive o st hinv
    refine ⟨st1, [], e, i, by simpa using p, fun hk hx => ?_, fun _ => rfl⟩
    have hf : st.flushing = none := by
      simpa [exclusive, Option.isNone_iff_eq_none] using hx
    simpa using q hk hf
  | handle =>
    obtain ⟨st1, e, i, p, q⟩ := step_handle o st hinv
    exact ⟨st1, [], e, i, by rw [p]; simp, fun hk _ => ⟨q hk, by rw [p]; simp⟩,
      fun _ => rfl⟩
  | flushTake =>
    obtain ⟨st1, e, i, p, q⟩ := step_flushTake o st hinv
    refine ⟨st1, [], e, i, by rw [p]; simp, fun hk hx => ⟨q hk ?_, by rw [p]; simp⟩,
      fun _ => rfl⟩
    simpa [exclusive, Option.isNone_iff_eq_none] using hx
  | flushPut =>
    obtain ⟨st1, e, i, p, q⟩ := step_flushPut o st hinv
    exact ⟨st1, [], e, i, by simpa using p, fun hk _ => by simpa using q hk, fun _ => rfl⟩
  | close =>
    obtain ⟨st1, e, i, p, q⟩ := step_close o st hinv
    refine ⟨st1, [], e, i, by simpa using p, fun hk hx => ?_, fun _ => rfl⟩
    have hf : st.flushing = none := by
      simpa [exclusive, Option.isNone_iff_eq_none] using hx
    simpa using q hk hf

theorem steps_spec {σ R : Type} (o : Output σ R) (ms : List (Move R)) :
    ∀ st : Interleaved (σ × List R) R, st.Inv →
      ∃ st1 acc, steps o.traced st ms = some (st1, acc) ∧ st1.Inv ∧
        List.Perm (st1.chan.sink.2 ++ st1.pending ++ st1.chan.input)
          (st.chan.sink.2 ++ st.pending ++ st.chan.input ++ acc) ∧
        ((st.held = none ∨ st.flushing = none) → exclusiveRun o.traced st ms = true →
          (st1.held = none ∨ st1.flushing = none) ∧
          st1.chan.sink.2 ++ st1.pending ++ st1.chan.input
            = st.chan.sink.2 ++ st.pending ++ st.chan.input ++ acc) ∧
        ((∀ m, m ∈ ms → m.insideWrite = true) → acc = []) := by
  induction ms with
  | nil =>
    intro st hinv
    exact ⟨st, [], rfl, hinv, by simp, fun hk _ => ⟨hk, by simp⟩, fun _ => rfl⟩
  | cons m ms ih =>
    intro st hinv
    obtain ⟨st1, acc1, e1, i1, p1, q1, w1⟩ := step_spec o st m hinv
    obtain ⟨st2, acc2, e2, i2, p2, q2, w2⟩ := ih st1 i1
    refine ⟨st2, acc1 ++ acc2, by simp [steps, e1, e2], i2, ?_, fun hk hx => ?_,
      fun hm => ?_⟩
    · refine p2.trans ?_
      rw [← List.append_assoc]
      exact List.Perm.append_right _ p1
    · simp only [exclusiveRun, e1, Bool.and_eq_true] at hx
      obtain ⟨k1, a1⟩ := q1 hk hx.1
      obtain ⟨k2, a2⟩ := q2 k1 hx.2
      exact ⟨k2, by rw [a2, a1, List.append_assoc]⟩
    · rw [w1 (hm m (List.mem_cons_self _ _)),
        w2 (fun x hx => hm x (List.mem_cons_of_mem _ hx))]
      rfl

theorem fresh_inv {σ R : Type} (s : σ) (n : Nat) : (Interleaved.fresh s n : Interleaved σ R).Inv := by
  refine ⟨?_, ?_, ?_, ?_⟩ <;> simp [Interleaved.fresh, NewOutputChannelBuffer]

/-- C3 (as amended): from a fresh channel of any capacity, after any sequence of moves of
the goroutines (calls of `Write` and `Close`, the consumer receiving a record and
writing it, a caller of `Flush` receiving a record and writing it), every move has
returned, and the records passed so far to the output, the records received and not yet
written, and the queue hold together exactly the records whose `Write` returned nil:
none twice and none skipped.  They are these records in `Write` order whenever no
goroutine received a record from the queue while another held one it had yet to write
(the consumer during a `Flush`, a `Flush` or `Close` while the consumer or another
`Flush` held a record). -/
theorem accepted_records_interleaved {σ R : Type} (o : Output σ R) (s : σ) (n : Nat)
    (ms : List (Move R)) :
    ∃ st acc, steps o.traced (Interleaved.fresh (s, []) n) ms = some (st, acc) ∧
      List.Perm (st.chan.sink.2 ++ st.pending ++ st.chan.input) acc ∧
      (exclusiveRun o.traced (Interleaved.fresh (s, []) n) ms = true →
        st.chan.sink.2 ++ st.pending ++ st.chan.input = acc) := by
  obtain ⟨st, acc, e, _, p, q, _⟩ := steps_spec o ms (Interleaved.fresh (s, []) n)
    (fresh_inv _ _)
  refine ⟨st, acc, e, ?_, fun hx => ?_⟩
  · simpa [Interleaved.fresh, Interleaved.pending, NewOutputChannelBuffer] using p
  · have := (q (Or.inl rfl) hx).2
    simpa [Interleaved.fresh, Interleaved.pending, NewOutputChannelBuffer] using this

/-- C3, witness: two writes, the consumer receiving and writing the first record, and a
`Flush` that takes and writes the second one after that: the output has received the two
records in `Write` order. -/
theorem accepted_records_interleaved_witness :
    ∃ st acc, steps RecorderOutput.traced (Interleaved.fresh ([], []) 2)
        [Move.write (rec1 "n" "1"), Move.write (rec1 "n" "2"), Move.receive, Move.handle,
          Move.flushTake, Move.flushPut] = some (st, acc) ∧
      st.chan.sink.2 ++ st.pending ++ st.chan.input = acc ∧
      acc = [rec1 "n" "1", rec1 "n" "2"] := by
  obtain ⟨st, acc, e, _, h⟩ := accepted_records_interleaved RecorderOutput []
    2 [Move.write (rec1 "n" "1"), Move.write (rec1 "n" "2"), Move.receive, Move.handle,
      Move.flushTake, Move.flushPut]
  refine ⟨st, acc, e, h rfl, ?_⟩
  have e2 : steps RecorderOutput.traced (Interleaved.fresh ([], []) 2)
      [Move.write (rec1 "n" "1"), Move.write (rec1 "n" "2"), Move.receive, Move.handle,
        Move.flushTake, Move.flushPut]
      = some (⟨⟨2, [], ([rec1 "n" "1", rec1 "n" "2"], [rec1 "n" "1", rec1 "n" "2"]), false,
          Consumer.running, []⟩, none, none⟩, [rec1 "n" "1", rec1 "n" "2"]) := rfl
  rw [e2] at e
  injection e with e
  exact (congrArg Prod.snd e).symm

/-- C3, counterexample: the consumer receives the first record; before it has written it
a second record is queued and a `Flush` writes that one; then the consumer writes the
first.  The output has received the second record before the first, and the queue is
empty. -/
theorem Flush_overtakes_counterexample :
    (steps RecorderOutput.traced (Interleaved.fresh ([], []) 1)
        [Move.write (rec1 "n" "1"), Move.receive, Move.write (rec1 "n" "2"),
          Move.flushTake, Move.flushPut, Move.handle]).map
      (fun x => (x.1.chan.sink.2, x.1.pending, x.1.chan.input, x.2))
      = some ([rec1 "n" "2", rec1 "n" "1"], [], [], [rec1 "n" "1", rec1 "n" "2"]) ∧
    [rec1 "n" "2", rec1 "n" "1"] ++ ([] : List Fields) ≠ [rec1 "n" "1", rec1 "n" "2"] := by
  refine ⟨rfl, ?_⟩
  intro e
  have h := congrArg (fun l => l.head?.map (fun r => Fields.get r "n")) e
  simp only [rec1, List.append_nil, List.head?_cons, Option.map_some', Fields.get,
    if_true, Option.some.injEq] at h
  injection h with h
  exact absurd h (by decide)

theorem Interleaved.Write_step {σ R : Type} (o : Output σ R) (st : Interleaved σ R) (r : R) :
    (st.accepts → (Interleaved.Write st r).2 = none ∧
      step o st (Move.write r) = some ((Interleaved.Write st r).1, [r])) ∧
    (¬ st.accepts → Interleaved.Write st r = (st, some ErrBufferFull) ∧
      step o st (Move.write r) = some ((Interleaved.Write st r).1, [])) := by
  by_cases ha : st.chan.input.length < st.chan.bufSize
  · refine ⟨fun _ => ?_, fun hn => absurd (Or.inl ha) hn⟩
    simp [step, Interleaved.Write, ha]
  · by_cases hb : st.chan.bufSize = 0 ∧ st.chan.consumer = Consumer.ready
    · refine ⟨fun _ => ?_, fun hn => absurd (Or.inr hb) hn⟩
      simp [step, Interleaved.Write, ha, hb]
    · refine ⟨fun h => ?_, fun _ => ?_⟩
      · rcases h with h | h
        · exact absurd h ha
        · exact absurd h hb
      · simp [step, Interleaved.Write, ha, hb]

theorem Interleaved.Write_flushing {σ R : Type} (st : Interleaved σ R) (r : R) :
    (Interleaved.Write st r).1.flushing = st.flushing := by
  unfold Interleaved.Write
  split
  · rfl
  · split <;> rfl

theorem steps_cons_silent {σ R : Type} (o : Output σ R) (st st1 : Interleaved σ R)
    (m : Move R) (ms : List (Move R)) (h : step o st m = some (st1, [])) :
    steps o st (m :: ms) = steps o st1 ms := by
  simp only [steps, h]
  cases steps o st1 ms with
  | none => rfl
  | some x => obtain ⟨a, b⟩ := x; simp

theorem drain_by_flush {σ R : Type} (o : Output σ R) (k : Nat) :
    ∀ st : Interleaved σ R, st.chan.input.length = k → st.flushing = none →
      ∃ st1, steps o st (List.replicate k [Move.flushTake, Move.flushPut]).flatten
          = some (st1, []) ∧
        st1.chan.input = [] ∧ st1.flushing = none := by
  induction k with
  | zero =>
    intro st hk hf
    exact ⟨st, rfl, List.length_eq_zero.mp hk, hf⟩
  | succ k ih =>
    intro st hk hf
    obtain ⟨msg, rest, hi⟩ := List.exists_cons_of_ne_nil
      (fun e : st.chan.input = [] => by rw [e] at hk; simp at hk)
    have hrest : rest.length = k := by
      rw [hi] at hk; simpa using hk
    obtain ⟨st1, e1, i1, f1⟩ := ih
      { st with chan := deliver o { st.chan with input := rest } msg, flushing := none }
      (by show (deliver o { st.chan with input := rest } msg).input.length = k
          rw [deliver_input]; exact hrest) rfl
    refine ⟨st1, ?_, i1, f1⟩
    have ht : step o st Move.flushTake
        = some ({ st with chan := { st.chan with input := rest }, flushing := some msg },
            []) := by
      simp [step, hf, hi]
    have hp : step o
        ({ st with chan := { st.chan with input := rest }, flushing := some msg })
        Move.flushPut
        = some ({ st with chan := deliver o { st.chan with input := rest } msg,
                          flushing := none }, []) := by
      simp [step]
    have hl : (List.replicate (k + 1) [(Move.flushTake : Move R), Move.flushPut]).flatten
        = Move.flushTake :: Move.flushPut
            :: (List.replicate k [Move.flushTake, Move.flushPut]).flatten := by
      simp [List.replicate_succ]
    rw [hl, steps_cons_silent o _ _ _ _ ht, steps_cons_silent o _ _ _ _ hp, e1]

theorem mem_flush_pairs {R : Type} (k : Nat) (m : Move R)
    (h : m ∈ (List.replicate k [Move.flushTake, Move.flushPut]).flatten) :
    m.insideWrite = true := by
  induction k with
  | zero => simp at h
  | succ k ih =>
    simp only [List.replicate_succ, List.flatten_cons, List.cons_append, List.nil_append,
      List.mem_cons] at h
    rcases h with h | h | h
    · rw [h]; rfl
    · rw [h]; rfl
    · exact ih h

theorem WriteInterleaved_eq {τ : Type} (o : Output τ Fields)
    (l : logger (Interleaved τ Fields)) (env env1 : Env (Interleaved τ Fields))
    (caller : Option (String × Int)) (p : String) (ms : List (Move Fields))
    (st : Interleaved τ Fields) (acc : List Fields)
    (hs : l.send env Level.info caller (trimRightNewlines p) none = some env1)
    (hst : steps o env1.sink ms = some (st, acc)) :
    l.WriteInterleaved o env caller p ms
      = if st.chan.input.isEmpty && st.flushing.isNone then
          some (⟨st, env1.critical⟩, p.length, none)
        else none := by
  unfold logger.WriteInterleaved
  rw [hs]
  simp only []
  rw [hst]

/-- C23 (as amended): take a logger that has a time source, whose threshold admits info
and whose output is an `OutputChannel` in any state it reaches from its construction in
which no `Flush` is under way, and let no other goroutine call the channel during
`Write(p)`.  The call returns when its `Flush` is left to run.  Whatever the consumer
does meanwhile, when the call has returned the result is `(len(p), nil)`, the queue is
empty, and the records passed to the output together with the record the consumer holds
are those that had been passed, held or queued before, and with them the record of this
call when the channel took it: that record has been written, or the consumer has
received it and not yet written it.  When the queue was full the record is dropped, and
the drop is reported on the diagnostic logger. -/
theorem Write_interleaved {τ : Type} (o : Output τ Fields)
    (l : logger (Interleaved (τ × List Fields) Fields)) (s0 : τ) (n : Nat)
    (ms0 : List (Move Fields)) (st0 : Interleaved (τ × List Fields) Fields)
    (acc0 : List Fields) (crit : List String)
    (caller : Option (String × Int)) (p : String) (now : Unit → Int)
    (hout : l.output = some Interleaved.asOutput) (hnow : l.now = some now)
    (hlev : l.level.toNat ≤ Level.info.toNat)
    (hreach : steps o.traced (Interleaved.fresh (s0, []) n) ms0 = some (st0, acc0))
    (hidle : st0.flushing = none) :
    (∃ ms env2, (∀ m, m ∈ ms → m.insideWrite = true) ∧
      l.WriteInterleaved o.traced { sink := st0, critical := crit } caller p ms
        = some (env2, p.length, none)) ∧
    (∀ ms env2 n2 e2, (∀ m, m ∈ ms → m.insideWrite = true) →
      l.WriteInterleaved o.traced { sink := st0, critical := crit } caller p ms
        = some (env2, n2, e2) →
      n2 = p.length ∧ e2 = none ∧ env2.sink.chan.input = [] ∧ env2.sink.flushing = none ∧
      (st0.accepts →
        List.Perm (env2.sink.chan.sink.2 ++ env2.sink.held.toList)
          (st0.chan.sink.2 ++ st0.held.toList ++ st0.chan.input
            ++ [sendData l (now ()) Level.info caller (trimRightNewlines p) none]) ∧
        (sendData l (now ()) Level.info caller (trimRightNewlines p) none
            ∈ env2.sink.chan.sink.2 ∨
          env2.sink.held
            = some (sendData l (now ()) Level.info caller (trimRightNewlines p) none))) ∧
      (¬ st0.accepts →
        List.Perm (env2.sink.chan.sink.2 ++ env2.sink.held.toList)
          (st0.chan.sink.2 ++ st0.held.toList ++ st0.chan.input) ∧
        env2.critical = crit ++ [critialLine "send error: " ErrBufferFull])) := by
  have hinv0 : st0.Inv := by
    obtain ⟨st, acc, e, i, _⟩ := steps_spec o ms0 (Interleaved.fresh (s0, []) n)
      (fresh_inv _ _)
    rw [hreach] at e
    injection e with e
    have : st0 = st := congrArg Prod.fst e
    rw [this]; exact i
  have hsend := send_passes Interleaved.asOutput l { sink := st0, critical := crit }
    Level.info caller (trimRightNewlines p) none now hout hnow hlev
  obtain ⟨wa, wn⟩ := Interleaved.Write_step o.traced st0
    (sendData l (now ()) Level.info caller (trimRightNewlines p) none)
  obtain ⟨st1, acc1, e1, i1, p1, _, _⟩ := step_spec o st0
    (Move.write (sendData l (now ()) Level.info caller (trimRightNewlines p) none)) hinv0
  have hst1 : st1 = (Interleaved.Write st0
      (sendData l (now ()) Level.info caller (trimRightNewlines p) none)).1 := by
    by_cases ha : st0.accepts
    · rw [(wa ha).2] at e1
      injection e1 with e1
      exact (congrArg Prod.fst e1).symm
    · rw [(wn ha).2] at e1
      injection e1 with e1
      exact (congrArg Prod.fst e1).symm
  have hfl1 : st1.flushing = none := by
    rw [hst1, Interleaved.Write_flushing]; exact hidle
  have hall0 : st0.chan.sink.2 ++ st0.pending ++ st0.chan.input
      = st0.chan.sink.2 ++ st0.held.toList ++ st0.chan.input := by
    simp [Interleaved.pending, hidle]
  have hsend1 : l.send { sink := st0, critical := crit } Level.info caller
      (trimRightNewlines p) none
      = some ⟨st1, crit ++
          (match (Interleaved.Write st0
              (sendData l (now ()) Level.info caller (trimRightNewlines p) none)).2 with
            | none => []
            | some err => [critialLine "send error: " err])⟩ := by
    rw [hst1]; exact hsend
  refine ⟨?_, ?_⟩
  · obtain ⟨st2, e2, i2, f2⟩ := drain_by_flush o.traced st1.chan.input.length st1 rfl hfl1
    refine ⟨(List.replicate st1.chan.input.length
        [(Move.flushTake : Move Fields), Move.flushPut]).flatten, ⟨st2, crit ++
          (match (Interleaved.Write st0
              (sendData l (now ()) Level.info caller (trimRightNewlines p) none)).2 with
            | none => []
            | some err => [critialLine "send error: " err])⟩, mem_flush_pairs _, ?_⟩
    rw [WriteInterleaved_eq o.traced l _ _ caller p _ st2 [] hsend1 e2]
    simp only [i2, f2, List.isEmpty_nil, Option.isNone_none, Bool.and_self, if_true]
  · intro ms env2 n2 e2 hms hret
    obtain ⟨st2, acc2, es, i2, p2, _, w2⟩ := steps_spec o ms st1 i1
    have hacc2 : acc2 = [] := w2 hms
    rw [WriteInterleaved_eq o.traced l _ _ caller p ms st2 acc2 hsend1 es] at hret
    by_cases hdone : (st2.chan.input.isEmpty && st2.flushing.isNone) = true
    · rw [if_pos hdone] at hret
      injection hret with hret
      have henv : env2 = ⟨st2, crit ++
            (match (Interleaved.Write st0
                (sendData l (now ()) Level.info caller (trimRightNewlines p) none)).2 with
              | none => []
              | some err => [critialLine "send error: " err])⟩ :=
        (congrArg Prod.fst hret).symm
      have hn2 : n2 = p.length := (congrArg (fun x => x.2.1) hret).symm
      have he2 : e2 = none := (congrArg (fun x => x.2.2) hret).symm
      simp only [Bool.and_eq_true, List.isEmpty_iff, Option.isNone_iff_eq_none] at hdone
      obtain ⟨hin, hfl⟩ := hdone
      have hall2 : st2.chan.sink.2 ++ st2.pending ++ st2.chan.input
          = st2.chan.sink.2 ++ st2.held.toList := by
        simp [Interleaved.pending, hin, hfl]
      have hperm : List.Perm (st2.chan.sink.2 ++ st2.held.toList)
          (st0.chan.sink.2 ++ st0.held.toList ++ st0.chan.input ++ acc1) := by
        rw [← hall2, ← hall0]
        refine p2.trans ?_
        rw [hacc2, List.append_nil]
        exact p1
      rw [henv]
      refine ⟨hn2, he2, hin, hfl, fun ha => ?_, fun ha => ?_⟩
      · have hacc1 : acc1 = [sendData l (now ()) Level.info caller (trimRightNewlines p)
            none] := by
          have := (wa ha).2
          rw [this] at e1
          injection e1 with e1
          exact (congrArg Prod.snd e1).symm
        rw [hacc1] at hperm
        refine ⟨hperm, ?_⟩
        have hmem : sendData l (now ()) Level.info caller (trimRightNewlines p) none
            ∈ st2.chan.sink.2 ++ st2.held.toList :=
          hperm.mem_iff.mpr (by simp)
        rcases List.mem_append.mp hmem with h | h
        · exact Or.inl h
        · right
          cases hh : st2.held with
          | none => rw [hh] at h; simp at h
          | some x =>
            rw [hh] at h
            simp only [Option.toList_some, List.mem_singleton] at h
            rw [h]
      · have hacc1 : acc1 = [] := by
          have := (wn ha).2
          rw [this] at e1
          injection e1 with e1
          exact (congrArg Prod.snd e1).symm
        rw [hacc1, List.append_nil] at hperm
        refine ⟨hperm, ?_⟩
        show crit ++ (match (Interleaved.Write st0
            (sendData l (now ()) Level.info caller (trimRightNewlines p) none)).2 with
          | none => []
          | some err => [critialLine "send error: " err]) = _
        rw [(wn ha).1]
    · rw [if_neg hdone] at hret
      cases hret

/-- C23, witness: `Write` of `test` and a newline on a fresh channel of capacity 100, as
in `TestWrite`, with the consumer making no move: `Flush` writes the record, and on
return the output holds it. -/
theorem Write_interleaved_witness :
    ∃ env2, fineLogger.WriteInterleaved RecorderOutput.traced
        { sink := Interleaved.fresh ([], []) 100, critical := [] } none "test\n"
        [Move.flushTake, Move.flushPut] = some (env2, 5, none) ∧
      env2.sink.chan.input = [] ∧
      (sendData fineLogger 0 Level.info none "test" none ∈ env2.sink.chan.sink.2 ∨
        env2.sink.held = some (sendData fineLogger 0 Level.info none "test" none)) := by
  have h := (Write_interleaved RecorderOutput fineLogger [] 100 []
    (Interleaved.fresh ([], []) 100) [] [] none "test\n" (fun _ => 0) rfl rfl
    (by decide) rfl rfl).2 [Move.flushTake, Move.flushPut]
    { sink := ⟨⟨100, [], ([sendData fineLogger 0 Level.info none "test" none],
        [sendData fineLogger 0 Level.info none "test" none]), false, Consumer.running, []⟩,
        none, none⟩, critical := [] } 5 none
    (by intro m hm
        simp only [List.mem_cons, List.mem_singleton, List.not_mem_nil, or_false] at hm
        rcases hm with h | h <;> rw [h] <;> rfl) rfl
  exact ⟨_, rfl, h.2.2.1, (h.2.2.2.2.1 (Or.inl (by decide))).2⟩

/-- C23, counterexample: `Write` of `test` and a newline on a fresh channel of capacity
100, as in `TestWrite`; the consumer receives the record before `Flush` looks at the
queue, so `Flush` finds the queue empty and the call returns while the output has
received nothing: the consumer still holds the record.  And with a full queue (capacity
1, one record queued) the call returns with the output holding the queued record only:
the message was dropped, as the diagnostic line says. -/
theorem Write_returns_before_delivery_counterexample :
    ((fineLogger.WriteInterleaved RecorderOutput.traced
        { sink := Interleaved.fresh ([], []) 100, critical := [] } none "test\n"
        [Move.receive]).map
      (fun x => (x.1.sink.chan.sink.2, x.1.sink.chan.input,
        x.1.sink.held.map (fun r => Fields.get r KeyMessage), x.2)))
      = some ([], [], some (some (Value.str "test")), 5, none) ∧
    ((fineLogger.WriteInterleaved RecorderOutput.traced
        { sink := fullFine, critical := [] } none "test\n"
        [Move.flushTake, Move.flushPut]).map
      (fun x => (x.1.sink.chan.sink.2, x.1.sink.chan.input, x.1.sink.held, x.1.critical,
        x.2)))
      = some ([rec1 "foo" "bar"], [], none, ["send error: buffer full"], 5, none) ∧
    Fields.get (rec1 "foo" "bar") KeyMessage = none := by
  refine ⟨rfl, rfl, rfl⟩

theorem consumerStep_as_moves {σ R : Type} (o : Output σ R) (st : Interleaved σ R)
    (hh : st.held = none) :
    steps o st [Move.receive, Move.handle]
      = some ({ st with chan := consumerStep o st.chan }, []) := by
  obtain ⟨⟨b, i, s, sn, c, cr⟩, h, f⟩ := st
  simp only at hh
  subst hh
  cases c <;> cases i <;> simp [steps, step, consumerStep]

theorem Flush_as_moves {σ R : Type} (o : Output σ R) (k : Nat) :
    ∀ st : Interleaved σ R, st.chan.input.length = k → st.flushing = none →
      steps o st (List.replicate k [Move.flushTake, Move.flushPut]).flatten
        = some ({ st with chan := OutputChannel.Flush o st.chan }, []) := by
  induction k with
  | zero =>
    intro st hk hf
    have hi : st.chan.input = [] := List.length_eq_zero.mp hk
    obtain ⟨⟨b, i, s, sn, c, cr⟩, h, f⟩ := st
    simp only at hi
    subst hi
    simp [steps, OutputChannel.Flush, flushLoop]
  | succ k ih =>
    intro st hk hf
    obtain ⟨msg, rest, hi⟩ := List.exists_cons_of_ne_nil
      (fun e : st.chan.input = [] => by rw [e] at hk; simp at hk)
    have hrest : rest.length = k := by
      rw [hi] at hk; simpa using hk
    have ht : step o st Move.flushTake
        = some ({ st with chan := { st.chan with input := rest }, flushing := some msg },
            []) := by
      simp [step, hf, hi]
    have hp : step o
        ({ st with chan := { st.chan with input := rest }, flushing := some msg })
        Move.flushPut
        = some ({ st with chan := deliver o { st.chan with input := rest } msg,
                          flushing := none }, []) := by
      simp [step]
    have hl : (List.replicate (k + 1) [(Move.flushTake : Move R), Move.flushPut]).flatten
        = Move.flushTake :: Move.flushPut
            :: (List.replicate k [Move.flushTake, Move.flushPut]).flatten := by
      simp [List.replicate_succ]
    rw [hl, steps_cons_silent o _ _ _ _ ht, steps_cons_silent o _ _ _ _ hp,
      ih _ (by show (deliver o { st.chan with input := rest } msg).input.length = k
               rw [deliver_input]; exact hrest) rfl]
    obtain ⟨⟨b, i, s, sn, c, cr⟩, h, f⟩ := st
    simp only at hi hf
    subst hi hf
    simp [OutputChannel.Flush, flushLoop, deliver_input]

end Xlog
